import Mathlib

/-!
# Verification of the order matching engine core

Shallow embedding of the Go order matching engine:

* `src/engine/orderbook.go` — `PriceLevel`, `OrderBook`, the matching
  algorithms (`matchBuyOrder` / `matchSellOrder`), the market-order
  liquidity pre-check, order insertion and cancellation.
* the `MatchingEngine` file — `SubmitOrder`, `CancelOrder`,
  `GetOrderStatus`, `GetOrderBookSnapshot`, lazy book creation.

Modelling choices, all forced by the Go source:

* Go shares a single mutable `*Order` between the global directory and the
  price-level queue that holds it.  We model the pointer graph with an
  explicit heap `Heap = List (Nat × Order)` mapping addresses to order
  records; the directory and the queues store addresses.  `SubmitOrder`
  allocates a fresh address for each submitted order.
* The two `btree.BTreeG[*PriceLevel]` ordered indexes are modelled as lists
  of price levels kept in comparator order (asks ascending by price, bids
  descending by price, exactly the `AsksSort`/`BidsSort` comparators), so
  the head of the list is the tree's `Min()` and left-to-right traversal is
  `Ascend`.  The auxiliary `bidPriceMap`/`askPriceMap` (price → level) are
  the find-by-price view of the same list; `addBid`/`addAsk` keep them in
  sync by construction, so a list search models the map lookup.
* `int64` quantities and prices are modelled as `Int`.
* `TradeID` (a fresh uuid) and trade timestamps (wall clock) carry no
  logical content and are not modelled; a `Trade` keeps the aggressor id,
  resting id, price and quantity exactly as `createTrade` fills them.
* Go's `container/list` queue of a level is the list of heap addresses,
  head = front.
-/

inductive Side where
  | buy
  | sell
deriving DecidableEq, Repr

inductive OrderType where
  | limit
  | market
deriving DecidableEq, Repr

inductive OrderStatus where
  | accepted
  | partialFill
  | filled
  | cancelled
deriving DecidableEq, Repr

/-- The `Order` record of the Go engine (the internal `element` back-handle
is represented by storing the order's heap address inside the queues and the
`orderMap`, so it needs no field here). -/
structure Order where
  id : String
  symbol : String
  side : Side
  type : OrderType
  price : Int
  quantity : Int
  filledQuantity : Int
  status : OrderStatus
  timestamp : Int
deriving DecidableEq, Repr

/-- `Order.RemainingQuantity` from the Go source. -/
def Order.remainingQuantity (o : Order) : Int :=
  o.quantity - o.filledQuantity

/-- A trade as produced by `createTrade` (uuid and wall-clock timestamp
omitted, see the header comment). -/
structure Trade where
  aggressorOrderId : String
  restingOrderId : String
  price : Int
  quantity : Int
deriving DecidableEq, Repr

/-- A price level: one price and the FIFO queue of resting orders
(addresses into the heap), head of the list = front of the queue. -/
structure PriceLevel where
  price : Int
  orders : List Nat
deriving DecidableEq, Repr

/-- The heap of order records: Go `*Order` pointers become `Nat` addresses. -/
abbrev Heap := List (Nat × Order)

/-- Association-list lookup (first binding wins), modelling a Go map read. -/
def alookup {κ α : Type} [DecidableEq κ] : List (κ × α) → κ → Option α
  | [], _ => none
  | (k, v) :: rest, k' => if k = k' then some v else alookup rest k'

/-- Association-list write (overwrite the existing binding, else append),
modelling a Go map assignment. -/
def aupd {κ α : Type} [DecidableEq κ] : List (κ × α) → κ → α → List (κ × α)
  | [], k, v => [(k, v)]
  | (k0, v0) :: rest, k, v =>
    if k0 = k then (k, v) :: rest else (k0, v0) :: aupd rest k v

/-- Association-list delete, modelling Go `delete(m, k)` (removes every
binding of the key; the maps built with `aupd` never hold duplicates). -/
def aerase {κ α : Type} [DecidableEq κ] : List (κ × α) → κ → List (κ × α)
  | [], _ => []
  | (k0, v0) :: rest, k =>
    if k0 = k then aerase rest k else (k0, v0) :: aerase rest k

/-- Default order record used as the target of a dangling address; a
reachable engine never dereferences one (every queue address is allocated). -/
def defaultOrder : Order :=
  ⟨"", "", Side.buy, OrderType.limit, 0, 0, 0, OrderStatus.accepted, 0⟩

/-- Dereference a heap address (Go pointer dereference). -/
def heapGetD (h : Heap) (a : Nat) : Order :=
  (alookup h a).getD defaultOrder

/-- The per-symbol `OrderBook`: ordered bid index (price descending),
ordered ask index (price ascending), and the `orderMap` from order id to
the queue handle (here: the heap address). -/
structure OrderBook where
  bids : List PriceLevel
  asks : List PriceLevel
  orderMap : List (String × Nat)
deriving DecidableEq, Repr

/-- `NewOrderBook`. -/
def emptyBook : OrderBook := ⟨[], [], []⟩

/-- `AsksSort`: lowest price first. -/
def asksSort (a b : PriceLevel) : Bool := a.price < b.price

/-- `BidsSort`: highest price first. -/
def bidsSort (a b : PriceLevel) : Bool := a.price > b.price

/-- Insertion into the ordered index, keeping comparator order
(`btree.ReplaceOrInsert` on a tree whose contents are already sorted; the
caller only inserts a price that is not yet present). -/
def insertLevel (lt : PriceLevel → PriceLevel → Bool) :
    List PriceLevel → PriceLevel → List PriceLevel
  | [], l => [l]
  | x :: xs, l => if lt l x then l :: x :: xs else x :: insertLevel lt xs l

/-- Enqueue an address at the tail of the level with the given price
(`PriceLevel.AddOrder` on the level found in the price map). -/
def appendToLevel (ls : List PriceLevel) (p : Int) (a : Nat) : List PriceLevel :=
  ls.map fun l => if l.price = p then { l with orders := l.orders ++ [a] } else l

/-- Find the level with a given price (the `bidPriceMap`/`askPriceMap`
lookup; levels of one side carry distinct prices). -/
def findLevel (ls : List PriceLevel) (p : Int) : Option PriceLevel :=
  ls.find? fun l => l.price = p

/-- Remove one address from the level at price `p`, deleting the level when
its queue drains (the body of `removeOrder` after the `orderMap` delete). -/
def removeOrderFromSide (ls : List PriceLevel) (p : Int) (a : Nat) : List PriceLevel :=
  ls.filterMap fun l =>
    if l.price = p then
      let q := l.orders.erase a
      if q.isEmpty then none else some { l with orders := q }
    else some l

/-- Sum of the remaining quantities of a queue, with the early exit of
`checkMarketOrderLiquidity` (stop as soon as the running total reaches the
target). -/
def scanQueue (h : Heap) (target : Int) : List Nat → Int → Int
  | [], acc => acc
  | a :: rest, acc =>
    let acc1 := acc + (heapGetD h a).remainingQuantity
    if target ≤ acc1 then acc1 else scanQueue h target rest acc1

/-- Walk the opposite index in comparator order, accumulating remaining
quantity with early exit (`checkMarketOrderLiquidity`'s `Ascend`). -/
def scanLevels (h : Heap) (target : Int) : List PriceLevel → Int → Int
  | [], acc => acc
  | l :: rest, acc =>
    let acc1 := scanQueue h target l.orders acc
    if target ≤ acc1 then acc1 else scanLevels h target rest acc1

/-- `checkMarketOrderLiquidity`: returns `(totalQuantity, isSufficient)`. -/
def checkMarketOrderLiquidity (h : Heap) (b : OrderBook) (o : Order) : Int × Bool :=
  let total :=
    if o.side = Side.buy then scanLevels h o.quantity b.asks 0
    else scanLevels h o.quantity b.bids 0
  (total, o.quantity ≤ total)

/-- The mutable state threaded through the matching loops: the heap, the
book's `orderMap`, the emitted trades and the fully filled resting orders. -/
structure MatchState where
  heap : Heap
  orderMap : List (String × Nat)
  trades : List Trade
  filled : List Nat
deriving Repr

/-- The inner loop of `matchBuyOrder`/`matchSellOrder`: consume the FIFO
queue of the best level.  One iteration fills against the head: it emits a
trade at the resting order's price, adds the fill to both orders, and
either removes the fully filled resting order (continuing unless the
aggressor is exhausted) or leaves the partially filled resting order at the
head — in that case `min` forces the aggressor's remaining to zero, which
is Go's `return` out of the match function.  Returns the remaining queue
and the updated state. -/
def matchInner (aggrAddr : Nat) : List Nat → MatchState → List Nat × MatchState
  | [], s => ([], s)
  | restAddr :: restQueue, s =>
    let aggr := heapGetD s.heap aggrAddr
    let resting := heapGetD s.heap restAddr
    let tradeQty := min aggr.remainingQuantity resting.remainingQuantity
    let t : Trade := ⟨aggr.id, resting.id, resting.price, tradeQty⟩
    let heap1 := aupd s.heap aggrAddr
      { aggr with filledQuantity := aggr.filledQuantity + tradeQty }
    let resting1 := heapGetD heap1 restAddr
    let resting2 : Order := { resting1 with filledQuantity := resting1.filledQuantity + tradeQty }
    if resting2.remainingQuantity = 0 then
      let s1 : MatchState :=
        { heap := aupd heap1 restAddr { resting2 with status := OrderStatus.filled },
          orderMap := aerase s.orderMap resting.id,
          trades := s.trades ++ [t],
          filled := s.filled ++ [restAddr] }
      if (heapGetD s1.heap aggrAddr).remainingQuantity = 0 then (restQueue, s1)
      else matchInner aggrAddr restQueue s1
    else
      let s1 : MatchState :=
        { s with
          heap := aupd heap1 restAddr { resting2 with status := OrderStatus.partialFill },
          trades := s.trades ++ [t] }
      (restAddr :: restQueue, s1)

/-- The outer loop of `matchBuyOrder`/`matchSellOrder`: walk the opposite
ordered index best level first.  `stop` is the limit-price break test
(`order.Type == Limit && order.Price < best.Price` for a buy, with `>` for
a sell).  A level whose queue drains is removed from the index before the
walk continues (Go removes it inside `removeOrder` the moment the last
order leaves). -/
def matchOuter (aggrAddr : Nat) (stop : Order → Int → Bool) :
    List PriceLevel → MatchState → List PriceLevel × MatchState
  | [], s => ([], s)
  | best :: rest, s =>
    let aggr := heapGetD s.heap aggrAddr
    if 0 < aggr.remainingQuantity then
      if stop aggr best.price then (best :: rest, s)
      else
        let res := matchInner aggrAddr best.orders s
        if res.1.isEmpty then
          if (heapGetD res.2.heap aggrAddr).remainingQuantity = 0 then (rest, res.2)
          else matchOuter aggrAddr stop rest res.2
        else ({ best with orders := res.1 } :: rest, res.2)
    else (best :: rest, s)

/-- The limit-price break test of `matchBuyOrder`. -/
def buyStop (o : Order) (levelPrice : Int) : Bool :=
  o.type = OrderType.limit ∧ o.price < levelPrice

/-- The limit-price break test of `matchSellOrder`. -/
def sellStop (o : Order) (levelPrice : Int) : Bool :=
  o.type = OrderType.limit ∧ levelPrice < o.price

/-- `addBid`: find-or-create the bid level at the order's price, enqueue at
the tail, record the handle in the `orderMap`. -/
def addBid (h : Heap) (b : OrderBook) (a : Nat) : OrderBook :=
  let o := heapGetD h a
  match findLevel b.bids o.price with
  | some _ =>
    { b with bids := appendToLevel b.bids o.price a, orderMap := aupd b.orderMap o.id a }
  | none =>
    { b with bids := insertLevel bidsSort b.bids ⟨o.price, [a]⟩,
             orderMap := aupd b.orderMap o.id a }

/-- `addAsk`. -/
def addAsk (h : Heap) (b : OrderBook) (a : Nat) : OrderBook :=
  let o := heapGetD h a
  match findLevel b.asks o.price with
  | some _ =>
    { b with asks := appendToLevel b.asks o.price a, orderMap := aupd b.orderMap o.id a }
  | none =>
    { b with asks := insertLevel asksSort b.asks ⟨o.price, [a]⟩,
             orderMap := aupd b.orderMap o.id a }

/-- `addOrder`: dispatch on the order's side. -/
def addOrder (h : Heap) (b : OrderBook) (a : Nat) : OrderBook :=
  if (heapGetD h a).side = Side.buy then addBid h b a else addAsk h b a

/-- `ProcessOrderResponse`. -/
structure ProcessOrderResponse where
  trades : List Trade
  filledRestingOrders : List Nat
  orderInBook : Bool
  isMarketOrder : Bool
deriving Repr

/-- `OrderBook.ProcessOrder`: match, then rest an unfilled LIMIT remainder
(marking `PARTIAL_FILL` when any quantity filled), else mark a fully
consumed aggressor `FILLED`. -/
def processOrder (h : Heap) (b : OrderBook) (aggrAddr : Nat) :
    Heap × OrderBook × ProcessOrderResponse :=
  let o := heapGetD h aggrAddr
  let s0 : MatchState := ⟨h, b.orderMap, [], []⟩
  let matched :=
    if o.side = Side.buy then
      let res := matchOuter aggrAddr buyStop b.asks s0
      ({ b with asks := res.1, orderMap := res.2.orderMap }, res.2)
    else
      let res := matchOuter aggrAddr sellStop b.bids s0
      ({ b with bids := res.1, orderMap := res.2.orderMap }, res.2)
  let b1 := matched.1
  let s1 := matched.2
  let o1 := heapGetD s1.heap aggrAddr
  if o1.type = OrderType.limit ∧ 0 < o1.remainingQuantity then
    let b2 := addOrder s1.heap b1 aggrAddr
    let heap2 :=
      if 0 < o1.filledQuantity then
        aupd s1.heap aggrAddr { o1 with status := OrderStatus.partialFill }
      else s1.heap
    (heap2, b2, ⟨s1.trades, s1.filled, true, o1.type = OrderType.market⟩)
  else if o1.remainingQuantity = 0 then
    (aupd s1.heap aggrAddr { o1 with status := OrderStatus.filled }, b1,
      ⟨s1.trades, s1.filled, false, o1.type = OrderType.market⟩)
  else
    (s1.heap, b1, ⟨s1.trades, s1.filled, false, o1.type = OrderType.market⟩)

/-- `OrderBook.CancelOrder`: look up the handle in the `orderMap`; if absent
report `false`; else drop the `orderMap` binding and detach the order from
its level (`removeOrder`), deleting a drained level. -/
def bookCancelOrder (h : Heap) (b : OrderBook) (orderId : String) : OrderBook × Bool :=
  match alookup b.orderMap orderId with
  | none => (b, false)
  | some a =>
    let o := heapGetD h a
    let b1 :=
      if o.side = Side.buy then
        { b with orderMap := aerase b.orderMap o.id,
                 bids := removeOrderFromSide b.bids o.price a }
      else
        { b with orderMap := aerase b.orderMap o.id,
                 asks := removeOrderFromSide b.asks o.price a }
    (b1, true)

/-- The `MatchingEngine`: heap of order records, allocation counter, the
symbol→book map, the symbol→lock map (only key presence is meaningful in a
sequential model) and the global order directory. -/
structure Engine where
  heap : Heap
  nextAddr : Nat
  books : List (String × OrderBook)
  locks : List String
  orderStore : List (String × Nat)
deriving Repr

/-- `NewMatchingEngine`. -/
def newEngine : Engine := ⟨[], 0, [], [], []⟩

/-- `getBookAndLock`: fetch the symbol's book, lazily creating the empty
book and its lock on first use. -/
def getBookAndLock (e : Engine) (sym : String) : Engine × OrderBook :=
  match alookup e.books sym with
  | some b => (e, b)
  | none =>
    ({ e with books := aupd e.books sym emptyBook, locks := sym :: e.locks },
      emptyBook)

/-- The book currently associated with a symbol (the empty book when the
symbol is unknown, exactly what `getBookAndLock` would hand out). -/
def bookOf (e : Engine) (sym : String) : OrderBook :=
  (alookup e.books sym).getD emptyBook

/-- The insufficient-liquidity rejection, carrying the observed available
quantity and the requested quantity. -/
structure SubmitError where
  available : Int
  requested : Int
deriving DecidableEq, Repr

inductive CancelError where
  | orderNotFound
  | alreadyTerminal
deriving DecidableEq, Repr

/-- `NewOrder` (the submission timestamp is caller-supplied here, as in the
engine's tests; `time.Now` is environment input). -/
def newOrder (id symbol : String) (side : Side) (type_ : OrderType)
    (price quantity ts : Int) : Order :=
  ⟨id, symbol, side, type_, price, quantity, 0, OrderStatus.accepted, ts⟩

/-- `SubmitOrder`: register the order in the global directory, allocate its
record, run the market-order pre-check (rejecting with no book mutation and
deleting the directory entry), else run `ProcessOrder`. -/
def submitOrder (e : Engine) (o : Order) : Engine × Except SubmitError ProcessOrderResponse :=
  let gb := getBookAndLock e o.symbol
  let e1 := gb.1
  let book := gb.2
  let addr := e1.nextAddr
  let e2 : Engine :=
    { e1 with heap := e1.heap ++ [(addr, o)], nextAddr := addr + 1,
              orderStore := aupd e1.orderStore o.id addr }
  if o.type = OrderType.market ∧ (checkMarketOrderLiquidity e2.heap book o).2 = false then
    ({ e2 with orderStore := aerase e2.orderStore o.id },
      Except.error ⟨(checkMarketOrderLiquidity e2.heap book o).1, o.quantity⟩)
  else
    let res := processOrder e2.heap book addr
    ({ e2 with heap := res.1, books := aupd e2.books o.symbol res.2.1 },
      Except.ok res.2.2)

/-- `CancelOrder`: directory lookup; missing → not-found; terminal status →
already-terminal; else mark `CANCELLED` and detach from the book. -/
def cancelOrder (e : Engine) (orderId : String) : Engine × Except CancelError Order :=
  match alookup e.orderStore orderId with
  | none => (e, Except.error CancelError.orderNotFound)
  | some a =>
    let o := heapGetD e.heap a
    if o.status = OrderStatus.filled ∨ o.status = OrderStatus.cancelled then
      (e, Except.error CancelError.alreadyTerminal)
    else
      let o1 := { o with status := OrderStatus.cancelled }
      let e1 : Engine := { e with heap := aupd e.heap a o1 }
      let gb := getBookAndLock e1 o.symbol
      let bc := bookCancelOrder gb.1.heap gb.2 orderId
      ({ gb.1 with books := aupd gb.1.books o.symbol bc.1 }, Except.ok o1)

/-- `GetOrderStatus`: directory read; the Go defensive copy is implicit in
a pure model. -/
def getOrderStatus (e : Engine) (orderId : String) : Option Order :=
  (alookup e.orderStore orderId).map (heapGetD e.heap)

/-- An aggregated snapshot entry. -/
structure AggregatedPriceLevel where
  price : Int
  quantity : Int
deriving DecidableEq, Repr

/-- One side of `GetOrderBookSnapshot`: walk the index in natural order,
sum each level's remaining quantities, emit levels with positive aggregate,
stop after `depth` emitted levels when `depth > 0`. -/
def aggregateSide (h : Heap) (depth : Nat) : List PriceLevel → Nat → List AggregatedPriceLevel
  | [], _ => []
  | l :: rest, count =>
    if 0 < depth ∧ depth ≤ count then []
    else
      let total := (l.orders.map fun a => (heapGetD h a).remainingQuantity).sum
      if 0 < total then
        ⟨l.price, total⟩ :: aggregateSide h depth rest (count + 1)
      else aggregateSide h depth rest count

/-- `GetOrderBookSnapshot`: returns `(engine, bids, asks)`; the engine is
returned because `getBookAndLock` lazily creates the book of an unknown
symbol. -/
def getOrderBookSnapshot (e : Engine) (sym : String) (depth : Nat) :
    Engine × List AggregatedPriceLevel × List AggregatedPriceLevel :=
  let gb := getBookAndLock e sym
  (gb.1, aggregateSide gb.1.heap depth gb.2.bids 0,
    aggregateSide gb.1.heap depth gb.2.asks 0)

/-- A caller-visible operation on the engine (submissions build the order
with `NewOrder`, as the HTTP boundary does). -/
inductive Op where
  | submit (id symbol : String) (side : Side) (type_ : OrderType) (price quantity ts : Int)
  | cancel (id : String)

/-- Run one operation, returning the trades it emitted (none on error). -/
def runOp (e : Engine) (op : Op) : Engine × List Trade :=
  match op with
  | Op.submit id sym side t p q ts =>
    match submitOrder e (newOrder id sym side t p q ts) with
    | (e1, Except.ok resp) => (e1, resp.trades)
    | (e1, Except.error _) => (e1, [])
  | Op.cancel id => ((cancelOrder e id).1, [])

/-- Run a sequence of operations from a given engine, accumulating the
emitted trades in emission order. -/
def runOps : Engine → List Op → Engine × List Trade
  | e, [] => (e, [])
  | e, op :: rest =>
    let r := runOp e op
    let r2 := runOps r.1 rest
    (r2.1, r.2 ++ r2.2)

/-- The queue contents of one side's ordered index, best level first
(concatenation of the FIFO queues in index order): the sequence in which
matching consumes resting orders. -/
def sideAddrs : List PriceLevel → List Nat
  | [] => []
  | l :: ls => l.orders ++ sideAddrs ls

/-- All queue addresses of a book (bids then asks). -/
def bookAddrs (b : OrderBook) : List Nat :=
  sideAddrs b.bids ++ sideAddrs b.asks

/-- Sum of remaining quantities over a list of addresses (the mathematical
total the liquidity pre-check approximates with its early exit). -/
def sumRem (h : Heap) (q : List Nat) : Int :=
  (q.map fun a => (heapGetD h a).remainingQuantity).sum

/-- Sum of the quantities of a list of trades. -/
def sumQty (ts : List Trade) : Int :=
  (ts.map Trade.quantity).sum

/-- Declarative (spec-side) form of one snapshot side: one entry
`{price, aggregated remaining}` per level with positive total, in the
index's order; zero-total levels are skipped. -/
def snapshotSideSpec (h : Heap) (ls : List PriceLevel) : List AggregatedPriceLevel :=
  ls.filterMap fun l =>
    if 0 < sumRem h l.orders then some ⟨l.price, sumRem h l.orders⟩ else none

/-- Sum of the quantities of the trades naming a given order identifier
(as aggressor or as resting counterparty). -/
def tradesFor (i : String) (ts : List Trade) : Int :=
  (ts.map fun t =>
    if t.aggressorOrderId = i ∨ t.restingOrderId = i then t.quantity else 0).sum

/-- The immutable part of an order record: everything except the filled
quantity and the status (matching and cancellation only ever write those
two fields). -/
def Order.core (o : Order) : String × String × Side × OrderType × Int × Int × Int :=
  (o.id, o.symbol, o.side, o.type, o.price, o.quantity, o.timestamp)

/-- The identifiers of all order records ever allocated. -/
def heapIds (h : Heap) : List String :=
  h.map fun p => p.2.id

/-- The fill quantity of one matching iteration:
`min(incoming remaining, resting remaining)`. -/
def fillQty (h : Heap) (A r : Nat) : Int :=
  min (heapGetD h A).remainingQuantity (heapGetD h r).remainingQuantity

/-- The trade emitted by one matching iteration (aggressor at address `A`,
resting head at address `r`), priced at the resting order. -/
def stepTrade (h : Heap) (A r : Nat) : Trade :=
  ⟨(heapGetD h A).id, (heapGetD h r).id, (heapGetD h r).price, fillQty h A r⟩

/-- The heap after one matching iteration: the aggressor's filled quantity
and the resting order's filled quantity both grow by the fill, and the
resting order's status becomes `st` (`FILLED` or `PARTIAL_FILL`).  Equal to
the heap built inside `matchInner` whenever `A ≠ r`. -/
def stepHeap (h : Heap) (A r : Nat) (st : OrderStatus) : Heap :=
  aupd (aupd h A { heapGetD h A with
      filledQuantity := (heapGetD h A).filledQuantity + fillQty h A r }) r
    { heapGetD h r with
      filledQuantity := (heapGetD h r).filledQuantity + fillQty h A r, status := st }

/-- The matching state after an iteration that fully consumes the resting
head: it also leaves the `orderMap` without the resting order's binding and
records the fully filled resting order. -/
def fullState (A r : Nat) (s : MatchState) : MatchState :=
  ⟨stepHeap s.heap A r OrderStatus.filled, aerase s.orderMap (heapGetD s.heap r).id,
    s.trades ++ [stepTrade s.heap A r], s.filled ++ [r]⟩

/-- The matching state after an iteration that only partially fills the
resting head (which then stays at the head of its queue). -/
def partialState (A r : Nat) (s : MatchState) : MatchState :=
  ⟨stepHeap s.heap A r OrderStatus.partialFill, s.orderMap,
    s.trades ++ [stepTrade s.heap A r], s.filled⟩

/-- The FIFO queue at a given price on one side (empty when no level holds
that price). -/
def queueAt (ls : List PriceLevel) (p : Int) : List Nat :=
  ((findLevel ls p).map PriceLevel.orders).getD []

/-- The identifiers of the submissions of an operation sequence. -/
def submitIds : List Op → List String
  | [] => []
  | Op.submit id _ _ _ _ _ _ :: rest => id :: submitIds rest
  | Op.cancel _ :: rest => submitIds rest

/-- The input conditions §6 of the specification requires callers to
enforce, as far as quantities are concerned: a submission carries a
positive quantity. -/
def ValidOp : Op → Prop
  | Op.submit _ _ _ _ _ q _ => 0 < q
  | Op.cancel _ => True

/-- A caller-conforming operation sequence: positive quantities and
globally unique submitted identifiers (§6). -/
def ValidOps (ops : List Op) : Prop :=
  (submitIds ops).Nodup ∧ ∀ op ∈ ops, ValidOp op

/-- All queue addresses across all books of the engine. -/
def addrsOfBooks : List (String × OrderBook) → List Nat
  | [] => []
  | (_, b) :: rest => bookAddrs b ++ addrsOfBooks rest

/-- Well-formedness of one side of a book: no empty levels (a drained
level is deleted at once), every resting order is an allocated record of
this symbol and side at its level's price with positive remaining quantity
and a live status, and level prices are pairwise distinct. -/
def SideWf (h : Heap) (n : Nat) (sym : String) (side : Side)
    (ls : List PriceLevel) : Prop :=
  (∀ l ∈ ls, l.orders ≠ []) ∧
  (∀ l ∈ ls, ∀ a ∈ l.orders,
    a < n ∧ (heapGetD h a).symbol = sym ∧ (heapGetD h a).side = side ∧
    (heapGetD h a).price = l.price ∧
    0 < (heapGetD h a).remainingQuantity ∧
    ((heapGetD h a).status = OrderStatus.accepted ∨
     (heapGetD h a).status = OrderStatus.partialFill)) ∧
  (ls.map PriceLevel.price).Nodup

/-- Well-formedness of a whole book: both sides are well formed and the
`orderMap` is exactly the index of the resting orders by identifier. -/
def BookWf (h : Heap) (n : Nat) (sym : String) (b : OrderBook) : Prop :=
  SideWf h n sym Side.buy b.bids ∧
  SideWf h n sym Side.sell b.asks ∧
  (∀ i a, alookup b.orderMap i = some a → a ∈ bookAddrs b ∧ (heapGetD h a).id = i) ∧
  (∀ a ∈ bookAddrs b, alookup b.orderMap ((heapGetD h a).id) = some a)

/-- The structural invariant of a reachable engine: addresses are
allocated consecutively, identifiers are unique, the directory points at
allocated records carrying the same identifier, queue addresses are
globally distinct, every book is well formed, and every non-terminal
directory order is resting in its symbol's book. -/
def EngineWf (e : Engine) : Prop :=
  (∀ a, (alookup e.heap a).isSome ↔ a < e.nextAddr) ∧
  (((List.range e.nextAddr).map fun a => (heapGetD e.heap a).id).Nodup) ∧
  (∀ i a, alookup e.orderStore i = some a →
    a < e.nextAddr ∧ (heapGetD e.heap a).id = i) ∧
  ((addrsOfBooks e.books).Nodup) ∧
  ((e.books.map Prod.fst).Nodup) ∧
  (∀ sym b, alookup e.books sym = some b → BookWf e.heap e.nextAddr sym b) ∧
  (∀ i a, alookup e.orderStore i = some a →
    ((heapGetD e.heap a).status = OrderStatus.accepted ∨
     (heapGetD e.heap a).status = OrderStatus.partialFill) →
    ∃ b, alookup e.books ((heapGetD e.heap a).symbol) = some b ∧
      alookup b.orderMap i = some a)

/-- The trade-conservation invariant (§8 items 1 and 7): filled quantities
stay within bounds, the trades naming an order sum to its filled quantity,
every trade has positive quantity, and trades only name allocated orders. -/
def ConsInv (e : Engine) (ts : List Trade) : Prop :=
  (∀ a, a < e.nextAddr →
    0 ≤ (heapGetD e.heap a).filledQuantity ∧
    (heapGetD e.heap a).filledQuantity ≤ (heapGetD e.heap a).quantity) ∧
  (∀ a, a < e.nextAddr →
    tradesFor ((heapGetD e.heap a).id) ts = (heapGetD e.heap a).filledQuantity) ∧
  (∀ t ∈ ts, 0 < t.quantity) ∧
  (∀ t ∈ ts,
    (∃ a, a < e.nextAddr ∧ t.aggressorOrderId = (heapGetD e.heap a).id) ∧
    (∃ a, a < e.nextAddr ∧ t.restingOrderId = (heapGetD e.heap a).id))

/-- The part of the reachable-state invariant the conservation argument
needs: globally distinct queue addresses, distinct book keys, every queue
address allocated with positive remaining quantity, per-side distinct level
prices, globally distinct identifiers, unallocated addresses absent from
the heap, directory entries pointing below the allocation counter, and the
conservation facts themselves. -/
def ReachInv (e : Engine) (ts : List Trade) : Prop :=
  (addrsOfBooks e.books).Nodup ∧
  (e.books.map Prod.fst).Nodup ∧
  (∀ sym b, alookup e.books sym = some b → ∀ a ∈ bookAddrs b, a < e.nextAddr) ∧
  (∀ sym b, alookup e.books sym = some b →
    ∀ a ∈ bookAddrs b, 0 < (heapGetD e.heap a).remainingQuantity) ∧
  (∀ sym b, alookup e.books sym = some b →
    (b.bids.map PriceLevel.price).Nodup ∧ (b.asks.map PriceLevel.price).Nodup) ∧
  (((List.range e.nextAddr).map fun a => (heapGetD e.heap a).id).Nodup) ∧
  (∀ a, e.nextAddr ≤ a → alookup e.heap a = none) ∧
  (∀ i a, alookup e.orderStore i = some a → a < e.nextAddr) ∧
  ConsInv e ts

/-- The flattened opposite side an order matches against (asks for a buy,
bids for a sell), best price first. -/
def oppAddrs (b : OrderBook) (side : Side) : List Nat :=
  if side = Side.buy then sideAddrs b.asks else sideAddrs b.bids

/-- A concrete conforming operation sequence: two crossing limit orders on
one symbol. -/
def c8WitnessOps : List Op :=
  [Op.submit "b1" "S" Side.buy OrderType.limit 10 5 1,
   Op.submit "a1" "S" Side.sell OrderType.limit 10 3 2]

/-! ## Association list lemmas -/

theorem alookup_aupd {κ α : Type} [DecidableEq κ] (l : List (κ × α)) (k k' : κ) (v : α) :
    alookup (aupd l k v) k' = if k = k' then some v else alookup l k' := by
  induction l with
  | nil => simp [aupd, alookup]
  | cons p rest ih =>
    obtain ⟨k0, v0⟩ := p
    by_cases h0 : k0 = k
    · subst h0
      by_cases h1 : k0 = k'
      · subst h1; simp [aupd, alookup]
      · simp [aupd, alookup, h1]
    · by_cases h1 : k0 = k'
      · subst h1
        have hkk : ¬ k = k0 := fun h => h0 h.symm
        simp [aupd, alookup, h0, hkk]
      · simp [aupd, alookup, h0, h1, ih]

theorem alookup_aerase {κ α : Type} [DecidableEq κ] (l : List (κ × α)) (k k' : κ) :
    alookup (aerase l k) k' = if k = k' then none else alookup l k' := by
  induction l with
  | nil => simp [aerase, alookup]
  | cons p rest ih =>
    obtain ⟨k0, v0⟩ := p
    by_cases h0 : k0 = k
    · subst h0
      by_cases h1 : k0 = k'
      · subst h1; simp [aerase, alookup, ih]
      · simp [aerase, alookup, h1, ih]
    · by_cases h1 : k0 = k'
      · subst h1
        have hkk : ¬ k = k0 := fun h => h0 h.symm
        simp [aerase, alookup, h0, hkk]
      · simp [aerase, alookup, h0, h1, ih]

theorem alookup_append_left {κ α : Type} [DecidableEq κ] (l1 l2 : List (κ × α)) (k : κ)
    (h : (alookup l1 k).isSome) : alookup (l1 ++ l2) k = alookup l1 k := by
  induction l1 with
  | nil => simp [alookup] at h
  | cons p rest ih =>
    obtain ⟨k0, v0⟩ := p
    by_cases h0 : k0 = k
    · simp [alookup, h0]
    · simp only [alookup, h0, if_false] at h ⊢
      exact ih h

theorem alookup_append_right {κ α : Type} [DecidableEq κ] (l1 l2 : List (κ × α)) (k : κ)
    (h : alookup l1 k = none) : alookup (l1 ++ l2) k = alookup l2 k := by
  induction l1 with
  | nil => simp [alookup]
  | cons p rest ih =>
    obtain ⟨k0, v0⟩ := p
    by_cases h0 : k0 = k
    · simp [alookup, h0] at h
    · simp only [alookup, h0, if_false] at h ⊢
      exact ih h

theorem heapGetD_aupd_self (h : Heap) (a : Nat) (v : Order) :
    heapGetD (aupd h a v) a = v := by
  simp [heapGetD, alookup_aupd]

theorem heapGetD_aupd_ne (h : Heap) (a b : Nat) (v : Order) (hne : a ≠ b) :
    heapGetD (aupd h a v) b = heapGetD h b := by
  simp [heapGetD, alookup_aupd, hne]

/-! ## Core-field preservation -/

theorem core_eq_iff (o o' : Order) : o.core = o'.core ↔
    o.id = o'.id ∧ o.symbol = o'.symbol ∧ o.side = o'.side ∧ o.type = o'.type ∧
    o.price = o'.price ∧ o.quantity = o'.quantity ∧ o.timestamp = o'.timestamp := by
  simp [Order.core, Prod.ext_iff]

theorem heapGetD_core_aupd (h : Heap) (x b : Nat) (v : Order)
    (hv : v.core = (heapGetD h x).core) :
    (heapGetD (aupd h x v) b).core = (heapGetD h b).core := by
  by_cases hb : x = b
  · subst hb; rw [heapGetD_aupd_self, hv]
  · rw [heapGetD_aupd_ne _ _ _ _ hb]

/-- The heap after the two writes of one matching iteration (aggressor
fill, then resting fill with a status change) preserves every order's core
fields. -/
theorem heapGetD_core_writes (h : Heap) (A r b : Nat) (f1 f2 : Int) (st : OrderStatus) :
    (heapGetD (aupd (aupd h A { heapGetD h A with filledQuantity := f1 }) r
        { heapGetD (aupd h A { heapGetD h A with filledQuantity := f1 }) r with
          filledQuantity := f2, status := st }) b).core
      = (heapGetD h b).core := by
  have hv1 : ({ heapGetD h A with filledQuantity := f1 } : Order).core
      = (heapGetD h A).core := rfl
  have hv2 : ({ heapGetD (aupd h A { heapGetD h A with filledQuantity := f1 }) r with
      filledQuantity := f2, status := st } : Order).core
      = (heapGetD (aupd h A { heapGetD h A with filledQuantity := f1 }) r).core := rfl
  rw [heapGetD_core_aupd _ _ _ _ hv2, heapGetD_core_aupd _ _ _ _ hv1]

/-- Matching never changes an order's identifier, symbol, side, type,
price, original quantity or timestamp — only filled quantities and
statuses are written. -/
theorem matchInner_core (A : Nat) (q : List Nat) (s : MatchState) (b : Nat) :
    (heapGetD (matchInner A q s).2.heap b).core = (heapGetD s.heap b).core := by
  induction q generalizing s with
  | nil => simp [matchInner]
  | cons r rest ih =>
    simp only [matchInner]
    split_ifs with h1 h2
    · exact heapGetD_core_writes _ _ _ _ _ _ _
    · rw [ih]
      exact heapGetD_core_writes _ _ _ _ _ _ _
    · exact heapGetD_core_writes _ _ _ _ _ _ _

theorem core_eq_id {o o' : Order} (h : o.core = o'.core) : o.id = o'.id :=
  ((core_eq_iff o o').1 h).1

theorem core_eq_price {o o' : Order} (h : o.core = o'.core) : o.price = o'.price :=
  ((core_eq_iff o o').1 h).2.2.2.2.1

theorem core_eq_quantity {o o' : Order} (h : o.core = o'.core) : o.quantity = o'.quantity :=
  ((core_eq_iff o o').1 h).2.2.2.2.2.1

theorem core_eq_type {o o' : Order} (h : o.core = o'.core) : o.type = o'.type :=
  ((core_eq_iff o o').1 h).2.2.2.1

theorem core_eq_side {o o' : Order} (h : o.core = o'.core) : o.side = o'.side :=
  ((core_eq_iff o o').1 h).2.2.1

theorem core_eq_symbol {o o' : Order} (h : o.core = o'.core) : o.symbol = o'.symbol :=
  ((core_eq_iff o o').1 h).2.1

theorem alookup_aupd_ne {κ α : Type} [DecidableEq κ] (l : List (κ × α)) (k k' : κ) (v : α)
    (h : k ≠ k') : alookup (aupd l k v) k' = alookup l k' := by
  simp [alookup_aupd, h]

/-- An address that is neither the aggressor nor in the queue is untouched
by the inner matching loop. -/
theorem matchInner_untouched (A : Nat) (q : List Nat) (s : MatchState) (b : Nat)
    (hbA : b ≠ A) (hbq : b ∉ q) :
    alookup (matchInner A q s).2.heap b = alookup s.heap b := by
  induction q generalizing s with
  | nil => simp [matchInner]
  | cons r rest ih =>
    have hbr : b ≠ r := fun h => hbq (h ▸ List.mem_cons_self r rest)
    have hbrest : b ∉ rest := fun h => hbq (List.mem_cons_of_mem _ h)
    simp only [matchInner]
    split_ifs with h1 h2
    · rw [alookup_aupd_ne _ _ _ _ (Ne.symm hbr), alookup_aupd_ne _ _ _ _ (Ne.symm hbA)]
    · rw [ih _ hbrest]
      rw [alookup_aupd_ne _ _ _ _ (Ne.symm hbr), alookup_aupd_ne _ _ _ _ (Ne.symm hbA)]
    · rw [alookup_aupd_ne _ _ _ _ (Ne.symm hbr), alookup_aupd_ne _ _ _ _ (Ne.symm hbA)]

theorem tradesFor_nil (i : String) : tradesFor i [] = 0 := rfl

theorem tradesFor_cons (i : String) (t : Trade) (ts : List Trade) :
    tradesFor i (t :: ts)
      = (if t.aggressorOrderId = i ∨ t.restingOrderId = i then t.quantity else 0)
        + tradesFor i ts := by
  simp [tradesFor]

theorem tradesFor_append (i : String) (ts1 ts2 : List Trade) :
    tradesFor i (ts1 ++ ts2) = tradesFor i ts1 + tradesFor i ts2 := by
  simp [tradesFor]

theorem tradesFor_eq_zero {i : String} {ts : List Trade}
    (h : ∀ t ∈ ts, t.aggressorOrderId ≠ i ∧ t.restingOrderId ≠ i) :
    tradesFor i ts = 0 := by
  induction ts with
  | nil => rfl
  | cons t rest ih =>
    rw [tradesFor_cons]
    have ht := h t (List.mem_cons_self t rest)
    rw [if_neg (by tauto), ih fun t' ht' => h t' (List.mem_cons_of_mem _ ht')]
    ring

theorem tradesFor_eq_sumQty {i : String} {ts : List Trade}
    (h : ∀ t ∈ ts, t.aggressorOrderId = i ∨ t.restingOrderId = i) :
    tradesFor i ts = sumQty ts := by
  induction ts with
  | nil => rfl
  | cons t rest ih =>
    rw [tradesFor_cons, if_pos (h t (List.mem_cons_self t rest)),
      ih fun t' ht' => h t' (List.mem_cons_of_mem _ ht')]
    simp [sumQty]

theorem sumQty_nil : sumQty [] = 0 := rfl

theorem sumQty_cons (t : Trade) (ts : List Trade) :
    sumQty (t :: ts) = t.quantity + sumQty ts := by simp [sumQty]

theorem sumQty_append (ts1 ts2 : List Trade) :
    sumQty (ts1 ++ ts2) = sumQty ts1 + sumQty ts2 := by simp [sumQty]

theorem sumRem_nil (h : Heap) : sumRem h [] = 0 := rfl

theorem sumRem_cons (h : Heap) (a : Nat) (q : List Nat) :
    sumRem h (a :: q) = (heapGetD h a).remainingQuantity + sumRem h q := by
  simp [sumRem]

theorem sumRem_append (h : Heap) (q1 q2 : List Nat) :
    sumRem h (q1 ++ q2) = sumRem h q1 + sumRem h q2 := by
  simp [sumRem]

theorem sumRem_nonneg {h : Heap} {q : List Nat}
    (hpos : ∀ a ∈ q, 0 < (heapGetD h a).remainingQuantity) : 0 ≤ sumRem h q := by
  induction q with
  | nil => simp [sumRem_nil]
  | cons a rest ih =>
    rw [sumRem_cons]
    have h1 := hpos a (List.mem_cons_self a rest)
    have h2 := ih fun b hb => hpos b (List.mem_cons_of_mem _ hb)
    omega

theorem sumRem_congr {h h' : Heap} {q : List Nat}
    (heq : ∀ a ∈ q, heapGetD h' a = heapGetD h a) : sumRem h' q = sumRem h q := by
  unfold sumRem
  exact congrArg List.sum (List.map_congr_left fun a ha => by rw [heq a ha])

theorem remainingQuantity_update_filled (o : Order) (f : Int) :
    ({ o with filledQuantity := f } : Order).remainingQuantity = o.quantity - f := rfl

theorem remainingQuantity_update_filled_status (o : Order) (f : Int) (st : OrderStatus) :
    ({ o with filledQuantity := f, status := st } : Order).remainingQuantity
      = o.quantity - f := rfl

theorem fillQty_def (h : Heap) (A r : Nat) :
    fillQty h A r
      = min (heapGetD h A).remainingQuantity (heapGetD h r).remainingQuantity := rfl

theorem stepHeap_A (h : Heap) (A r : Nat) (st : OrderStatus) (hAr : A ≠ r) :
    heapGetD (stepHeap h A r st) A
      = { heapGetD h A with
          filledQuantity := (heapGetD h A).filledQuantity + fillQty h A r } := by
  unfold stepHeap
  rw [heapGetD_aupd_ne _ _ _ _ (Ne.symm hAr), heapGetD_aupd_self]

theorem stepHeap_r (h : Heap) (A r : Nat) (st : OrderStatus) :
    heapGetD (stepHeap h A r st) r
      = { heapGetD h r with
          filledQuantity := (heapGetD h r).filledQuantity + fillQty h A r,
          status := st } := by
  unfold stepHeap
  rw [heapGetD_aupd_self]

theorem stepHeap_other (h : Heap) (A r b : Nat) (st : OrderStatus)
    (hbA : b ≠ A) (hbr : b ≠ r) :
    heapGetD (stepHeap h A r st) b = heapGetD h b := by
  unfold stepHeap
  rw [heapGetD_aupd_ne _ _ _ _ (Ne.symm hbr), heapGetD_aupd_ne _ _ _ _ (Ne.symm hbA)]

theorem stepHeap_other_alookup (h : Heap) (A r b : Nat) (st : OrderStatus)
    (hbA : b ≠ A) (hbr : b ≠ r) :
    alookup (stepHeap h A r st) b = alookup h b := by
  unfold stepHeap
  rw [alookup_aupd_ne _ _ _ _ (Ne.symm hbr), alookup_aupd_ne _ _ _ _ (Ne.symm hbA)]

theorem rem_stepHeap_A (h : Heap) (A r : Nat) (st : OrderStatus) (hAr : A ≠ r) :
    (heapGetD (stepHeap h A r st) A).remainingQuantity
      = (heapGetD h A).remainingQuantity - fillQty h A r := by
  rw [stepHeap_A _ _ _ _ hAr]
  simp only [Order.remainingQuantity]
  ring

theorem rem_stepHeap_r (h : Heap) (A r : Nat) (st : OrderStatus) :
    (heapGetD (stepHeap h A r st) r).remainingQuantity
      = (heapGetD h r).remainingQuantity - fillQty h A r := by
  rw [stepHeap_r]
  simp only [Order.remainingQuantity]
  ring

theorem fullState_heap (A r : Nat) (s : MatchState) :
    (fullState A r s).heap = stepHeap s.heap A r OrderStatus.filled := rfl

theorem fullState_orderMap (A r : Nat) (s : MatchState) :
    (fullState A r s).orderMap = aerase s.orderMap (heapGetD s.heap r).id := rfl

theorem fullState_trades (A r : Nat) (s : MatchState) :
    (fullState A r s).trades = s.trades ++ [stepTrade s.heap A r] := rfl

theorem partialState_heap (A r : Nat) (s : MatchState) :
    (partialState A r s).heap = stepHeap s.heap A r OrderStatus.partialFill := rfl

theorem partialState_orderMap (A r : Nat) (s : MatchState) :
    (partialState A r s).orderMap = s.orderMap := rfl

theorem partialState_trades (A r : Nat) (s : MatchState) :
    (partialState A r s).trades = s.trades ++ [stepTrade s.heap A r] := rfl

theorem stepTrade_aggr (h : Heap) (A r : Nat) :
    (stepTrade h A r).aggressorOrderId = (heapGetD h A).id := rfl

theorem stepTrade_resting (h : Heap) (A r : Nat) :
    (stepTrade h A r).restingOrderId = (heapGetD h r).id := rfl

theorem stepTrade_price (h : Heap) (A r : Nat) :
    (stepTrade h A r).price = (heapGetD h r).price := rfl

theorem stepTrade_quantity (h : Heap) (A r : Nat) :
    (stepTrade h A r).quantity = fillQty h A r := rfl

/-- One unfolding of the inner matching loop against the head of the queue
(the aggressor is a different record from the resting head, as `Submit`
guarantees by fresh allocation). -/
theorem matchInner_cons_eq (A r : Nat) (rest : List Nat) (s : MatchState) (hAr : A ≠ r) :
    matchInner A (r :: rest) s =
      if (heapGetD s.heap r).quantity
          - ((heapGetD s.heap r).filledQuantity + fillQty s.heap A r) = 0 then
        if (heapGetD s.heap A).quantity
            - ((heapGetD s.heap A).filledQuantity + fillQty s.heap A r) = 0 then
          (rest, fullState A r s)
        else matchInner A rest (fullState A r s)
      else (r :: rest, partialState A r s) := by
  simp only [matchInner]
  rw [heapGetD_aupd_ne s.heap A r _ hAr]
  rw [heapGetD_aupd_ne _ r A _ (Ne.symm hAr)]
  rw [heapGetD_aupd_self]
  simp only [remainingQuantity_update_filled]
  rfl

/-- Full characterization of the inner matching loop on one price level's
FIFO queue: the trades extend the trade list positionally along the queue
(trade `j` is against the `j`-th resting order, at that order's price), the
queue loses a prefix of fully filled orders (marked `FILLED` and dropped
from the `orderMap`), at most the new head is partially filled, the
aggressor consumes exactly `min(remaining, queue total)`, and each touched
order's filled quantity grows by exactly the quantity of the trades naming
it. -/
theorem matchInner_spec (A : Nat) (q : List Nat) (s : MatchState)
    (hA : A ∉ q) (hnd : q.Nodup)
    (hpos : ∀ a ∈ q, 0 < (heapGetD s.heap a).remainingQuantity)
    (haggr : 0 < (heapGetD s.heap A).remainingQuantity)
    (hids : ((A :: q).map fun a => (heapGetD s.heap a).id).Nodup) :
    ∃ ts k,
      (matchInner A q s).2.trades = s.trades ++ ts ∧
      (matchInner A q s).1 = q.drop k ∧
      k ≤ ts.length ∧ ts.length ≤ k + 1 ∧ ts.length ≤ q.length ∧
      ts.map Trade.restingOrderId
        = (q.take ts.length).map (fun a => (heapGetD s.heap a).id) ∧
      ts.map Trade.price
        = (q.take ts.length).map (fun a => (heapGetD s.heap a).price) ∧
      (∀ t ∈ ts, t.aggressorOrderId = (heapGetD s.heap A).id ∧ 0 < t.quantity) ∧
      (heapGetD (matchInner A q s).2.heap A).remainingQuantity
        = (heapGetD s.heap A).remainingQuantity
          - min ((heapGetD s.heap A).remainingQuantity) (sumRem s.heap q) ∧
      sumQty ts = min ((heapGetD s.heap A).remainingQuantity) (sumRem s.heap q) ∧
      ((matchInner A q s).1 ≠ [] →
        (heapGetD (matchInner A q s).2.heap A).remainingQuantity = 0) ∧
      (∀ a ∈ q.take k,
        (heapGetD (matchInner A q s).2.heap a).remainingQuantity = 0 ∧
        (heapGetD (matchInner A q s).2.heap a).status = OrderStatus.filled) ∧
      (∀ a ∈ q.drop k,
        0 < (heapGetD (matchInner A q s).2.heap a).remainingQuantity ∧
        ((heapGetD (matchInner A q s).2.heap a).status = (heapGetD s.heap a).status ∨
         (heapGetD (matchInner A q s).2.heap a).status = OrderStatus.partialFill)) ∧
      (∀ i, alookup (matchInner A q s).2.orderMap i
        = if i ∈ (q.take k).map (fun a => (heapGetD s.heap a).id) then none
          else alookup s.orderMap i) ∧
      (∀ b ∈ A :: q,
        (heapGetD (matchInner A q s).2.heap b).filledQuantity
          = (heapGetD s.heap b).filledQuantity
            + tradesFor ((heapGetD s.heap b).id) ts) := by
  induction q generalizing s with
  | nil =>
    refine ⟨[], 0, ?_⟩
    have hmin : min ((heapGetD s.heap A).remainingQuantity) (sumRem s.heap []) = 0 := by
      rw [sumRem_nil]; omega
    simp [matchInner, hmin, tradesFor_nil, sumQty_nil]
  | cons r rest ih =>
    have hAr : A ≠ r := fun h => hA (h ▸ List.mem_cons_self r rest)
    have hArest : A ∉ rest := fun h => hA (List.mem_cons_of_mem _ h)
    have hndr : r ∉ rest := (List.nodup_cons.mp hnd).1
    have hndrest : rest.Nodup := (List.nodup_cons.mp hnd).2
    have hposr : 0 < (heapGetD s.heap r).remainingQuantity :=
      hpos r (List.mem_cons_self r rest)
    have hposrest : ∀ a ∈ rest, 0 < (heapGetD s.heap a).remainingQuantity :=
      fun a ha => hpos a (List.mem_cons_of_mem _ ha)
    have hidAr : (heapGetD s.heap A).id ≠ (heapGetD s.heap r).id := by
      have := hids
      simp only [List.map_cons, List.nodup_cons, List.mem_cons, List.mem_map] at this
      exact fun h => this.1 (Or.inl h)
    have hidrrest : ∀ a ∈ rest, (heapGetD s.heap r).id ≠ (heapGetD s.heap a).id := by
      intro a ha h
      have := hids
      simp only [List.map_cons, List.nodup_cons] at this
      have h2 := this.2.1
      simp only [List.mem_map] at h2
      exact h2 ⟨a, ha, h.symm⟩
    have hidArest : ∀ a ∈ rest, (heapGetD s.heap A).id ≠ (heapGetD s.heap a).id := by
      intro a ha h
      have := hids
      simp only [List.map_cons, List.nodup_cons, List.mem_cons, List.mem_map] at this
      exact this.1 (Or.inr ⟨a, ha, h.symm⟩)
    have hsum : 0 ≤ sumRem s.heap rest := sumRem_nonneg hposrest
    rw [matchInner_cons_eq A r rest s hAr]
    split_ifs with hr ha
    -- the resting head drains and the aggressor is exhausted: stop
    · refine ⟨[stepTrade s.heap A r], 1, rfl, rfl, Nat.le_refl 1, Nat.le_succ 1, ?_,
        ?_, ?_, ?_, ?_, ?_, ?_, ?_, ?_, ?_, ?_⟩
      · simp
      · simp [stepTrade_resting]
      · simp [stepTrade_price]
      · intro t ht
        simp only [List.mem_singleton] at ht
        subst ht
        refine ⟨stepTrade_aggr _ _ _, ?_⟩
        rw [stepTrade_quantity, fillQty_def]
        exact lt_min haggr hposr
      · rw [fullState_heap, rem_stepHeap_A _ _ _ _ hAr, sumRem_cons]
        simp only [fillQty_def, Order.remainingQuantity] at hr ha hsum haggr hposr ⊢
        omega
      · rw [sumQty_cons, sumQty_nil, stepTrade_quantity, sumRem_cons]
        simp only [fillQty_def, Order.remainingQuantity] at hr ha hsum haggr hposr ⊢
        omega
      · intro _
        rw [fullState_heap, rem_stepHeap_A _ _ _ _ hAr]
        simp only [fillQty_def, Order.remainingQuantity] at ha ⊢
        omega
      · intro a hmem
        simp only [List.take_succ_cons, List.take_zero, List.mem_singleton] at hmem
        subst hmem
        constructor
        · rw [fullState_heap, rem_stepHeap_r]
          simp only [fillQty_def, Order.remainingQuantity] at hr ⊢
          omega
        · rw [fullState_heap, stepHeap_r]
      · intro a hmem
        simp only [List.drop_succ_cons, List.drop_zero] at hmem
        have haA : a ≠ A := fun h => hArest (h ▸ hmem)
        have har : a ≠ r := fun h => hndr (h ▸ hmem)
        rw [fullState_heap, stepHeap_other _ _ _ _ _ haA har]
        exact ⟨hposrest a hmem, Or.inl rfl⟩
      · intro i
        rw [fullState_orderMap, alookup_aerase]
        simp only [List.take_succ_cons, List.take_zero, List.map_cons, List.map_nil,
          List.mem_singleton]
        by_cases hi : (heapGetD s.heap r).id = i
        · simp [hi]
        · have hi2 : ¬ i = (heapGetD s.heap r).id := fun h => hi h.symm
          simp [hi, hi2]
      · intro b hb
        simp only [List.mem_cons] at hb
        rcases hb with hb | hb | hb
        · subst hb
          rw [fullState_heap, stepHeap_A _ _ _ _ hAr]
          simp [tradesFor_cons, tradesFor_nil, stepTrade_aggr, stepTrade_quantity]
        · subst hb
          rw [fullState_heap, stepHeap_r]
          simp [tradesFor_cons, tradesFor_nil, stepTrade_aggr, stepTrade_resting,
            stepTrade_quantity]
        · have hbA : b ≠ A := fun h => hArest (h ▸ hb)
          have hbr : b ≠ r := fun h => hndr (h ▸ hb)
          rw [fullState_heap, stepHeap_other _ _ _ _ _ hbA hbr]
          simp only [tradesFor_cons, tradesFor_nil, stepTrade_aggr, stepTrade_resting]
          rw [if_neg]
          · ring
          · push_neg
            exact ⟨hidArest b hb, hidrrest b hb⟩
    -- the resting head drains and the aggressor still has remaining: recurse
    · have hresOther : ∀ a ∈ rest, heapGetD (fullState A r s).heap a = heapGetD s.heap a := by
        intro a hamem
        rw [fullState_heap]
        exact stepHeap_other _ _ _ _ _ (fun h => hArest (h ▸ hamem)) (fun h => hndr (h ▸ hamem))
      have hpos1 : ∀ a ∈ rest, 0 < (heapGetD (fullState A r s).heap a).remainingQuantity := by
        intro a hamem
        rw [hresOther a hamem]
        exact hposrest a hamem
      have haggr1 : 0 < (heapGetD (fullState A r s).heap A).remainingQuantity := by
        rw [fullState_heap, rem_stepHeap_A _ _ _ _ hAr]
        simp only [fillQty_def, Order.remainingQuantity] at ha haggr hposr ⊢
        omega
      have hidsmap : ((A :: rest).map fun a => (heapGetD (fullState A r s).heap a).id)
          = ((A :: rest).map fun a => (heapGetD s.heap a).id) := by
        apply List.map_congr_left
        intro a hamem
        rcases List.mem_cons.mp hamem with h | h
        · subst h
          rw [fullState_heap, stepHeap_A _ _ _ _ hAr]
        · rw [hresOther a h]
      have hids1 : ((A :: rest).map fun a => (heapGetD (fullState A r s).heap a).id).Nodup := by
        rw [hidsmap]
        refine List.Nodup.sublist ?_ hids
        exact List.Sublist.map _ (List.Sublist.cons₂ A (List.sublist_cons_self r rest))
      obtain ⟨ts', k', c1, c2, c3, c4, c5, c6, c7, c8, c9, c10, c11, c12, c13, c14, c15⟩ :=
        ih (fullState A r s) hArest hndrest hpos1 haggr1 hids1
      have hremA1 : (heapGetD (fullState A r s).heap A).remainingQuantity
          = (heapGetD s.heap A).remainingQuantity - fillQty s.heap A r := by
        rw [fullState_heap]
        exact rem_stepHeap_A _ _ _ _ hAr
      have hsum1 : sumRem (fullState A r s).heap rest = sumRem s.heap rest :=
        sumRem_congr hresOther
      have hid1A : (heapGetD (fullState A r s).heap A).id = (heapGetD s.heap A).id := by
        rw [fullState_heap, stepHeap_A _ _ _ _ hAr]
      refine ⟨stepTrade s.heap A r :: ts', k' + 1, ?_, ?_, ?_, ?_, ?_, ?_, ?_, ?_, ?_, ?_,
        ?_, ?_, ?_, ?_, ?_⟩
      · rw [c1, fullState_trades]
        simp
      · rw [c2, List.drop_succ_cons]
      · simp only [List.length_cons]
        omega
      · simp only [List.length_cons]
        omega
      · simp only [List.length_cons]
        omega
      · simp only [List.map_cons, List.length_cons, List.take_succ_cons, stepTrade_resting]
        congr 1
        rw [c6]
        apply List.map_congr_left
        intro a hamem
        rw [hresOther a (List.take_subset _ _ hamem)]
      · simp only [List.map_cons, List.length_cons, List.take_succ_cons, stepTrade_price]
        congr 1
        rw [c7]
        apply List.map_congr_left
        intro a hamem
        rw [hresOther a (List.take_subset _ _ hamem)]
      · intro t ht
        rcases List.mem_cons.mp ht with h | h
        · subst h
          refine ⟨stepTrade_aggr _ _ _, ?_⟩
          rw [stepTrade_quantity, fillQty_def]
          exact lt_min haggr hposr
        · have h8 := c8 t h
          rw [hid1A] at h8
          exact h8
      · have c9' := c9
        rw [hremA1, hsum1] at c9'
        rw [c9', sumRem_cons]
        simp only [fillQty_def, Order.remainingQuantity] at hr hsum haggr hposr ⊢
        omega
      · rw [sumQty_cons, stepTrade_quantity]
        have c10' := c10
        rw [hremA1, hsum1] at c10'
        rw [c10', sumRem_cons]
        simp only [fillQty_def, Order.remainingQuantity] at hr hsum haggr hposr ⊢
        omega
      · exact c11
      · intro a hamem
        simp only [List.take_succ_cons, List.mem_cons] at hamem
        rcases hamem with h | h
        · rw [h]
          have hu : heapGetD (matchInner A rest (fullState A r s)).2.heap r
              = heapGetD (fullState A r s).heap r := by
            unfold heapGetD
            rw [matchInner_untouched A rest _ r (Ne.symm hAr) hndr]
          rw [hu, fullState_heap]
          constructor
          · rw [rem_stepHeap_r]
            simp only [fillQty_def, Order.remainingQuantity] at hr ⊢
            omega
          · rw [stepHeap_r]
        · exact c12 a h
      · intro a hamem
        simp only [List.drop_succ_cons] at hamem
        have h13 := c13 a hamem
        refine ⟨h13.1, ?_⟩
        rcases h13.2 with h | h
        · left
          rw [h, hresOther a (List.drop_subset _ _ hamem)]
        · right
          exact h
      · intro i
        have c14' := c14 i
        rw [fullState_orderMap, alookup_aerase] at c14'
        have hmapk : ((rest.take k').map fun a => (heapGetD (fullState A r s).heap a).id)
            = ((rest.take k').map fun a => (heapGetD s.heap a).id) :=
          List.map_congr_left fun a hamem => by
            rw [hresOther a (List.take_subset _ _ hamem)]
        rw [hmapk] at c14'
        rw [c14']
        simp only [List.take_succ_cons, List.map_cons, List.mem_cons]
        by_cases h1 : i = (heapGetD s.heap r).id
        · rw [if_pos (Or.inl h1)]
          by_cases h2 : i ∈ (rest.take k').map fun a => (heapGetD s.heap a).id
          · rw [if_pos h2]
          · rw [if_neg h2, if_pos h1.symm]
        · have h1' : ¬ (heapGetD s.heap r).id = i := fun hx => h1 hx.symm
          by_cases h2 : i ∈ (rest.take k').map fun a => (heapGetD s.heap a).id
          · rw [if_pos h2, if_pos (Or.inr h2)]
          · rw [if_neg h2, if_neg h1', if_neg (fun hor => hor.elim h1 h2)]
      · intro b hb
        rcases List.mem_cons.mp hb with hb1 | hb23
        · rw [hb1]
          have hstep := c15 A (List.mem_cons_self A rest)
          rw [hid1A] at hstep
          have hfA : (heapGetD (fullState A r s).heap A).filledQuantity
              = (heapGetD s.heap A).filledQuantity + fillQty s.heap A r := by
            rw [fullState_heap, stepHeap_A _ _ _ _ hAr]
          rw [hfA] at hstep
          rw [hstep, tradesFor_cons, stepTrade_aggr, stepTrade_resting, stepTrade_quantity]
          rw [if_pos (Or.inl rfl)]
          ring
        · rcases List.mem_cons.mp hb23 with hb2 | hb3
          · rw [hb2]
            have hu : heapGetD (matchInner A rest (fullState A r s)).2.heap r
                = heapGetD (fullState A r s).heap r := by
              unfold heapGetD
              rw [matchInner_untouched A rest _ r (Ne.symm hAr) hndr]
            have hfr : (heapGetD (fullState A r s).heap r).filledQuantity
                = (heapGetD s.heap r).filledQuantity + fillQty s.heap A r := by
              rw [fullState_heap, stepHeap_r]
            have hzero : tradesFor (heapGetD s.heap r).id ts' = 0 := by
              apply tradesFor_eq_zero
              intro t ht
              constructor
              · have h8 := (c8 t ht).1
                rw [hid1A] at h8
                rw [h8]
                exact hidAr
              · have hmem2 : t.restingOrderId ∈ ts'.map Trade.restingOrderId :=
                  List.mem_map_of_mem _ ht
                rw [c6] at hmem2
                obtain ⟨a2, ha2, heq2⟩ := List.mem_map.mp hmem2
                have ha2' : a2 ∈ rest := List.take_subset _ _ ha2
                rw [hresOther a2 ha2'] at heq2
                rw [← heq2]
                exact fun hx => hidrrest a2 ha2' hx.symm
            rw [hu, hfr, tradesFor_cons, stepTrade_aggr, stepTrade_resting,
              stepTrade_quantity]
            rw [if_pos (Or.inr rfl), hzero]
            ring
          · have hstep := c15 b (List.mem_cons_of_mem _ hb3)
            rw [hresOther b hb3] at hstep
            rw [hstep, tradesFor_cons, stepTrade_aggr, stepTrade_resting]
            rw [if_neg]
            · ring
            · push_neg
              exact ⟨hidArest b hb3, hidrrest b hb3⟩
    -- the resting head is only partially filled: the aggressor is exhausted
    · refine ⟨[stepTrade s.heap A r], 0, rfl, rfl, Nat.zero_le 1, Nat.le_refl 1, ?_,
        ?_, ?_, ?_, ?_, ?_, ?_, ?_, ?_, ?_, ?_⟩
      · simp
      · simp [stepTrade_resting]
      · simp [stepTrade_price]
      · intro t ht
        simp only [List.mem_singleton] at ht
        subst ht
        refine ⟨stepTrade_aggr _ _ _, ?_⟩
        rw [stepTrade_quantity, fillQty_def]
        exact lt_min haggr hposr
      · rw [partialState_heap, rem_stepHeap_A _ _ _ _ hAr, sumRem_cons]
        simp only [fillQty_def, Order.remainingQuantity] at hr hsum haggr hposr ⊢
        omega
      · rw [sumQty_cons, sumQty_nil, stepTrade_quantity, sumRem_cons]
        simp only [fillQty_def, Order.remainingQuantity] at hr hsum haggr hposr ⊢
        omega
      · intro _
        rw [partialState_heap, rem_stepHeap_A _ _ _ _ hAr]
        simp only [fillQty_def, Order.remainingQuantity] at hr haggr hposr ⊢
        omega
      · intro a hmem
        simp only [List.take_zero] at hmem
        exact absurd hmem (List.not_mem_nil a)
      · intro a hmem
        simp only [List.drop_zero] at hmem
        rcases List.mem_cons.mp hmem with hb | hb
        · subst hb
          constructor
          · rw [partialState_heap, rem_stepHeap_r]
            simp only [fillQty_def, Order.remainingQuantity] at hr haggr hposr ⊢
            omega
          · right
            rw [partialState_heap, stepHeap_r]
        · have haA : a ≠ A := fun h => hArest (h ▸ hb)
          have har : a ≠ r := fun h => hndr (h ▸ hb)
          rw [partialState_heap, stepHeap_other _ _ _ _ _ haA har]
          exact ⟨hposrest a hb, Or.inl rfl⟩
      · intro i
        rw [partialState_orderMap]
        simp
      · intro b hb
        simp only [List.mem_cons] at hb
        rcases hb with hb | hb | hb
        · subst hb
          rw [partialState_heap, stepHeap_A _ _ _ _ hAr]
          simp [tradesFor_cons, tradesFor_nil, stepTrade_aggr, stepTrade_quantity]
        · subst hb
          rw [partialState_heap, stepHeap_r]
          simp [tradesFor_cons, tradesFor_nil, stepTrade_aggr, stepTrade_resting,
            stepTrade_quantity]
        · have hbA : b ≠ A := fun h => hArest (h ▸ hb)
          have hbr : b ≠ r := fun h => hndr (h ▸ hb)
          rw [partialState_heap, stepHeap_other _ _ _ _ _ hbA hbr]
          simp only [tradesFor_cons, tradesFor_nil, stepTrade_aggr, stepTrade_resting]
          rw [if_neg]
          · ring
          · push_neg
            exact ⟨hidArest b hb, hidrrest b hb⟩

theorem sideAddrs_nil : sideAddrs [] = [] := rfl

theorem sideAddrs_cons (l : PriceLevel) (ls : List PriceLevel) :
    sideAddrs (l :: ls) = l.orders ++ sideAddrs ls := rfl

theorem take_append_le {α : Type} (q x : List α) (n : Nat) (h : n ≤ q.length) :
    (q ++ x).take n = q.take n := by
  induction q generalizing n with
  | nil =>
    have : n = 0 := by simpa using h
    subst this
    simp
  | cons a rest ih =>
    cases n with
    | zero => simp
    | succ m =>
      simp only [List.cons_append, List.take_succ_cons]
      rw [ih m (by simpa using h)]

theorem drop_append_le {α : Type} (q x : List α) (n : Nat) (h : n ≤ q.length) :
    (q ++ x).drop n = q.drop n ++ x := by
  induction q generalizing n with
  | nil =>
    have : n = 0 := by simpa using h
    subst this
    simp
  | cons a rest ih =>
    cases n with
    | zero => simp
    | succ m =>
      simp only [List.cons_append, List.drop_succ_cons]
      exact ih m (by simpa using h)

theorem take_append_add {α : Type} (q x : List α) (m : Nat) :
    (q ++ x).take (q.length + m) = q ++ x.take m := by
  induction q with
  | nil => simp
  | cons a rest ih =>
    simp only [List.cons_append, List.length_cons]
    have : rest.length + 1 + m = (rest.length + m) + 1 := by omega
    rw [this, List.take_succ_cons, ih]

theorem drop_append_add {α : Type} (q x : List α) (m : Nat) :
    (q ++ x).drop (q.length + m) = x.drop m := by
  induction q with
  | nil => simp
  | cons a rest ih =>
    simp only [List.cons_append, List.length_cons]
    have : rest.length + 1 + m = (rest.length + m) + 1 := by omega
    rw [this, List.drop_succ_cons, ih]

theorem tradesFor_zero_of_ids {i idA : String} {ts : List Trade} {S : List String}
    (ha : ∀ t ∈ ts, t.aggressorOrderId = idA)
    (hr : ∀ t ∈ ts, t.restingOrderId ∈ S)
    (h1 : i ≠ idA) (h2 : i ∉ S) : tradesFor i ts = 0 :=
  tradesFor_eq_zero fun t ht =>
    ⟨fun hx => h1 (by rw [← hx, ha t ht]), fun hx => h2 (hx ▸ hr t ht)⟩

/-- The outer matching loop preserves every order's core fields. -/
theorem matchOuter_core (A : Nat) (stop : Order → Int → Bool) (levels : List PriceLevel)
    (s : MatchState) (b : Nat) :
    (heapGetD (matchOuter A stop levels s).2.heap b).core = (heapGetD s.heap b).core := by
  induction levels generalizing s with
  | nil => simp [matchOuter]
  | cons best rest ih =>
    simp only [matchOuter]
    split_ifs with h0 h1 h2 h3
    · rfl
    · rw [matchInner_core]
    · rw [ih, matchInner_core]
    · rw [matchInner_core]
    · rfl

/-- An address that is neither the aggressor nor resting on the matched side
is untouched by the outer matching loop. -/
theorem matchOuter_untouched (A : Nat) (stop : Order → Int → Bool) (levels : List PriceLevel)
    (s : MatchState) (b : Nat) (hbA : b ≠ A) (hbq : b ∉ sideAddrs levels) :
    alookup (matchOuter A stop levels s).2.heap b = alookup s.heap b := by
  induction levels generalizing s with
  | nil => simp [matchOuter]
  | cons best rest ih =>
    have hbbest : b ∉ best.orders := fun h =>
      hbq (by rw [sideAddrs_cons]; exact List.mem_append_left _ h)
    have hbrest : b ∉ sideAddrs rest := fun h =>
      hbq (by rw [sideAddrs_cons]; exact List.mem_append_right _ h)
    simp only [matchOuter]
    split_ifs with h0 h1 h2 h3
    · rfl
    · rw [matchInner_untouched _ _ _ _ hbA hbbest]
    · rw [ih _ hbrest, matchInner_untouched _ _ _ _ hbA hbbest]
    · rw [matchInner_untouched _ _ _ _ hbA hbbest]
    · rfl

theorem ids_ne_of_nodup {h : Heap} {l : List Nat}
    (hnd : (l.map fun a => (heapGetD h a).id).Nodup)
    {a b : Nat} (ha : a ∈ l) (hb : b ∈ l) (hab : a ≠ b) :
    (heapGetD h a).id ≠ (heapGetD h b).id :=
  fun he => hab (List.inj_on_of_nodup_map hnd ha hb he)

/-- Full characterization of the outer matching loop: the emitted trades
consume the flattened opposite side (best level first, FIFO within a level)
positionally, the flattened side loses exactly the consumed prefix, a
market-style walk (no price break anywhere) consumes
`min(remaining, total depth)`, consumed orders are `FILLED` and dropped
from the `orderMap`, the surviving index is a suffix of the levels with at
most the head queue trimmed, and filled quantities track the trades naming
each order. -/
theorem matchOuter_spec (A : Nat) (stop : Order → Int → Bool)
    (hstop : ∀ o o' : Order, o.core = o'.core → ∀ p, stop o p = stop o' p)
    (levels : List PriceLevel) (s : MatchState)
    (hA : A ∉ sideAddrs levels)
    (hnd : (sideAddrs levels).Nodup)
    (hpos : ∀ a ∈ sideAddrs levels, 0 < (heapGetD s.heap a).remainingQuantity)
    (haggr : 0 ≤ (heapGetD s.heap A).remainingQuantity)
    (hids : ((A :: sideAddrs levels).map fun a => (heapGetD s.heap a).id).Nodup) :
    ∃ ts K,
      (matchOuter A stop levels s).2.trades = s.trades ++ ts ∧
      sideAddrs (matchOuter A stop levels s).1 = (sideAddrs levels).drop K ∧
      K ≤ ts.length ∧ ts.length ≤ K + 1 ∧ ts.length ≤ (sideAddrs levels).length ∧
      ts.map Trade.restingOrderId
        = ((sideAddrs levels).take ts.length).map (fun a => (heapGetD s.heap a).id) ∧
      ts.map Trade.price
        = ((sideAddrs levels).take ts.length).map (fun a => (heapGetD s.heap a).price) ∧
      (∀ t ∈ ts, t.aggressorOrderId = (heapGetD s.heap A).id ∧ 0 < t.quantity) ∧
      ((∀ l ∈ levels, stop (heapGetD s.heap A) l.price = false) →
        (heapGetD (matchOuter A stop levels s).2.heap A).remainingQuantity
          = (heapGetD s.heap A).remainingQuantity
            - min ((heapGetD s.heap A).remainingQuantity) (sumRem s.heap (sideAddrs levels)) ∧
        sumQty ts
          = min ((heapGetD s.heap A).remainingQuantity) (sumRem s.heap (sideAddrs levels))) ∧
      (∀ a ∈ (sideAddrs levels).take K,
        (heapGetD (matchOuter A stop levels s).2.heap a).remainingQuantity = 0 ∧
        (heapGetD (matchOuter A stop levels s).2.heap a).status = OrderStatus.filled) ∧
      (∀ a ∈ (sideAddrs levels).drop K,
        0 < (heapGetD (matchOuter A stop levels s).2.heap a).remainingQuantity ∧
        ((heapGetD (matchOuter A stop levels s).2.heap a).status = (heapGetD s.heap a).status ∨
         (heapGetD (matchOuter A stop levels s).2.heap a).status = OrderStatus.partialFill)) ∧
      (∀ i, alookup (matchOuter A stop levels s).2.orderMap i
        = if i ∈ ((sideAddrs levels).take K).map (fun a => (heapGetD s.heap a).id) then none
          else alookup s.orderMap i) ∧
      (∀ b ∈ A :: sideAddrs levels,
        (heapGetD (matchOuter A stop levels s).2.heap b).filledQuantity
          = (heapGetD s.heap b).filledQuantity
            + tradesFor ((heapGetD s.heap b).id) ts) ∧
      (∃ m, m ≤ levels.length ∧
        ((matchOuter A stop levels s).1 = levels.drop m ∨
         ∃ l rest2 j, levels.drop m = l :: rest2 ∧
           (matchOuter A stop levels s).1 = { l with orders := l.orders.drop j } :: rest2 ∧
           l.orders.drop j ≠ [])) := by
  induction levels generalizing s with
  | nil =>
    refine ⟨[], 0, ?_⟩
    have hmin : min ((heapGetD s.heap A).remainingQuantity) (sumRem s.heap []) = 0 := by
      rw [sumRem_nil]; omega
    simp [matchOuter, hmin, tradesFor_nil, sumQty_nil, sideAddrs_nil]
  | cons best rest2 ih =>
    have hsplit : sideAddrs (best :: rest2) = best.orders ++ sideAddrs rest2 :=
      sideAddrs_cons _ _
    rw [hsplit] at hA hnd hpos hids ⊢
    have hAq : A ∉ best.orders := fun h => hA (List.mem_append_left _ h)
    have hAx : A ∉ sideAddrs rest2 := fun h => hA (List.mem_append_right _ h)
    obtain ⟨hndq, hndx, hdisj⟩ := List.nodup_append.mp hnd
    have hposq : ∀ a ∈ best.orders, 0 < (heapGetD s.heap a).remainingQuantity :=
      fun a h => hpos a (List.mem_append_left _ h)
    have hposx : ∀ a ∈ sideAddrs rest2, 0 < (heapGetD s.heap a).remainingQuantity :=
      fun a h => hpos a (List.mem_append_right _ h)
    have hsumq : 0 ≤ sumRem s.heap best.orders := sumRem_nonneg hposq
    have hsumx : 0 ≤ sumRem s.heap (sideAddrs rest2) := sumRem_nonneg hposx
    have hidsq : ((A :: best.orders).map fun a => (heapGetD s.heap a).id).Nodup := by
      refine List.Nodup.sublist ?_ hids
      exact List.Sublist.map _ (List.Sublist.cons₂ A (List.sublist_append_left _ _))
    simp only [matchOuter]
    split_ifs with h0 h1 h2 h3
    -- the limit price does not cross the best level: stop, nothing happens
    · refine ⟨[], 0, by simp, by simp [sideAddrs_cons], Nat.le_refl 0, Nat.zero_le 1,
        Nat.zero_le _, by simp, by simp, ?_, ?_, ?_, ?_, ?_, ?_, ?_⟩
      · intro t ht
        exact absurd ht (List.not_mem_nil t)
      · intro hprem
        have := hprem best (List.mem_cons_self _ _)
        rw [h1] at this
        exact absurd this (by simp)
      · intro a hmem
        exact absurd hmem (by simp)
      · intro a hmem
        exact ⟨hpos a (by simpa using hmem), Or.inl rfl⟩
      · intro i
        simp
      · intro b hb
        simp [tradesFor_nil]
      · exact ⟨0, Nat.zero_le _, Or.inl rfl⟩
    -- the best level's queue drains and the aggressor is exhausted: stop
    · obtain ⟨tsi, ki, c1, c2, c3, c4, c5, c6, c7, c8, c9, c10, c11, c12, c13, c14, c15⟩ :=
        matchInner_spec A best.orders s hAq hndq hposq h0 hidsq
      have hinner_nil : (matchInner A best.orders s).1 = [] := List.isEmpty_iff.mp h2
      have hdrop_nil : best.orders.drop ki = [] := by
        rw [← c2]; exact hinner_nil
      have hlen0 : best.orders.length - ki = 0 := by
        have := congrArg List.length hdrop_nil
        simpa [List.length_drop] using this
      have hki : ki = best.orders.length := by omega
      have htsl : tsi.length = best.orders.length := by omega
      have htake : best.orders.take ki = best.orders := by
        rw [hki]; exact List.take_length _
      have htake2 : best.orders.take tsi.length = best.orders := by
        rw [htsl]; exact List.take_length _
      refine ⟨tsi, best.orders.length, c1, ?_, ?_, ?_, ?_, ?_, ?_, ?_, ?_, ?_, ?_, ?_, ?_, ?_⟩
      · simpa using (drop_append_add best.orders (sideAddrs rest2) 0).symm
      · omega
      · omega
      · rw [List.length_append]; omega
      · rw [take_append_le _ _ _ (le_of_eq htsl)]
        exact c6
      · rw [take_append_le _ _ _ (le_of_eq htsl)]
        exact c7
      · exact c8
      · intro _
        rw [sumRem_append]
        constructor
        · simp only [Order.remainingQuantity] at c9 h3 hsumq hsumx ⊢
          omega
        · rw [c10]
          simp only [Order.remainingQuantity] at c9 h3 hsumq hsumx ⊢
          omega
      · intro a hmem
        rw [take_append_le _ _ _ (Nat.le_refl _), List.take_length] at hmem
        have := c12 a (by rw [htake]; exact hmem)
        exact this
      · intro a hmem
        rw [show best.orders.length = best.orders.length + 0 by omega,
          drop_append_add, List.drop_zero] at hmem
        have haA : a ≠ A := fun h => hAx (h ▸ hmem)
        have haq : a ∉ best.orders := fun h => hdisj h hmem
        have hun : heapGetD (matchInner A best.orders s).2.heap a = heapGetD s.heap a := by
          unfold heapGetD
          rw [matchInner_untouched _ _ _ _ haA haq]
        rw [hun]
        exact ⟨hposx a hmem, Or.inl rfl⟩
      · intro i
        rw [take_append_le _ _ _ (Nat.le_refl _), List.take_length]
        have := c14 i
        rw [htake] at this
        exact this
      · intro b hb
        rcases List.mem_cons.mp hb with hb1 | hb2
        · exact hb1 ▸ c15 A (List.mem_cons_self _ _)
        · rcases List.mem_append.mp hb2 with hbq | hbx
          · exact c15 b (List.mem_cons_of_mem _ hbq)
          · have hbA : b ≠ A := fun h => hAx (h ▸ hbx)
            have hbq2 : b ∉ best.orders := fun h => hdisj h hbx
            have hun : heapGetD (matchInner A best.orders s).2.heap b = heapGetD s.heap b := by
              unfold heapGetD
              rw [matchInner_untouched _ _ _ _ hbA hbq2]
            rw [hun]
            have hzero : tradesFor (heapGetD s.heap b).id tsi = 0 := by
              refine tradesFor_zero_of_ids (fun t ht => (c8 t ht).1)
                (fun t ht => c6 ▸ List.mem_map_of_mem _ ht) ?_ ?_
              · exact ids_ne_of_nodup hids (List.mem_cons_of_mem _ hb2)
                  (List.mem_cons_self _ _) hbA
              · intro hmem2
                obtain ⟨a2, ha2, heq2⟩ := List.mem_map.mp hmem2
                have ha2' : a2 ∈ best.orders := List.take_subset _ _ ha2
                exact absurd (List.inj_on_of_nodup_map hids
                    (List.mem_cons_of_mem _ hb2)
                    (List.mem_cons_of_mem _ (List.mem_append_left _ ha2')) heq2.symm)
                  (fun h => hdisj (h ▸ ha2') hbx)
            rw [hzero]
            ring
      · exact ⟨1, by simp, Or.inl rfl⟩
    -- the best level's queue drains and the aggressor continues: recurse
    · obtain ⟨tsi, ki, c1, c2, c3, c4, c5, c6, c7, c8, c9, c10, c11, c12, c13, c14, c15⟩ :=
        matchInner_spec A best.orders s hAq hndq hposq h0 hidsq
      have hinner_nil : (matchInner A best.orders s).1 = [] := List.isEmpty_iff.mp h2
      have hdrop_nil : best.orders.drop ki = [] := by
        rw [← c2]; exact hinner_nil
      have hlen0 : best.orders.length - ki = 0 := by
        have := congrArg List.length hdrop_nil
        simpa [List.length_drop] using this
      have hki : ki = best.orders.length := by omega
      have htsl : tsi.length = best.orders.length := by omega
      have htake : best.orders.take ki = best.orders := by
        rw [hki]; exact List.take_length _
      have htake2 : best.orders.take tsi.length = best.orders := by
        rw [htsl]; exact List.take_length _
      have hcore' : ∀ b, (heapGetD (matchInner A best.orders s).2.heap b).core
          = (heapGetD s.heap b).core := matchInner_core A best.orders s
      have hun : ∀ a, a ≠ A → a ∉ best.orders →
          heapGetD (matchInner A best.orders s).2.heap a = heapGetD s.heap a := by
        intro a haA haq
        unfold heapGetD
        rw [matchInner_untouched _ _ _ _ haA haq]
      have hunx : ∀ a ∈ sideAddrs rest2,
          heapGetD (matchInner A best.orders s).2.heap a = heapGetD s.heap a := by
        intro a hmem
        exact hun a (fun h => hAx (h ▸ hmem)) (fun h => hdisj h hmem)
      have hposx' : ∀ a ∈ sideAddrs rest2,
          0 < (heapGetD (matchInner A best.orders s).2.heap a).remainingQuantity := by
        intro a hmem
        rw [hunx a hmem]
        exact hposx a hmem
      have haggr' : 0 ≤ (heapGetD (matchInner A best.orders s).2.heap A).remainingQuantity := by
        rw [c9]
        simp only [Order.remainingQuantity] at hsumq ⊢
        omega
      have hidsmap : ((A :: sideAddrs rest2).map
            fun a => (heapGetD (matchInner A best.orders s).2.heap a).id)
          = ((A :: sideAddrs rest2).map fun a => (heapGetD s.heap a).id) := by
        apply List.map_congr_left
        intro a hamem
        rcases List.mem_cons.mp hamem with h | h
        · subst h
          exact core_eq_id (hcore' a)
        · rw [hunx a h]
      have hids' : ((A :: sideAddrs rest2).map
          fun a => (heapGetD (matchInner A best.orders s).2.heap a).id).Nodup := by
        rw [hidsmap]
        refine List.Nodup.sublist ?_ hids
        exact List.Sublist.map _ (List.Sublist.cons₂ A (List.sublist_append_right _ _))
      obtain ⟨tso, Ko, d1, d2, d3a, d3b, d3c, d4, d5, d6, d7, d8, d9, d10, d11, d12⟩ :=
        ih (matchInner A best.orders s).2 hAx hndx hposx' haggr' hids'
      have hsum1 : sumRem (matchInner A best.orders s).2.heap (sideAddrs rest2)
          = sumRem s.heap (sideAddrs rest2) := sumRem_congr hunx
      have hid1A : (heapGetD (matchInner A best.orders s).2.heap A).id
          = (heapGetD s.heap A).id := core_eq_id (hcore' A)
      refine ⟨tsi ++ tso, best.orders.length + Ko, ?_, ?_, ?_, ?_, ?_, ?_, ?_, ?_, ?_,
        ?_, ?_, ?_, ?_, ?_⟩
      · rw [d1, c1, List.append_assoc]
      · rw [d2, drop_append_add]
      · rw [List.length_append]; omega
      · rw [List.length_append]; omega
      · rw [List.length_append, List.length_append]; omega
      · rw [List.map_append, List.length_append, htsl, take_append_add, List.map_append]
        congr 1
        · rw [c6, htake2]
        · rw [d4]
          apply List.map_congr_left
          intro a hamem
          rw [hunx a (List.take_subset _ _ hamem)]
      · rw [List.map_append, List.length_append, htsl, take_append_add, List.map_append]
        congr 1
        · rw [c7, htake2]
        · rw [d5]
          apply List.map_congr_left
          intro a hamem
          rw [hunx a (List.take_subset _ _ hamem)]
      · intro t ht
        rcases List.mem_append.mp ht with h | h
        · exact c8 t h
        · have := d6 t h
          rw [hid1A] at this
          exact this
      · intro hprem
        have hprem' : ∀ l ∈ rest2,
            stop (heapGetD (matchInner A best.orders s).2.heap A) l.price = false := by
          intro l hl
          rw [hstop _ _ (hcore' A) l.price]
          exact hprem l (List.mem_cons_of_mem _ hl)
        obtain ⟨hd7a, hd7b⟩ := d7 hprem'
        rw [hsum1] at hd7a hd7b
        rw [c9] at hd7a hd7b haggr'
        rw [sumRem_append, sumQty_append, c10, hd7b]
        have h3' : ¬ ((heapGetD (matchInner A best.orders s).2.heap A).remainingQuantity = 0) := h3
        rw [c9] at h3'
        constructor
        · rw [hd7a]
          simp only [Order.remainingQuantity] at hsumq hsumx h3' ⊢
          omega
        · simp only [Order.remainingQuantity] at hsumq hsumx h3' ⊢
          omega
      · intro a hmem
        rw [take_append_add] at hmem
        rcases List.mem_append.mp hmem with hq | hx
        · have haA : a ≠ A := fun h => hAq (h ▸ hq)
          have hax : a ∉ sideAddrs rest2 := fun h => hdisj hq h
          have huno : heapGetD (matchOuter A stop rest2 (matchInner A best.orders s).2).2.heap a
              = heapGetD (matchInner A best.orders s).2.heap a := by
            unfold heapGetD
            rw [matchOuter_untouched _ _ _ _ _ haA hax]
          rw [huno]
          exact c12 a (by rw [htake]; exact hq)
        · exact d8 a hx
      · intro a hmem
        rw [drop_append_add] at hmem
        have := d9 a hmem
        refine ⟨this.1, ?_⟩
        rcases this.2 with h | h
        · left
          rw [h, hunx a (List.drop_subset _ _ hmem)]
        · right
          exact h
      · intro i
        have hd10 := d10 i
        have hc14 := c14 i
        rw [htake] at hc14
        have hmapk : (((sideAddrs rest2).take Ko).map
              fun a => (heapGetD (matchInner A best.orders s).2.heap a).id)
            = (((sideAddrs rest2).take Ko).map fun a => (heapGetD s.heap a).id) :=
          List.map_congr_left fun a hamem => by
            rw [hunx a (List.take_subset _ _ hamem)]
        rw [hmapk, hc14] at hd10
        rw [hd10, take_append_add, List.map_append]
        by_cases hx : i ∈ ((sideAddrs rest2).take Ko).map fun a => (heapGetD s.heap a).id
        · rw [if_pos hx, if_pos (List.mem_append.mpr (Or.inr hx))]
        · rw [if_neg hx]
          by_cases hq : i ∈ best.orders.map fun a => (heapGetD s.heap a).id
          · rw [if_pos hq, if_pos (List.mem_append.mpr (Or.inl hq))]
          · rw [if_neg hq, if_neg (fun hm => (List.mem_append.mp hm).elim hq hx)]
      · intro b hb
        rcases List.mem_cons.mp hb with hb1 | hb2
        · rw [hb1]
          have e1 := c15 A (List.mem_cons_self _ _)
          have e2 := d11 A (List.mem_cons_self _ _)
          rw [hid1A] at e2
          rw [e2, e1, tradesFor_append]
          ring
        · rcases List.mem_append.mp hb2 with hbq | hbx
          · have hbA : b ≠ A := fun h => hAq (h ▸ hbq)
            have hbx2 : b ∉ sideAddrs rest2 := fun h => hdisj hbq h
            have huno : heapGetD
                (matchOuter A stop rest2 (matchInner A best.orders s).2).2.heap b
                = heapGetD (matchInner A best.orders s).2.heap b := by
              unfold heapGetD
              rw [matchOuter_untouched _ _ _ _ _ hbA hbx2]
            have e1 := c15 b (List.mem_cons_of_mem _ hbq)
            have hmapt : (((sideAddrs rest2).take tso.length).map
                  fun a => (heapGetD (matchInner A best.orders s).2.heap a).id)
                = (((sideAddrs rest2).take tso.length).map
                  fun a => (heapGetD s.heap a).id) :=
              List.map_congr_left fun a hamem => by
                rw [hunx a (List.take_subset _ _ hamem)]
            have haggids : ∀ t ∈ tso, t.aggressorOrderId = (heapGetD s.heap A).id := by
              intro t ht
              rw [(d6 t ht).1]
              exact hid1A
            have hzero : tradesFor ((heapGetD s.heap b).id) tso = 0 := by
              refine tradesFor_zero_of_ids haggids
                (fun t ht => hmapt ▸ (d4 ▸ List.mem_map_of_mem _ ht)) ?_ ?_
              · exact ids_ne_of_nodup hids (List.mem_cons_of_mem _ hb2)
                  (List.mem_cons_self _ _) hbA
              · intro hmem2
                obtain ⟨a2, ha2, heq2⟩ := List.mem_map.mp hmem2
                have ha2' : a2 ∈ sideAddrs rest2 := List.take_subset _ _ ha2
                exact absurd (List.inj_on_of_nodup_map hids
                    (List.mem_cons_of_mem _ hb2)
                    (List.mem_cons_of_mem _ (List.mem_append_right _ ha2')) heq2.symm)
                  (fun h => hdisj hbq (h ▸ ha2'))
            rw [huno, e1, tradesFor_append, hzero]
            ring
          · have hbA : b ≠ A := fun h => hAx (h ▸ hbx)
            have hbq2 : b ∉ best.orders := fun h => hdisj h hbx
            have e2 := d11 b (List.mem_cons_of_mem _ hbx)
            rw [hunx b hbx] at e2
            have hzero : tradesFor ((heapGetD s.heap b).id) tsi = 0 := by
              refine tradesFor_zero_of_ids (fun t ht => (c8 t ht).1)
                (fun t ht => c6 ▸ List.mem_map_of_mem _ ht) ?_ ?_
              · exact ids_ne_of_nodup hids (List.mem_cons_of_mem _ hb2)
                  (List.mem_cons_self _ _) hbA
              · intro hmem2
                obtain ⟨a2, ha2, heq2⟩ := List.mem_map.mp hmem2
                have ha2' : a2 ∈ best.orders := List.take_subset _ _ ha2
                exact absurd (List.inj_on_of_nodup_map hids
                    (List.mem_cons_of_mem _ hb2)
                    (List.mem_cons_of_mem _ (List.mem_append_left _ ha2')) heq2.symm)
                  (fun h => hdisj (h ▸ ha2') hbx)
            rw [e2, tradesFor_append, hzero]
            ring
      · obtain ⟨m', hm'le, hm'⟩ := d12
        refine ⟨m' + 1, by simp only [List.length_cons]; omega, ?_⟩
        rcases hm' with h | ⟨l, r2, j, e1, e2, e3⟩
        · exact Or.inl (by rw [List.drop_succ_cons]; exact h)
        · exact Or.inr ⟨l, r2, j, by rw [List.drop_succ_cons]; exact e1, e2, e3⟩
    -- the best level's queue survives (trimmed): the aggressor is exhausted
    · obtain ⟨tsi, ki, c1, c2, c3, c4, c5, c6, c7, c8, c9, c10, c11, c12, c13, c14, c15⟩ :=
        matchInner_spec A best.orders s hAq hndq hposq h0 hidsq
      have hq_ne : (matchInner A best.orders s).1 ≠ [] := by
        simpa [List.isEmpty_iff] using h2
      have hrem0 : (heapGetD (matchInner A best.orders s).2.heap A).remainingQuantity = 0 :=
        c11 hq_ne
      have hkile : ki ≤ best.orders.length := by omega
      refine ⟨tsi, ki, c1, ?_, c3, c4, ?_, ?_, ?_, c8, ?_, ?_, ?_, ?_, ?_, ?_⟩
      · rw [sideAddrs_cons]
        show (matchInner A best.orders s).1 ++ sideAddrs rest2 = _
        rw [c2, drop_append_le _ _ _ hkile]
      · rw [List.length_append]; omega
      · rw [take_append_le _ _ _ c5]
        exact c6
      · rw [take_append_le _ _ _ c5]
        exact c7
      · intro _
        rw [sumRem_append]
        constructor
        · simp only [Order.remainingQuantity] at c9 hrem0 hsumq hsumx ⊢
          omega
        · rw [c10]
          simp only [Order.remainingQuantity] at c9 hrem0 hsumq hsumx ⊢
          omega
      · intro a hmem
        rw [take_append_le _ _ _ hkile] at hmem
        exact c12 a hmem
      · intro a hmem
        rw [drop_append_le _ _ _ hkile] at hmem
        rcases List.mem_append.mp hmem with hq | hx
        · exact c13 a hq
        · have haA : a ≠ A := fun h => hAx (h ▸ hx)
          have haq : a ∉ best.orders := fun h => hdisj h hx
          have hun : heapGetD (matchInner A best.orders s).2.heap a = heapGetD s.heap a := by
            unfold heapGetD
            rw [matchInner_untouched _ _ _ _ haA haq]
          rw [hun]
          exact ⟨hposx a hx, Or.inl rfl⟩
      · intro i
        rw [take_append_le _ _ _ hkile]
        exact c14 i
      · intro b hb
        rcases List.mem_cons.mp hb with hb1 | hb2
        · exact hb1 ▸ c15 A (List.mem_cons_self _ _)
        · rcases List.mem_append.mp hb2 with hbq | hbx
          · exact c15 b (List.mem_cons_of_mem _ hbq)
          · have hbA : b ≠ A := fun h => hAx (h ▸ hbx)
            have hbq2 : b ∉ best.orders := fun h => hdisj h hbx
            have hun : heapGetD (matchInner A best.orders s).2.heap b = heapGetD s.heap b := by
              unfold heapGetD
              rw [matchInner_untouched _ _ _ _ hbA hbq2]
            rw [hun]
            have hzero : tradesFor (heapGetD s.heap b).id tsi = 0 := by
              refine tradesFor_zero_of_ids (fun t ht => (c8 t ht).1)
                (fun t ht => c6 ▸ List.mem_map_of_mem _ ht) ?_ ?_
              · exact ids_ne_of_nodup hids (List.mem_cons_of_mem _ hb2)
                  (List.mem_cons_self _ _) hbA
              · intro hmem2
                obtain ⟨a2, ha2, heq2⟩ := List.mem_map.mp hmem2
                have ha2' : a2 ∈ best.orders := List.take_subset _ _ ha2
                exact absurd (List.inj_on_of_nodup_map hids
                    (List.mem_cons_of_mem _ hb2)
                    (List.mem_cons_of_mem _ (List.mem_append_left _ ha2')) heq2.symm)
                  (fun h => hdisj (h ▸ ha2') hbx)
            rw [hzero]
            ring
      · refine ⟨0, Nat.zero_le _, Or.inr ⟨best, rest2, ki, rfl, ?_, ?_⟩⟩
        · rw [c2]
        · rw [← c2]
          exact hq_ne
    -- the aggressor arrives with no remaining quantity: nothing happens
    · have h00 : (heapGetD s.heap A).remainingQuantity = 0 :=
        le_antisymm (not_lt.mp h0) haggr
      refine ⟨[], 0, by simp, by simp [sideAddrs_cons], Nat.le_refl 0, Nat.zero_le 1,
        Nat.zero_le _, by simp, by simp, ?_, ?_, ?_, ?_, ?_, ?_, ?_⟩
      · intro t ht
        exact absurd ht (List.not_mem_nil t)
      · intro _
        rw [sumRem_append]
        constructor
        · simp only [Order.remainingQuantity] at h00 hsumq hsumx ⊢
          omega
        · rw [sumQty_nil]
          simp only [Order.remainingQuantity] at h00 hsumq hsumx ⊢
          omega
      · intro a hmem
        exact absurd hmem (by simp)
      · intro a hmem
        exact ⟨hpos a (by simpa using hmem), Or.inl rfl⟩
      · intro i
        simp
      · intro b hb
        simp [tradesFor_nil]
      · exact ⟨0, Nat.zero_le _, Or.inl rfl⟩

/-! ## Lazy book creation and snapshots -/

theorem getBookAndLock_book (e : Engine) (sym : String) :
    (getBookAndLock e sym).2 = bookOf e sym := by
  unfold getBookAndLock bookOf
  cases h : alookup e.books sym <;> simp [h]

theorem getBookAndLock_heap (e : Engine) (sym : String) :
    (getBookAndLock e sym).1.heap = e.heap := by
  unfold getBookAndLock
  cases h : alookup e.books sym <;> simp [h]

theorem getBookAndLock_nextAddr (e : Engine) (sym : String) :
    (getBookAndLock e sym).1.nextAddr = e.nextAddr := by
  unfold getBookAndLock
  cases h : alookup e.books sym <;> simp [h]

theorem getBookAndLock_orderStore (e : Engine) (sym : String) :
    (getBookAndLock e sym).1.orderStore = e.orderStore := by
  unfold getBookAndLock
  cases h : alookup e.books sym <;> simp [h]

theorem getBookAndLock_bookOf (e : Engine) (sym sym' : String) :
    bookOf (getBookAndLock e sym).1 sym' = bookOf e sym' := by
  unfold getBookAndLock bookOf
  cases h : alookup e.books sym
  · by_cases h2 : sym = sym'
    · subst h2
      simp [h, alookup_aupd]
    · simp [h, alookup_aupd, h2]
  · simp [h]

/-- C9: querying the snapshot of a symbol that was never submitted to does
not fail: it returns empty bids and asks and lazily creates the empty book
and its lock entry for that symbol. -/
theorem C9_snapshot_fresh_symbol (e : Engine) (sym : String) (depth : Nat)
    (h : alookup e.books sym = none) :
    (getOrderBookSnapshot e sym depth).2.1 = [] ∧
    (getOrderBookSnapshot e sym depth).2.2 = [] ∧
    alookup (getOrderBookSnapshot e sym depth).1.books sym = some emptyBook ∧
    sym ∈ (getOrderBookSnapshot e sym depth).1.locks := by
  unfold getOrderBookSnapshot getBookAndLock
  rw [h]
  refine ⟨rfl, rfl, ?_, ?_⟩
  · simp [alookup_aupd]
  · simp

/-- Witness for C9 at a concrete fresh engine and symbol. -/
theorem C9_snapshot_fresh_symbol_witness :
    alookup newEngine.books "AAPL" = none ∧
    ((getOrderBookSnapshot newEngine "AAPL" 5).2.1 = [] ∧
     (getOrderBookSnapshot newEngine "AAPL" 5).2.2 = [] ∧
     alookup (getOrderBookSnapshot newEngine "AAPL" 5).1.books "AAPL" = some emptyBook ∧
     "AAPL" ∈ (getOrderBookSnapshot newEngine "AAPL" 5).1.locks) :=
  ⟨rfl, C9_snapshot_fresh_symbol newEngine "AAPL" 5 rfl⟩

/-! ## The liquidity pre-check against the mathematical book total -/

theorem scanQueue_of_lt (h : Heap) (t : Int) (q : List Nat) (acc : Int)
    (hlt : scanQueue h t q acc < t) : scanQueue h t q acc = acc + sumRem h q := by
  induction q generalizing acc with
  | nil => simp [scanQueue, sumRem_nil]
  | cons a rest ih =>
    simp only [scanQueue] at hlt ⊢
    rw [sumRem_cons]
    split_ifs at hlt ⊢ with hc
    · omega
    · rw [ih _ hlt]
      ring

theorem scanQueue_ge (h : Heap) (t : Int) (q : List Nat) (acc : Int)
    (hpos : ∀ a ∈ q, 0 ≤ (heapGetD h a).remainingQuantity)
    (hge : t ≤ acc + sumRem h q) : t ≤ scanQueue h t q acc := by
  induction q generalizing acc with
  | nil =>
    simp only [scanQueue]
    rw [sumRem_nil] at hge
    omega
  | cons a rest ih =>
    simp only [scanQueue]
    split_ifs with hc
    · exact hc
    · refine ih _ (fun b hb => hpos b (List.mem_cons_of_mem _ hb)) ?_
      rw [sumRem_cons] at hge
      omega

theorem scanLevels_of_lt (h : Heap) (t : Int) (ls : List PriceLevel) (acc : Int)
    (hlt : scanLevels h t ls acc < t) :
    scanLevels h t ls acc = acc + sumRem h (sideAddrs ls) := by
  induction ls generalizing acc with
  | nil => simp [scanLevels, sideAddrs_nil, sumRem_nil]
  | cons l rest ih =>
    simp only [scanLevels] at hlt ⊢
    rw [sideAddrs_cons, sumRem_append]
    split_ifs at hlt ⊢ with hc
    · omega
    · have hq : scanQueue h t l.orders acc < t := by omega
      rw [ih _ hlt, scanQueue_of_lt _ _ _ _ hq]
      ring

theorem scanLevels_ge (h : Heap) (t : Int) (ls : List PriceLevel) (acc : Int)
    (hpos : ∀ a ∈ sideAddrs ls, 0 ≤ (heapGetD h a).remainingQuantity)
    (hge : t ≤ acc + sumRem h (sideAddrs ls)) : t ≤ scanLevels h t ls acc := by
  induction ls generalizing acc with
  | nil =>
    simp only [scanLevels]
    rw [sideAddrs_nil, sumRem_nil] at hge
    omega
  | cons l rest ih =>
    rw [sideAddrs_cons] at hpos hge
    rw [sumRem_append] at hge
    simp only [scanLevels]
    split_ifs with hc
    · exact hc
    · by_cases hq : t ≤ acc + sumRem h l.orders
      · exact absurd (scanQueue_ge h t l.orders acc
          (fun a ha => hpos a (List.mem_append_left _ ha)) hq) (by omega)
      · push_neg at hq
        have hlt : scanQueue h t l.orders acc < t := by
          by_contra hcon
          push_neg at hcon
          exact hc hcon
        refine ih _ (fun a ha => hpos a (List.mem_append_right _ ha)) ?_
        rw [scanQueue_of_lt _ _ _ _ hlt]
        omega

/-- The early-exit liquidity scan reports sufficiency exactly when the
mathematical total of remaining quantities on the scanned side reaches the
requested quantity (remaining quantities being non-negative). -/
theorem sumRem_nonneg' {h : Heap} {q : List Nat}
    (hpos : ∀ a ∈ q, 0 ≤ (heapGetD h a).remainingQuantity) : 0 ≤ sumRem h q := by
  induction q with
  | nil => simp [sumRem_nil]
  | cons a rest ih =>
    rw [sumRem_cons]
    have h1 := hpos a (List.mem_cons_self a rest)
    have h2 := ih fun b hb => hpos b (List.mem_cons_of_mem _ hb)
    omega

theorem scanQueue_le (h : Heap) (t : Int) (q : List Nat) (acc : Int)
    (hpos : ∀ a ∈ q, 0 ≤ (heapGetD h a).remainingQuantity) :
    scanQueue h t q acc ≤ acc + sumRem h q := by
  induction q generalizing acc with
  | nil => simp [scanQueue, sumRem_nil]
  | cons a rest ih =>
    simp only [scanQueue]
    rw [sumRem_cons]
    have h1 := hpos a (List.mem_cons_self a rest)
    have h2 : 0 ≤ sumRem h rest :=
      sumRem_nonneg' fun b hb => hpos b (List.mem_cons_of_mem _ hb)
    split_ifs with hc
    · omega
    · have := ih (acc + (heapGetD h a).remainingQuantity)
        (fun b hb => hpos b (List.mem_cons_of_mem _ hb))
      omega

theorem scanLevels_le (h : Heap) (t : Int) (ls : List PriceLevel) (acc : Int)
    (hpos : ∀ a ∈ sideAddrs ls, 0 ≤ (heapGetD h a).remainingQuantity) :
    scanLevels h t ls acc ≤ acc + sumRem h (sideAddrs ls) := by
  induction ls generalizing acc with
  | nil => simp [scanLevels, sideAddrs_nil, sumRem_nil]
  | cons l rest ih =>
    rw [sideAddrs_cons] at hpos
    simp only [scanLevels]
    rw [sideAddrs_cons, sumRem_append]
    have h1 := scanQueue_le h t l.orders acc
      (fun a ha => hpos a (List.mem_append_left _ ha))
    have h2 : 0 ≤ sumRem h (sideAddrs rest) :=
      sumRem_nonneg' fun a ha => hpos a (List.mem_append_right _ ha)
    have h3 : 0 ≤ sumRem h l.orders :=
      sumRem_nonneg' fun a ha => hpos a (List.mem_append_left _ ha)
    split_ifs with hc
    · omega
    · have := ih (scanQueue h t l.orders acc)
        (fun a ha => hpos a (List.mem_append_right _ ha))
      omega

/-- The early-exit liquidity scan reports sufficiency exactly when the
mathematical total of remaining quantities on the scanned side reaches the
requested quantity (remaining quantities being non-negative). -/
theorem scanLevels_ge_iff (h : Heap) (t : Int) (ls : List PriceLevel)
    (hpos : ∀ a ∈ sideAddrs ls, 0 ≤ (heapGetD h a).remainingQuantity) :
    t ≤ scanLevels h t ls 0 ↔ t ≤ sumRem h (sideAddrs ls) := by
  constructor
  · intro hge
    have := scanLevels_le h t ls 0 hpos
    omega
  · intro hge
    exact scanLevels_ge h t ls 0 hpos (by omega)

/-- When the pre-check rejects, the reported available quantity is the full
mathematical total of the scanned side (the scan ran to the end). -/
theorem scanLevels_reject (h : Heap) (t : Int) (ls : List PriceLevel)
    (hlt : scanLevels h t ls 0 < t) :
    scanLevels h t ls 0 = sumRem h (sideAddrs ls) := by
  have := scanLevels_of_lt h t ls 0 hlt
  omega
theorem heapGetD_snoc_ne (h : Heap) (addr : Nat) (o : Order) (a : Nat) (hne : a ≠ addr) :
    heapGetD (h ++ [(addr, o)]) a = heapGetD h a := by
  unfold heapGetD
  cases hl : alookup h a with
  | none =>
    rw [alookup_append_right _ _ _ hl]
    simp only [alookup]
    rw [if_neg fun hx => hne (Eq.symm hx)]
  | some v =>
    rw [alookup_append_left _ _ _ (by simp [hl]), hl]

theorem heapGetD_snoc_self (h : Heap) (addr : Nat) (o : Order)
    (hfresh : alookup h addr = none) :
    heapGetD (h ++ [(addr, o)]) addr = o := by
  unfold heapGetD
  rw [alookup_append_right _ _ _ hfresh]
  simp [alookup]

theorem scanQueue_congr {h h' : Heap} (t : Int) (q : List Nat) (acc : Int)
    (heq : ∀ a ∈ q, heapGetD h' a = heapGetD h a) :
    scanQueue h' t q acc = scanQueue h t q acc := by
  induction q generalizing acc with
  | nil => simp [scanQueue]
  | cons a rest ih =>
    simp only [scanQueue]
    rw [heq a (List.mem_cons_self a rest)]
    split_ifs with hc
    · rfl
    · exact ih _ fun b hb => heq b (List.mem_cons_of_mem _ hb)

theorem scanLevels_congr {h h' : Heap} (t : Int) (ls : List PriceLevel) (acc : Int)
    (heq : ∀ a ∈ sideAddrs ls, heapGetD h' a = heapGetD h a) :
    scanLevels h' t ls acc = scanLevels h t ls acc := by
  induction ls generalizing acc with
  | nil => simp [scanLevels]
  | cons l rest ih =>
    rw [sideAddrs_cons] at heq
    simp only [scanLevels]
    rw [scanQueue_congr t l.orders acc fun a ha => heq a (List.mem_append_left _ ha)]
    split_ifs with hc
    · rfl
    · exact ih _ fun a ha => heq a (List.mem_append_right _ ha)

theorem alookup_snoc_ne {κ α : Type} [DecidableEq κ] (l : List (κ × α)) (k : κ) (v : α)
    (k' : κ) (hne : k' ≠ k) : alookup (l ++ [(k, v)]) k' = alookup l k' := by
  cases hl : alookup l k' with
  | none =>
    rw [alookup_append_right _ _ _ hl]
    simp only [alookup]
    rw [if_neg fun hx => hne (Eq.symm hx)]
  | some v2 =>
    rw [alookup_append_left l [(k, v)] k' (by simp [hl])]
    exact hl

/-- The liquidity scan of one side, run on the heap extended with the fresh
aggressor record: passing is equivalent to the mathematical total covering
the requested quantity, and on rejection the scanned total IS that total. -/
theorem check_side_spec (h : Heap) (addr : Nat) (o : Order) (ls : List PriceLevel)
    (hne : ∀ a ∈ sideAddrs ls, a ≠ addr)
    (hpos : ∀ a ∈ sideAddrs ls, 0 ≤ (heapGetD h a).remainingQuantity) :
    (o.quantity ≤ scanLevels (h ++ [(addr, o)]) o.quantity ls 0 ↔
      o.quantity ≤ sumRem h (sideAddrs ls)) ∧
    (sumRem h (sideAddrs ls) < o.quantity →
      scanLevels (h ++ [(addr, o)]) o.quantity ls 0 = sumRem h (sideAddrs ls)) := by
  have heq : ∀ a ∈ sideAddrs ls, heapGetD (h ++ [(addr, o)]) a = heapGetD h a :=
    fun a ha => heapGetD_snoc_ne _ _ _ _ (hne a ha)
  have hscan : scanLevels (h ++ [(addr, o)]) o.quantity ls 0 =
      scanLevels h o.quantity ls 0 := scanLevels_congr _ _ _ heq
  rw [hscan]
  refine ⟨scanLevels_ge_iff h o.quantity ls hpos, fun hlt2 => ?_⟩
  have hnotge : ¬ o.quantity ≤ scanLevels h o.quantity ls 0 := by
    intro hge
    have := (scanLevels_ge_iff h o.quantity ls hpos).1 hge
    omega
  exact scanLevels_reject h o.quantity ls (by omega)

/-- The market-order pre-check inside `SubmitOrder`, characterised against
the mathematical total of the opposite side: it passes iff the total covers
the requested quantity, and on failure the reported available quantity is
exactly that total. -/
theorem submit_check_spec (e : Engine) (o : Order)
    (hlt : ∀ a ∈ bookAddrs (bookOf e o.symbol), a < e.nextAddr)
    (hpos : ∀ a ∈ bookAddrs (bookOf e o.symbol), 0 ≤ (heapGetD e.heap a).remainingQuantity) :
    ((checkMarketOrderLiquidity (e.heap ++ [(e.nextAddr, o)]) (bookOf e o.symbol) o).2 = true ↔
      o.quantity ≤ sumRem e.heap (oppAddrs (bookOf e o.symbol) o.side)) ∧
    (sumRem e.heap (oppAddrs (bookOf e o.symbol) o.side) < o.quantity →
      (checkMarketOrderLiquidity (e.heap ++ [(e.nextAddr, o)]) (bookOf e o.symbol) o).1 =
        sumRem e.heap (oppAddrs (bookOf e o.symbol) o.side)) := by
  by_cases hside : o.side = Side.buy
  · have hsp := check_side_spec e.heap e.nextAddr o (bookOf e o.symbol).asks
      (fun a ha => Nat.ne_of_lt (hlt a (List.mem_append_right _ ha)))
      (fun a ha => hpos a (List.mem_append_right _ ha))
    simp only [checkMarketOrderLiquidity, oppAddrs, hside, if_pos rfl, decide_eq_true_eq]
    exact hsp
  · have hsp := check_side_spec e.heap e.nextAddr o (bookOf e o.symbol).bids
      (fun a ha => Nat.ne_of_lt (hlt a (List.mem_append_left _ ha)))
      (fun a ha => hpos a (List.mem_append_left _ ha))
    simp only [checkMarketOrderLiquidity, oppAddrs, if_neg hside, decide_eq_true_eq]
    exact hsp

/-- C4.  Submit raises-iff and atomicity on error: `SubmitOrder` returns an
error iff the order is a MARKET order and the total remaining quantity on
the opposite side of its book is strictly less than the order's quantity;
the error carries (available, requested); in that case no book is changed,
the order is absent from the global directory, and no existing heap record
is touched.  LIMIT orders never cause an error. -/
theorem C4_submit_error_iff (e : Engine) (o : Order)
    (hlt : ∀ a ∈ bookAddrs (bookOf e o.symbol), a < e.nextAddr)
    (hpos : ∀ a ∈ bookAddrs (bookOf e o.symbol), 0 ≤ (heapGetD e.heap a).remainingQuantity) :
    ((∃ err, (submitOrder e o).2 = Except.error err) ↔
      (o.type = OrderType.market ∧
        sumRem e.heap (oppAddrs (bookOf e o.symbol) o.side) < o.quantity)) ∧
    (o.type = OrderType.limit → ∀ err, (submitOrder e o).2 ≠ Except.error err) ∧
    (∀ err, (submitOrder e o).2 = Except.error err →
      err = ⟨sumRem e.heap (oppAddrs (bookOf e o.symbol) o.side), o.quantity⟩ ∧
      (∀ sym, bookOf (submitOrder e o).1 sym = bookOf e sym) ∧
      alookup (submitOrder e o).1.orderStore o.id = none ∧
      (∀ a, a ≠ e.nextAddr →
        alookup (submitOrder e o).1.heap a = alookup e.heap a)) := by
  have hh := getBookAndLock_heap e o.symbol
  have hn := getBookAndLock_nextAddr e o.symbol
  have hb := getBookAndLock_book e o.symbol
  have hs := getBookAndLock_orderStore e o.symbol
  have hchk := submit_check_spec e o hlt hpos
  by_cases hcond : o.type = OrderType.market ∧
      (checkMarketOrderLiquidity (e.heap ++ [(e.nextAddr, o)]) (bookOf e o.symbol) o).2 = false
  · have hlt2 : sumRem e.heap (oppAddrs (bookOf e o.symbol) o.side) < o.quantity := by
      by_contra hge
      have htrue := hchk.1.2 (by omega)
      rw [htrue] at hcond
      exact Bool.noConfusion hcond.2
    have hava := hchk.2 hlt2
    simp only [submitOrder, hh, hn, hb, hs]
    rw [if_pos hcond]
    refine ⟨⟨fun _ => ⟨hcond.1, hlt2⟩, fun _ => ⟨_, rfl⟩⟩, ?_, ?_⟩
    · intro hlim err hne
      rw [hlim] at hcond
      exact absurd hcond.1 (by simp)
    · intro err herr
      have herr2 : (⟨(checkMarketOrderLiquidity (e.heap ++ [(e.nextAddr, o)])
          (bookOf e o.symbol) o).1, o.quantity⟩ : SubmitError) = err :=
        Except.error.inj herr
      refine ⟨by rw [← herr2, hava], fun sym => ?_, ?_, fun a hane => ?_⟩
      · exact getBookAndLock_bookOf e o.symbol sym
      · show alookup (aerase (aupd e.orderStore o.id e.nextAddr) o.id) o.id = none
        rw [alookup_aerase]
        simp
      · show alookup (e.heap ++ [(e.nextAddr, o)]) a = alookup e.heap a
        exact alookup_snoc_ne _ _ _ _ hane
  · simp only [submitOrder, hh, hn, hb, hs]
    rw [if_neg hcond]
    refine ⟨⟨fun hex => ?_, fun hmk => ?_⟩, ?_, ?_⟩
    · obtain ⟨err, herr⟩ := hex
      exact absurd herr (by simp)
    · exfalso
      apply hcond
      refine ⟨hmk.1, ?_⟩
      cases hc2 : (checkMarketOrderLiquidity (e.heap ++ [(e.nextAddr, o)])
          (bookOf e o.symbol) o).2 with
      | false => rfl
      | true =>
        have := hchk.1.1 hc2
        omega
    · intro hlim err hne
      exact absurd hne (by simp)
    · intro err herr
      exact absurd herr (by simp)

/-- Witness for C4: a concrete engine holding one resting ask of 100 shares
rejects a 500-share market buy. -/
theorem C4_submit_error_iff_witness :
    ∃ err, (submitOrder
        ⟨[(0, ⟨"S1", "AAPL", Side.sell, OrderType.limit, 10050, 100, 0,
            OrderStatus.accepted, 1⟩)],
          1, [("AAPL", ⟨[], [⟨10050, [0]⟩], [("S1", 0)]⟩)], ["AAPL"], [("S1", 0)]⟩
        (newOrder "B1" "AAPL" Side.buy OrderType.market 0 500 2)).2 =
      Except.error err :=
  (C4_submit_error_iff _ _ (by decide) (by decide)).1.2 ⟨by decide, by decide⟩

/-- The inner loop never changes the aggressor's status (it only adds to the
aggressor's filled quantity). -/
theorem matchInner_aggr_status (A : Nat) (q : List Nat) (s : MatchState) (hA : A ∉ q) :
    (heapGetD (matchInner A q s).2.heap A).status = (heapGetD s.heap A).status := by
  induction q generalizing s with
  | nil => simp [matchInner]
  | cons r rest ih =>
    have hAr : A ≠ r := fun h => hA (h ▸ List.mem_cons_self r rest)
    have hArest : A ∉ rest := fun h => hA (List.mem_cons_of_mem _ h)
    rw [matchInner_cons_eq A r rest s hAr]
    split_ifs with h1 h2
    · simp only [fullState_heap]
      rw [stepHeap_A _ _ _ _ hAr]
    · rw [ih _ hArest]
      simp only [fullState_heap]
      rw [stepHeap_A _ _ _ _ hAr]
    · simp only [partialState_heap]
      rw [stepHeap_A _ _ _ _ hAr]

/-- The outer loop never changes the aggressor's status. -/
theorem matchOuter_aggr_status (A : Nat) (stop : Order → Int → Bool)
    (levels : List PriceLevel) (s : MatchState) (hA : A ∉ sideAddrs levels) :
    (heapGetD (matchOuter A stop levels s).2.heap A).status = (heapGetD s.heap A).status := by
  induction levels generalizing s with
  | nil => simp [matchOuter]
  | cons best rest ih =>
    have hAbest : A ∉ best.orders := fun h =>
      hA (by rw [sideAddrs_cons]; exact List.mem_append_left _ h)
    have hArest : A ∉ sideAddrs rest := fun h =>
      hA (by rw [sideAddrs_cons]; exact List.mem_append_right _ h)
    simp only [matchOuter]
    split_ifs with h0 h1 h2 h3
    · rfl
    · rw [matchInner_aggr_status _ _ _ hAbest]
    · rw [ih _ hArest, matchInner_aggr_status _ _ _ hAbest]
    · rw [matchInner_aggr_status _ _ _ hAbest]
    · rfl

theorem buyStop_core (o o' : Order) (h : o.core = o'.core) (p : Int) :
    buyStop o p = buyStop o' p := by
  unfold buyStop
  rw [core_eq_type h, core_eq_price h]

theorem sellStop_core (o o' : Order) (h : o.core = o'.core) (p : Int) :
    sellStop o p = sellStop o' p := by
  unfold sellStop
  rw [core_eq_type h, core_eq_price h]

/-- A full walk with no price break and enough depth consumes the
aggressor completely: remaining drops to zero, the trades sum to the
aggressor's initial remaining, and the surviving side is a subset of the
original. -/
theorem matchOuter_market_run (A : Nat) (stop : Order → Int → Bool)
    (hstop : ∀ o o' : Order, o.core = o'.core → ∀ p, stop o p = stop o' p)
    (levels : List PriceLevel) (h : Heap) (om : List (String × Nat))
    (hA : A ∉ sideAddrs levels)
    (hnd : (sideAddrs levels).Nodup)
    (hpos : ∀ a ∈ sideAddrs levels, 0 < (heapGetD h a).remainingQuantity)
    (haggr : 0 ≤ (heapGetD h A).remainingQuantity)
    (hids : ((A :: sideAddrs levels).map fun a => (heapGetD h a).id).Nodup)
    (hnostop : ∀ l ∈ levels, stop (heapGetD h A) l.price = false)
    (hsum : (heapGetD h A).remainingQuantity ≤ sumRem h (sideAddrs levels)) :
    (heapGetD (matchOuter A stop levels ⟨h, om, [], []⟩).2.heap A).remainingQuantity = 0 ∧
    sumQty (matchOuter A stop levels ⟨h, om, [], []⟩).2.trades
      = (heapGetD h A).remainingQuantity ∧
    (∀ a ∈ sideAddrs (matchOuter A stop levels ⟨h, om, [], []⟩).1, a ∈ sideAddrs levels) := by
  obtain ⟨ts, K, c1, c2, c3, c4, c5, c6, c7, c8, c9, c10, c11, c12, c13, c14⟩ :=
    matchOuter_spec A stop hstop levels ⟨h, om, [], []⟩ hA hnd hpos haggr hids
  obtain ⟨crem, csum⟩ := c9 hnostop
  have hmin : min ((heapGetD h A).remainingQuantity) (sumRem h (sideAddrs levels))
      = (heapGetD h A).remainingQuantity := min_eq_left hsum
  refine ⟨?_, ?_, ?_⟩
  · rw [crem]
    show (heapGetD h A).remainingQuantity
        - min ((heapGetD h A).remainingQuantity) (sumRem h (sideAddrs levels)) = 0
    omega
  · rw [c1]
    show sumQty ([] ++ ts) = (heapGetD h A).remainingQuantity
    rw [List.nil_append, csum]
    exact hmin
  · intro a ha
    rw [c2] at ha
    exact List.mem_of_mem_drop ha

/-- `ProcessOrder` on a MARKET aggressor whose remaining is covered by the
opposite side's depth: the aggressor is fully consumed, marked `FILLED`,
never rests in the book, and the trades sum to its remaining. -/
theorem processOrder_market_spec (h : Heap) (b : OrderBook) (A : Nat)
    (hA : A ∉ bookAddrs b)
    (hnd : (bookAddrs b).Nodup)
    (hpos : ∀ a ∈ bookAddrs b, 0 < (heapGetD h a).remainingQuantity)
    (hids : ((A :: bookAddrs b).map fun a => (heapGetD h a).id).Nodup)
    (hmk : (heapGetD h A).type = OrderType.market)
    (haggr : 0 ≤ (heapGetD h A).remainingQuantity)
    (hsum : (heapGetD h A).remainingQuantity
      ≤ sumRem h (oppAddrs b (heapGetD h A).side)) :
    (processOrder h b A).2.2.orderInBook = false ∧
    sumQty (processOrder h b A).2.2.trades = (heapGetD h A).remainingQuantity ∧
    (heapGetD (processOrder h b A).1 A).remainingQuantity = 0 ∧
    (heapGetD (processOrder h b A).1 A).status = OrderStatus.filled ∧
    A ∉ bookAddrs (processOrder h b A).2.1 := by
  have hnd2 : (sideAddrs b.bids ++ sideAddrs b.asks).Nodup := hnd
  obtain ⟨hndL, hndR, hdisj⟩ := List.nodup_append.mp hnd2
  by_cases hside : (heapGetD h A).side = Side.buy
  · have hsubA : ∀ a ∈ sideAddrs b.asks, a ∈ bookAddrs b := fun a ha =>
      List.mem_append_right _ ha
    have hA2 : A ∉ sideAddrs b.asks := fun ha => hA (hsubA _ ha)
    have hpos2 : ∀ a ∈ sideAddrs b.asks, 0 < (heapGetD h a).remainingQuantity :=
      fun a ha => hpos a (hsubA a ha)
    have hsl : (A :: sideAddrs b.asks).Sublist (A :: bookAddrs b) :=
      List.Sublist.cons₂ A (List.sublist_append_right _ _)
    have hids2 : ((A :: sideAddrs b.asks).map fun a => (heapGetD h a).id).Nodup :=
      List.Nodup.sublist (List.Sublist.map _ hsl) hids
    have hnostop : ∀ l ∈ b.asks, buyStop (heapGetD h A) l.price = false :=
      fun l _ => by simp [buyStop, hmk]
    have hsum2 : (heapGetD h A).remainingQuantity ≤ sumRem h (sideAddrs b.asks) := by
      rw [oppAddrs, if_pos hside] at hsum
      exact hsum
    have hrun := matchOuter_market_run A buyStop buyStop_core b.asks h b.orderMap
      hA2 hndR hpos2 haggr hids2 hnostop hsum2
    have ho1type : (heapGetD (matchOuter A buyStop b.asks
        ⟨h, b.orderMap, [], []⟩).2.heap A).type = OrderType.market := by
      rw [core_eq_type (matchOuter_core A buyStop b.asks ⟨h, b.orderMap, [], []⟩ A)]
      exact hmk
    simp only [processOrder]
    rw [if_pos hside]
    dsimp only
    rw [if_neg (fun hc => OrderType.noConfusion (ho1type.symm.trans hc.1)),
      if_pos hrun.1]
    refine ⟨rfl, hrun.2.1, ?_, ?_, ?_⟩
    · rw [heapGetD_aupd_self]
      exact hrun.1
    · rw [heapGetD_aupd_self]
    · intro hmem
      have hmem2 : A ∈ sideAddrs b.bids ++
          sideAddrs (matchOuter A buyStop b.asks ⟨h, b.orderMap, [], []⟩).1 := hmem
      rcases List.mem_append.mp hmem2 with hl | hr
      · exact hA (List.mem_append_left _ hl)
      · exact hA (hsubA _ (hrun.2.2 _ hr))
  · have hsubA : ∀ a ∈ sideAddrs b.bids, a ∈ bookAddrs b := fun a ha =>
      List.mem_append_left _ ha
    have hA2 : A ∉ sideAddrs b.bids := fun ha => hA (hsubA _ ha)
    have hpos2 : ∀ a ∈ sideAddrs b.bids, 0 < (heapGetD h a).remainingQuantity :=
      fun a ha => hpos a (hsubA a ha)
    have hsl : (A :: sideAddrs b.bids).Sublist (A :: bookAddrs b) :=
      List.Sublist.cons₂ A (List.sublist_append_left _ _)
    have hids2 : ((A :: sideAddrs b.bids).map fun a => (heapGetD h a).id).Nodup :=
      List.Nodup.sublist (List.Sublist.map _ hsl) hids
    have hnostop : ∀ l ∈ b.bids, sellStop (heapGetD h A) l.price = false :=
      fun l _ => by simp [sellStop, hmk]
    have hsum2 : (heapGetD h A).remainingQuantity ≤ sumRem h (sideAddrs b.bids) := by
      rw [oppAddrs, if_neg hside] at hsum
      exact hsum
    have hrun := matchOuter_market_run A sellStop sellStop_core b.bids h b.orderMap
      hA2 hndL hpos2 haggr hids2 hnostop hsum2
    have ho1type : (heapGetD (matchOuter A sellStop b.bids
        ⟨h, b.orderMap, [], []⟩).2.heap A).type = OrderType.market := by
      rw [core_eq_type (matchOuter_core A sellStop b.bids ⟨h, b.orderMap, [], []⟩ A)]
      exact hmk
    simp only [processOrder]
    rw [if_neg hside]
    dsimp only
    rw [if_neg (fun hc => OrderType.noConfusion (ho1type.symm.trans hc.1)),
      if_pos hrun.1]
    refine ⟨rfl, hrun.2.1, ?_, ?_, ?_⟩
    · rw [heapGetD_aupd_self]
      exact hrun.1
    · rw [heapGetD_aupd_self]
    · intro hmem
      have hmem2 : A ∈ sideAddrs (matchOuter A sellStop b.bids
          ⟨h, b.orderMap, [], []⟩).1 ++ sideAddrs b.asks := hmem
      rcases List.mem_append.mp hmem2 with hl | hr
      · exact hA (hsubA _ (hrun.2.2 _ hl))
      · exact hA (List.mem_append_right _ hr)

/-- C3.  Market-order all-or-nothing: a MARKET order whose liquidity
pre-check passes (the opposite side's total remaining covers its quantity)
is fully filled by `SubmitOrder`: remaining 0, status `FILLED`, it never
rests in the book, and the trades sum to the order's quantity. -/
theorem C3_market_all_or_nothing (e : Engine) (o : Order)
    (hfresh : alookup e.heap e.nextAddr = none)
    (hlt : ∀ a ∈ bookAddrs (bookOf e o.symbol), a < e.nextAddr)
    (hnd : (bookAddrs (bookOf e o.symbol)).Nodup)
    (hpos : ∀ a ∈ bookAddrs (bookOf e o.symbol), 0 < (heapGetD e.heap a).remainingQuantity)
    (hids : ((bookAddrs (bookOf e o.symbol)).map fun a => (heapGetD e.heap a).id).Nodup)
    (hoid : o.id ∉ (bookAddrs (bookOf e o.symbol)).map fun a => (heapGetD e.heap a).id)
    (hmk : o.type = OrderType.market)
    (hfq : o.filledQuantity = 0)
    (hq0 : 0 ≤ o.quantity)
    (hsum : o.quantity ≤ sumRem e.heap (oppAddrs (bookOf e o.symbol) o.side)) :
    ∃ resp, (submitOrder e o).2 = Except.ok resp ∧
      resp.orderInBook = false ∧
      sumQty resp.trades = o.quantity ∧
      (heapGetD (submitOrder e o).1.heap e.nextAddr).remainingQuantity = 0 ∧
      (heapGetD (submitOrder e o).1.heap e.nextAddr).status = OrderStatus.filled ∧
      e.nextAddr ∉ bookAddrs (bookOf (submitOrder e o).1 o.symbol) := by
  have hh := getBookAndLock_heap e o.symbol
  have hn := getBookAndLock_nextAddr e o.symbol
  have hb := getBookAndLock_book e o.symbol
  have hs := getBookAndLock_orderStore e o.symbol
  have hchk := submit_check_spec e o hlt (fun a ha => le_of_lt (hpos a ha))
  have htrue : (checkMarketOrderLiquidity (e.heap ++ [(e.nextAddr, o)])
      (bookOf e o.symbol) o).2 = true := hchk.1.2 hsum
  have hcond : ¬ (o.type = OrderType.market ∧
      (checkMarketOrderLiquidity (e.heap ++ [(e.nextAddr, o)])
        (bookOf e o.symbol) o).2 = false) := by
    intro hc
    rw [htrue] at hc
    exact Bool.noConfusion hc.2
  have hAo : heapGetD (e.heap ++ [(e.nextAddr, o)]) e.nextAddr = o :=
    heapGetD_snoc_self _ _ _ hfresh
  have hco : ∀ a ∈ bookAddrs (bookOf e o.symbol),
      heapGetD (e.heap ++ [(e.nextAddr, o)]) a = heapGetD e.heap a :=
    fun a ha => heapGetD_snoc_ne _ _ _ _ (Nat.ne_of_lt (hlt a ha))
  have hmap : (bookAddrs (bookOf e o.symbol)).map
        (fun a => (heapGetD (e.heap ++ [(e.nextAddr, o)]) a).id)
      = (bookAddrs (bookOf e o.symbol)).map (fun a => (heapGetD e.heap a).id) :=
    List.map_congr_left fun a ha => by rw [hco a ha]
  have hoppsub : ∀ a ∈ oppAddrs (bookOf e o.symbol) o.side,
      a ∈ bookAddrs (bookOf e o.symbol) := by
    intro a ha
    unfold oppAddrs at ha
    split_ifs at ha with hsd
    · exact List.mem_append_right _ ha
    · exact List.mem_append_left _ ha
  have hsumeq : sumRem (e.heap ++ [(e.nextAddr, o)]) (oppAddrs (bookOf e o.symbol) o.side)
      = sumRem e.heap (oppAddrs (bookOf e o.symbol) o.side) :=
    sumRem_congr fun a ha => hco a (hoppsub a ha)
  have hremo : (heapGetD (e.heap ++ [(e.nextAddr, o)]) e.nextAddr).remainingQuantity
      = o.quantity := by
    rw [hAo]
    simp only [Order.remainingQuantity, hfq]
    ring
  have hps := processOrder_market_spec (e.heap ++ [(e.nextAddr, o)])
    (bookOf e o.symbol) e.nextAddr
    (fun ha => absurd (hlt _ ha) (lt_irrefl _))
    hnd
    (fun a ha => by rw [hco a ha]; exact hpos a ha)
    (by rw [List.map_cons, hAo, hmap]
        exact List.nodup_cons.mpr ⟨hoid, hids⟩)
    (by rw [hAo]; exact hmk)
    (by rw [hremo]; exact hq0)
    (by rw [hremo, hAo, hsumeq]; exact hsum)
  simp only [submitOrder, hh, hn, hb, hs]
  rw [if_neg hcond]
  dsimp only
  refine ⟨_, rfl, hps.1, ?_, hps.2.2.1, hps.2.2.2.1, ?_⟩
  · rw [hps.2.1, hremo]
  · have hbooks : bookOf
        ({ (getBookAndLock e o.symbol).1 with
            heap := (processOrder (e.heap ++ [(e.nextAddr, o)]) (bookOf e o.symbol)
              e.nextAddr).1,
            nextAddr := e.nextAddr + 1,
            books := aupd (getBookAndLock e o.symbol).1.books o.symbol
              (processOrder (e.heap ++ [(e.nextAddr, o)]) (bookOf e o.symbol)
                e.nextAddr).2.1,
            orderStore := aupd e.orderStore o.id e.nextAddr } : Engine) o.symbol
      = (processOrder (e.heap ++ [(e.nextAddr, o)]) (bookOf e o.symbol) e.nextAddr).2.1 := by
      unfold bookOf
      show (alookup (aupd (getBookAndLock e o.symbol).1.books o.symbol
        (processOrder (e.heap ++ [(e.nextAddr, o)]) (bookOf e o.symbol)
          e.nextAddr).2.1) o.symbol).getD emptyBook = _
      rw [alookup_aupd]
      simp only [if_pos rfl, Option.getD_some]
      rfl
    rw [hbooks]
    exact hps.2.2.2.2

/-- Witness for C3: a 50-share market buy against a 100-share resting ask
is fully filled and never rests. -/
theorem C3_market_all_or_nothing_witness :
    ∃ resp, (submitOrder
        ⟨[(0, ⟨"S1", "AAPL", Side.sell, OrderType.limit, 10050, 100, 0,
            OrderStatus.accepted, 1⟩)],
          1, [("AAPL", ⟨[], [⟨10050, [0]⟩], [("S1", 0)]⟩)], ["AAPL"], [("S1", 0)]⟩
        (newOrder "B1" "AAPL" Side.buy OrderType.market 0 50 2)).2 = Except.ok resp ∧
      resp.orderInBook = false ∧
      sumQty resp.trades = (newOrder "B1" "AAPL" Side.buy OrderType.market 0 50 2).quantity ∧
      (heapGetD (submitOrder
        ⟨[(0, ⟨"S1", "AAPL", Side.sell, OrderType.limit, 10050, 100, 0,
            OrderStatus.accepted, 1⟩)],
          1, [("AAPL", ⟨[], [⟨10050, [0]⟩], [("S1", 0)]⟩)], ["AAPL"], [("S1", 0)]⟩
        (newOrder "B1" "AAPL" Side.buy OrderType.market 0 50 2)).1.heap 1).remainingQuantity
        = 0 ∧
      (heapGetD (submitOrder
        ⟨[(0, ⟨"S1", "AAPL", Side.sell, OrderType.limit, 10050, 100, 0,
            OrderStatus.accepted, 1⟩)],
          1, [("AAPL", ⟨[], [⟨10050, [0]⟩], [("S1", 0)]⟩)], ["AAPL"], [("S1", 0)]⟩
        (newOrder "B1" "AAPL" Side.buy OrderType.market 0 50 2)).1.heap 1).status
        = OrderStatus.filled ∧
      1 ∉ bookAddrs (bookOf (submitOrder
        ⟨[(0, ⟨"S1", "AAPL", Side.sell, OrderType.limit, 10050, 100, 0,
            OrderStatus.accepted, 1⟩)],
          1, [("AAPL", ⟨[], [⟨10050, [0]⟩], [("S1", 0)]⟩)], ["AAPL"], [("S1", 0)]⟩
        (newOrder "B1" "AAPL" Side.buy OrderType.market 0 50 2)).1 "AAPL") :=
  C3_market_all_or_nothing _ _ (by decide) (by decide) (by decide) (by decide)
    (by decide) (by decide) (by decide) (by decide) (by decide) (by decide)

theorem mem_sideAddrs_insertLevel (lt : PriceLevel → PriceLevel → Bool)
    (ls : List PriceLevel) (l : PriceLevel) (x : Nat) (hx : x ∈ l.orders) :
    x ∈ sideAddrs (insertLevel lt ls l) := by
  induction ls with
  | nil =>
    rw [insertLevel, sideAddrs_cons]
    exact List.mem_append_left _ hx
  | cons y ys ih =>
    rw [insertLevel]
    split_ifs with hc
    · rw [sideAddrs_cons]
      exact List.mem_append_left _ hx
    · rw [sideAddrs_cons]
      exact List.mem_append_right _ ih

theorem mem_sideAddrs_appendToLevel (ls : List PriceLevel) (p : Int) (a : Nat)
    (l0 : PriceLevel) (hf : findLevel ls p = some l0) :
    a ∈ sideAddrs (appendToLevel ls p a) := by
  induction ls with
  | nil => simp [findLevel] at hf
  | cons y ys ih =>
    simp only [appendToLevel, List.map_cons]
    rw [sideAddrs_cons]
    by_cases hp : y.price = p
    · rw [if_pos hp]
      exact List.mem_append_left _ (by simp)
    · rw [if_neg hp]
      refine List.mem_append_right _ ?_
      have hf2 : findLevel ys p = some l0 := by
        rw [findLevel] at hf ⊢
        rwa [List.find?_cons_of_neg _ (by simp [hp])] at hf
      exact ih hf2

/-- `addOrder` enqueues the address on the order's own side. -/
theorem addOrder_mem (h : Heap) (b : OrderBook) (a : Nat) :
    a ∈ sideAddrs (if (heapGetD h a).side = Side.buy then (addOrder h b a).bids
      else (addOrder h b a).asks) := by
  unfold addOrder
  by_cases hsd : (heapGetD h a).side = Side.buy
  · rw [if_pos hsd, if_pos hsd]
    simp only [addBid]
    cases hf : findLevel b.bids (heapGetD h a).price with
    | some l0 =>
      exact mem_sideAddrs_appendToLevel _ _ _ _ hf
    | none =>
      exact mem_sideAddrs_insertLevel _ _ _ _ (List.mem_singleton_self a)
  · rw [if_neg hsd, if_neg hsd]
    simp only [addAsk]
    cases hf : findLevel b.asks (heapGetD h a).price with
    | some l0 =>
      exact mem_sideAddrs_appendToLevel _ _ _ _ hf
    | none =>
      exact mem_sideAddrs_insertLevel _ _ _ _ (List.mem_singleton_self a)

theorem rem_update_status (o : Order) (st : OrderStatus) :
    ({ o with status := st } : Order).remainingQuantity = o.remainingQuantity := rfl

theorem filled_update_status (o : Order) (st : OrderStatus) :
    ({ o with status := st } : Order).filledQuantity = o.filledQuantity := rfl

theorem status_update_status (o : Order) (st : OrderStatus) :
    ({ o with status := st } : Order).status = st := rfl

theorem type_update_status (o : Order) (st : OrderStatus) :
    ({ o with status := st } : Order).type = o.type := rfl

/-- C5.  Post-match status and resting rule of `ProcessOrder`: a LIMIT
aggressor with remaining > 0 after matching is inserted into the book on
its own side, marked `PARTIAL_FILL` when any quantity filled and left
`ACCEPTED` otherwise; an aggressor with remaining 0 is marked `FILLED` and
does not rest; and the response's rests-in-book flag is true exactly when
a LIMIT order with remaining > 0 was inserted. -/
theorem C5_post_match_status (h : Heap) (b : OrderBook) (A : Nat)
    (hA : A ∉ bookAddrs b)
    (hstatus : (heapGetD h A).status = OrderStatus.accepted) :
    ((heapGetD h A).type = OrderType.limit ∧
        0 < (heapGetD (processOrder h b A).1 A).remainingQuantity →
      A ∈ sideAddrs (if (heapGetD h A).side = Side.buy then (processOrder h b A).2.1.bids
          else (processOrder h b A).2.1.asks) ∧
      (0 < (heapGetD (processOrder h b A).1 A).filledQuantity →
        (heapGetD (processOrder h b A).1 A).status = OrderStatus.partialFill) ∧
      ((heapGetD (processOrder h b A).1 A).filledQuantity ≤ 0 →
        (heapGetD (processOrder h b A).1 A).status = OrderStatus.accepted) ∧
      (processOrder h b A).2.2.orderInBook = true) ∧
    ((heapGetD (processOrder h b A).1 A).remainingQuantity = 0 →
      (heapGetD (processOrder h b A).1 A).status = OrderStatus.filled ∧
      (processOrder h b A).2.2.orderInBook = false) ∧
    ((processOrder h b A).2.2.orderInBook = true ↔
      ((heapGetD h A).type = OrderType.limit ∧
        0 < (heapGetD (processOrder h b A).1 A).remainingQuantity)) := by
  by_cases hside : (heapGetD h A).side = Side.buy
  · have hcore := matchOuter_core A buyStop b.asks ⟨h, b.orderMap, [], []⟩ A
    have htype := core_eq_type hcore
    have hsideq := core_eq_side hcore
    have hAasks : A ∉ sideAddrs b.asks := fun ha => hA (List.mem_append_right _ ha)
    have hstat : (heapGetD (matchOuter A buyStop b.asks
        ⟨h, b.orderMap, [], []⟩).2.heap A).status = OrderStatus.accepted := by
      rw [matchOuter_aggr_status A buyStop b.asks ⟨h, b.orderMap, [], []⟩ hAasks]
      exact hstatus
    have hmem := addOrder_mem (matchOuter A buyStop b.asks ⟨h, b.orderMap, [], []⟩).2.heap
      { b with asks := (matchOuter A buyStop b.asks ⟨h, b.orderMap, [], []⟩).1,
               orderMap := (matchOuter A buyStop b.asks ⟨h, b.orderMap, [], []⟩).2.orderMap } A
    rw [hsideq] at hmem
    simp only [processOrder]
    rw [if_pos hside]
    dsimp only
    by_cases hrest : (heapGetD (matchOuter A buyStop b.asks
          ⟨h, b.orderMap, [], []⟩).2.heap A).type = OrderType.limit ∧
        0 < (heapGetD (matchOuter A buyStop b.asks
          ⟨h, b.orderMap, [], []⟩).2.heap A).remainingQuantity
    · rw [if_pos hrest]
      dsimp only
      by_cases hfl : 0 < (heapGetD (matchOuter A buyStop b.asks
          ⟨h, b.orderMap, [], []⟩).2.heap A).filledQuantity
      · rw [if_pos hfl]
        simp only [heapGetD_aupd_self, rem_update_status, filled_update_status,
          status_update_status, type_update_status]
        refine ⟨fun _ => ⟨hmem, fun _ => trivial, fun hle => absurd hfl (not_lt.mpr hle),
            trivial⟩,
          fun h0 => absurd (h0 ▸ hrest.2) (lt_irrefl 0),
          iff_of_true trivial ⟨htype.symm.trans hrest.1, hrest.2⟩⟩
      · rw [if_neg hfl]
        refine ⟨fun _ => ⟨hmem, fun hp => absurd hp hfl, fun _ => hstat, rfl⟩,
          fun h0 => absurd (h0 ▸ hrest.2) (lt_irrefl 0),
          iff_of_true rfl ⟨htype.symm.trans hrest.1, hrest.2⟩⟩
    · rw [if_neg hrest]
      by_cases hr0 : (heapGetD (matchOuter A buyStop b.asks
          ⟨h, b.orderMap, [], []⟩).2.heap A).remainingQuantity = 0
      · rw [if_pos hr0]
        simp only [heapGetD_aupd_self, rem_update_status, filled_update_status,
          status_update_status, type_update_status]
        refine ⟨fun hc => absurd ⟨htype.trans hc.1, hc.2⟩ hrest,
          fun _ => ⟨trivial, trivial⟩,
          iff_of_false (by simp) (fun hc => hrest ⟨htype.trans hc.1, hc.2⟩)⟩
      · rw [if_neg hr0]
        refine ⟨fun hc => absurd ⟨htype.trans hc.1, hc.2⟩ hrest,
          fun h0 => absurd h0 hr0,
          iff_of_false (by simp) (fun hc => hrest ⟨htype.trans hc.1, hc.2⟩)⟩
  · have hcore := matchOuter_core A sellStop b.bids ⟨h, b.orderMap, [], []⟩ A
    have htype := core_eq_type hcore
    have hsideq := core_eq_side hcore
    have hAbids : A ∉ sideAddrs b.bids := fun ha => hA (List.mem_append_left _ ha)
    have hstat : (heapGetD (matchOuter A sellStop b.bids
        ⟨h, b.orderMap, [], []⟩).2.heap A).status = OrderStatus.accepted := by
      rw [matchOuter_aggr_status A sellStop b.bids ⟨h, b.orderMap, [], []⟩ hAbids]
      exact hstatus
    have hmem := addOrder_mem (matchOuter A sellStop b.bids ⟨h, b.orderMap, [], []⟩).2.heap
      { b with bids := (matchOuter A sellStop b.bids ⟨h, b.orderMap, [], []⟩).1,
               orderMap := (matchOuter A sellStop b.bids ⟨h, b.orderMap, [], []⟩).2.orderMap } A
    rw [hsideq] at hmem
    simp only [processOrder]
    rw [if_neg hside]
    dsimp only
    by_cases hrest : (heapGetD (matchOuter A sellStop b.bids
          ⟨h, b.orderMap, [], []⟩).2.heap A).type = OrderType.limit ∧
        0 < (heapGetD (matchOuter A sellStop b.bids
          ⟨h, b.orderMap, [], []⟩).2.heap A).remainingQuantity
    · rw [if_pos hrest]
      dsimp only
      by_cases hfl : 0 < (heapGetD (matchOuter A sellStop b.bids
          ⟨h, b.orderMap, [], []⟩).2.heap A).filledQuantity
      · rw [if_pos hfl]
        simp only [heapGetD_aupd_self, rem_update_status, filled_update_status,
          status_update_status, type_update_status]
        refine ⟨fun _ => ⟨hmem, fun _ => trivial, fun hle => absurd hfl (not_lt.mpr hle),
            trivial⟩,
          fun h0 => absurd (h0 ▸ hrest.2) (lt_irrefl 0),
          iff_of_true trivial ⟨htype.symm.trans hrest.1, hrest.2⟩⟩
      · rw [if_neg hfl]
        refine ⟨fun _ => ⟨hmem, fun hp => absurd hp hfl, fun _ => hstat, rfl⟩,
          fun h0 => absurd (h0 ▸ hrest.2) (lt_irrefl 0),
          iff_of_true rfl ⟨htype.symm.trans hrest.1, hrest.2⟩⟩
    · rw [if_neg hrest]
      by_cases hr0 : (heapGetD (matchOuter A sellStop b.bids
          ⟨h, b.orderMap, [], []⟩).2.heap A).remainingQuantity = 0
      · rw [if_pos hr0]
        simp only [heapGetD_aupd_self, rem_update_status, filled_update_status,
          status_update_status, type_update_status]
        refine ⟨fun hc => absurd ⟨htype.trans hc.1, hc.2⟩ hrest,
          fun _ => ⟨trivial, trivial⟩,
          iff_of_false (by simp) (fun hc => hrest ⟨htype.trans hc.1, hc.2⟩)⟩
      · rw [if_neg hr0]
        refine ⟨fun hc => absurd ⟨htype.trans hc.1, hc.2⟩ hrest,
          fun h0 => absurd h0 hr0,
          iff_of_false (by simp) (fun hc => hrest ⟨htype.trans hc.1, hc.2⟩)⟩

/-- Witness for C5: an uncrossed limit buy on an empty book rests. -/
theorem C5_post_match_status_witness :
    (processOrder [(0, newOrder "B1" "AAPL" Side.buy OrderType.limit 100 10 1)]
      ⟨[], [], []⟩ 0).2.2.orderInBook = true :=
  ((C5_post_match_status [(0, newOrder "B1" "AAPL" Side.buy OrderType.limit 100 10 1)]
      ⟨[], [], []⟩ 0 (by decide) (by decide)).2.2).2 ⟨by decide, by decide⟩

theorem exists_suffix_trans {α : Type} {x y z : List α}
    (h1 : ∃ t, y = x ++ t) (h2 : ∃ t, z = y ++ t) : ∃ t, z = x ++ t := by
  obtain ⟨t1, h1⟩ := h1
  obtain ⟨t2, h2⟩ := h2
  exact ⟨t1 ++ t2, by rw [h2, h1, List.append_assoc]⟩

/-- The inner loop only appends trades. -/
theorem matchInner_trades_mono (A : Nat) (q : List Nat) (s : MatchState) :
    ∃ ts, (matchInner A q s).2.trades = s.trades ++ ts := by
  induction q generalizing s with
  | nil => exact ⟨[], by simp [matchInner]⟩
  | cons r rest ih =>
    simp only [matchInner]
    split_ifs with h1 h2
    · exact ⟨_, rfl⟩
    · exact exists_suffix_trans ⟨_, rfl⟩ (ih _)
    · exact ⟨_, rfl⟩

/-- The outer loop only appends trades. -/
theorem matchOuter_trades_mono (A : Nat) (stop : Order → Int → Bool)
    (levels : List PriceLevel) (s : MatchState) :
    ∃ ts, (matchOuter A stop levels s).2.trades = s.trades ++ ts := by
  induction levels generalizing s with
  | nil => exact ⟨[], by simp [matchOuter]⟩
  | cons best rest ih =>
    simp only [matchOuter]
    split_ifs with h0 h1 h2 h3
    · exact ⟨[], by simp⟩
    · obtain ⟨ts, hts⟩ := matchInner_trades_mono A best.orders s
      exact ⟨ts, hts⟩
    · obtain ⟨ts1, hts1⟩ := matchInner_trades_mono A best.orders s
      obtain ⟨ts2, hts2⟩ := ih _
      refine ⟨ts1 ++ ts2, ?_⟩
      rw [hts2, hts1, List.append_assoc]
    · obtain ⟨ts, hts⟩ := matchInner_trades_mono A best.orders s
      exact ⟨ts, hts⟩
    · exact ⟨[], by simp⟩

/-- The first fill of a nonempty queue is against its head, at the head's
price. -/
theorem matchInner_first_trade (A r : Nat) (q : List Nat) (s : MatchState)
    (hAr : A ≠ r) :
    ∃ ts2, (matchInner A (r :: q) s).2.trades
      = s.trades ++ stepTrade s.heap A r :: ts2 := by
  rw [matchInner_cons_eq A r q s hAr]
  split_ifs with h1 h2
  · refine ⟨[], ?_⟩
    rw [fullState_trades]
  · obtain ⟨ts, hts⟩ := matchInner_trades_mono A q (fullState A r s)
    refine ⟨ts, ?_⟩
    rw [hts, fullState_trades]
    simp
  · refine ⟨[], ?_⟩
    rw [partialState_trades]

theorem exists_suffix_trans_cons {α : Type} {x y z : List α} {t0 : α}
    (h1 : ∃ t, y = x ++ t0 :: t) (h2 : ∃ t, z = y ++ t) : ∃ t, z = x ++ t0 :: t := by
  obtain ⟨t1, h1⟩ := h1
  obtain ⟨t2, h2⟩ := h2
  refine ⟨t1 ++ t2, ?_⟩
  rw [h2, h1]
  simp

/-- When the aggressor still has quantity and the price test does not break
at the best level, the walk's first trade is against the best level's head
order, at that resting order's price. -/
theorem matchOuter_first_trade (A : Nat) (stop : Order → Int → Bool)
    (best : PriceLevel) (rest : List PriceLevel) (s : MatchState) (r : Nat) (q2 : List Nat)
    (hAr : A ≠ r) (hq : best.orders = r :: q2)
    (hrem : 0 < (heapGetD s.heap A).remainingQuantity)
    (hstopf : stop (heapGetD s.heap A) best.price = false) :
    ∃ ts2, (matchOuter A stop (best :: rest) s).2.trades
      = s.trades ++ stepTrade s.heap A r :: ts2 := by
  simp only [matchOuter]
  rw [if_pos hrem, hstopf]
  simp only [Bool.false_eq_true, if_false]
  rw [hq]
  split_ifs with h2 h3
  · exact matchInner_first_trade A r q2 s hAr
  · exact exists_suffix_trans_cons (matchInner_first_trade A r q2 s hAr)
      (matchOuter_trades_mono A stop rest _)
  · exact matchInner_first_trade A r q2 s hAr

/-- The response's trades are exactly the trades of the side walk. -/
theorem processOrder_trades (h : Heap) (b : OrderBook) (A : Nat) :
    (processOrder h b A).2.2.trades =
      (if (heapGetD h A).side = Side.buy then
        (matchOuter A buyStop b.asks ⟨h, b.orderMap, [], []⟩).2.trades
      else (matchOuter A sellStop b.bids ⟨h, b.orderMap, [], []⟩).2.trades) := by
  simp only [processOrder]
  by_cases hside : (heapGetD h A).side = Side.buy
  · rw [if_pos hside, if_pos hside]
    dsimp only
    split_ifs <;> rfl
  · rw [if_neg hside, if_neg hside]
    dsimp only
    split_ifs <;> rfl

theorem exists_partner_of_map_eq {α β γ δ : Type} (f : α → γ) (g : β → γ)
    (f2 : α → δ) (g2 : β → δ) :
    ∀ (ts : List α) (bs : List β),
      ts.map f = bs.map g → ts.map f2 = bs.map g2 →
      ∀ t ∈ ts, ∃ a ∈ bs, f t = g a ∧ f2 t = g2 a := by
  intro ts
  induction ts with
  | nil =>
    intro bs _ _ t ht
    exact absurd ht (List.not_mem_nil t)
  | cons t0 ts2 ih =>
    intro bs h1 h2 t ht
    cases bs with
    | nil => simp at h1
    | cons a0 bs2 =>
      simp only [List.map_cons, List.cons.injEq] at h1 h2
      rcases List.mem_cons.mp ht with hh | hh
      · exact ⟨a0, List.mem_cons_self _ _, hh ▸ h1.1, hh ▸ h2.1⟩
      · obtain ⟨a, ha, he⟩ := ih bs2 h1.2 h2.2 t hh
        exact ⟨a, List.mem_cons_of_mem _ ha, he⟩

/-- C2.  Maker-price rule: every trade emitted while processing an order
carries the resting counterparty's id and that resting order's price (never
the aggressor's price), and a LIMIT aggressor priced exactly at the
opposite best — a buy at the best ask as well as a sell at the best bid —
still crosses: its first trade is against the best level's head at that
resting order's price. -/
theorem C2_maker_price (h : Heap) (b : OrderBook) (A : Nat)
    (hA : A ∉ bookAddrs b)
    (hnd : (bookAddrs b).Nodup)
    (hpos : ∀ a ∈ bookAddrs b, 0 < (heapGetD h a).remainingQuantity)
    (haggr : 0 ≤ (heapGetD h A).remainingQuantity)
    (hids : ((A :: bookAddrs b).map fun a => (heapGetD h a).id).Nodup) :
    (∀ t ∈ (processOrder h b A).2.2.trades,
      ∃ a ∈ oppAddrs b (heapGetD h A).side,
        t.restingOrderId = (heapGetD h a).id ∧ t.price = (heapGetD h a).price) ∧
    (∀ best rest2 r q2,
      (heapGetD h A).type = OrderType.limit →
      (heapGetD h A).side = Side.buy →
      b.asks = best :: rest2 →
      best.orders = r :: q2 →
      (heapGetD h A).price = best.price →
      0 < (heapGetD h A).remainingQuantity →
      ∃ ts2, (processOrder h b A).2.2.trades
        = (⟨(heapGetD h A).id, (heapGetD h r).id, (heapGetD h r).price,
            min ((heapGetD h A).remainingQuantity)
              ((heapGetD h r).remainingQuantity)⟩ : Trade) :: ts2) ∧
    (∀ best rest2 r q2,
      (heapGetD h A).type = OrderType.limit →
      (heapGetD h A).side = Side.sell →
      b.bids = best :: rest2 →
      best.orders = r :: q2 →
      (heapGetD h A).price = best.price →
      0 < (heapGetD h A).remainingQuantity →
      ∃ ts2, (processOrder h b A).2.2.trades
        = (⟨(heapGetD h A).id, (heapGetD h r).id, (heapGetD h r).price,
            min ((heapGetD h A).remainingQuantity)
              ((heapGetD h r).remainingQuantity)⟩ : Trade) :: ts2) := by
  refine ⟨?_, ?_, ?_⟩
  · rw [processOrder_trades]
    by_cases hside : (heapGetD h A).side = Side.buy
    · rw [if_pos hside]
      have hopp : oppAddrs b (heapGetD h A).side = sideAddrs b.asks := by
        rw [oppAddrs, if_pos hside]
      rw [hopp]
      have hsubA : ∀ a ∈ sideAddrs b.asks, a ∈ bookAddrs b := fun a ha =>
        List.mem_append_right _ ha
      have hsl : (A :: sideAddrs b.asks).Sublist (A :: bookAddrs b) :=
        List.Sublist.cons₂ A (List.sublist_append_right _ _)
      obtain ⟨ts, K, c1, c2, c3, c4, c5, c6, c7, c8, c9, c10, c11, c12, c13, c14⟩ :=
        matchOuter_spec A buyStop buyStop_core b.asks ⟨h, b.orderMap, [], []⟩
          (fun ha => hA (hsubA _ ha))
          (List.Nodup.sublist (List.sublist_append_right _ _) hnd)
          (fun a ha => hpos a (hsubA a ha)) haggr
          (List.Nodup.sublist (List.Sublist.map _ hsl) hids)
      intro t ht
      rw [c1] at ht
      have ht2 : t ∈ ts := by simpa using ht
      obtain ⟨a, ha, he1, he2⟩ := exists_partner_of_map_eq Trade.restingOrderId
        (fun a => (heapGetD h a).id) Trade.price (fun a => (heapGetD h a).price)
        ts ((sideAddrs b.asks).take ts.length) c6 c7 t ht2
      exact ⟨a, List.mem_of_mem_take ha, he1, he2⟩
    · rw [if_neg hside]
      have hopp : oppAddrs b (heapGetD h A).side = sideAddrs b.bids := by
        rw [oppAddrs, if_neg hside]
      rw [hopp]
      have hsubA : ∀ a ∈ sideAddrs b.bids, a ∈ bookAddrs b := fun a ha =>
        List.mem_append_left _ ha
      have hsl : (A :: sideAddrs b.bids).Sublist (A :: bookAddrs b) :=
        List.Sublist.cons₂ A (List.sublist_append_left _ _)
      obtain ⟨ts, K, c1, c2, c3, c4, c5, c6, c7, c8, c9, c10, c11, c12, c13, c14⟩ :=
        matchOuter_spec A sellStop sellStop_core b.bids ⟨h, b.orderMap, [], []⟩
          (fun ha => hA (hsubA _ ha))
          (List.Nodup.sublist (List.sublist_append_left _ _) hnd)
          (fun a ha => hpos a (hsubA a ha)) haggr
          (List.Nodup.sublist (List.Sublist.map _ hsl) hids)
      intro t ht
      rw [c1] at ht
      have ht2 : t ∈ ts := by simpa using ht
      obtain ⟨a, ha, he1, he2⟩ := exists_partner_of_map_eq Trade.restingOrderId
        (fun a => (heapGetD h a).id) Trade.price (fun a => (heapGetD h a).price)
        ts ((sideAddrs b.bids).take ts.length) c6 c7 t ht2
      exact ⟨a, List.mem_of_mem_take ha, he1, he2⟩
  · intro best rest2 r q2 hlim hsideB hasks hq hpr hrem
    rw [processOrder_trades, if_pos hsideB, hasks]
    have hrq : r ∈ sideAddrs b.asks := by
      rw [hasks, sideAddrs_cons, hq]
      exact List.mem_append_left _ (List.mem_cons_self r q2)
    have hAr : A ≠ r := fun he => hA (he ▸ List.mem_append_right _ hrq)
    have hstopf : buyStop (heapGetD h A) best.price = false := by
      simp [buyStop, hpr]
    obtain ⟨ts2, hts⟩ := matchOuter_first_trade A buyStop best rest2
      ⟨h, b.orderMap, [], []⟩ r q2 hAr hq hrem hstopf
    refine ⟨ts2, ?_⟩
    rw [hts]
    exact List.nil_append _
  · intro best rest2 r q2 hlim hsideS hbids hq hpr hrem
    have hnb : (heapGetD h A).side ≠ Side.buy := by
      rw [hsideS]
      exact fun hc => Side.noConfusion hc
    rw [processOrder_trades, if_neg hnb, hbids]
    have hrq : r ∈ sideAddrs b.bids := by
      rw [hbids, sideAddrs_cons, hq]
      exact List.mem_append_left _ (List.mem_cons_self r q2)
    have hAr : A ≠ r := fun he => hA (he ▸ List.mem_append_left _ hrq)
    have hstopf : sellStop (heapGetD h A) best.price = false := by
      simp [sellStop, hpr]
    obtain ⟨ts2, hts⟩ := matchOuter_first_trade A sellStop best rest2
      ⟨h, b.orderMap, [], []⟩ r q2 hAr hq hrem hstopf
    refine ⟨ts2, ?_⟩
    rw [hts]
    exact List.nil_append _

/-- Witness for C2: a limit buy at exactly the best ask price and a limit
sell at exactly the best bid price both cross and trade at the resting
order's price. -/
theorem C2_maker_price_witness :
    (∃ ts2, (processOrder
      [(0, ⟨"S1", "AAPL", Side.sell, OrderType.limit, 10050, 100, 0,
          OrderStatus.accepted, 1⟩),
       (1, ⟨"B1", "AAPL", Side.buy, OrderType.limit, 10050, 30, 0,
          OrderStatus.accepted, 2⟩)]
      ⟨[], [⟨10050, [0]⟩], [("S1", 0)]⟩ 1).2.2.trades
      = (⟨"B1", "S1", 10050, 30⟩ : Trade) :: ts2) ∧
    (∃ ts2, (processOrder
      [(0, ⟨"B2", "AAPL", Side.buy, OrderType.limit, 10050, 100, 0,
          OrderStatus.accepted, 1⟩),
       (1, ⟨"S2", "AAPL", Side.sell, OrderType.limit, 10050, 30, 0,
          OrderStatus.accepted, 2⟩)]
      ⟨[⟨10050, [0]⟩], [], [("B2", 0)]⟩ 1).2.2.trades
      = (⟨"S2", "B2", 10050, 30⟩ : Trade) :: ts2) :=
  ⟨(C2_maker_price
      [(0, ⟨"S1", "AAPL", Side.sell, OrderType.limit, 10050, 100, 0,
          OrderStatus.accepted, 1⟩),
       (1, ⟨"B1", "AAPL", Side.buy, OrderType.limit, 10050, 30, 0,
          OrderStatus.accepted, 2⟩)]
      ⟨[], [⟨10050, [0]⟩], [("S1", 0)]⟩ 1
      (by decide) (by decide) (by decide) (by decide) (by decide)).2.1
    ⟨10050, [0]⟩ [] 0 [] (by decide) (by decide) rfl rfl (by decide) (by decide),
   (C2_maker_price
      [(0, ⟨"B2", "AAPL", Side.buy, OrderType.limit, 10050, 100, 0,
          OrderStatus.accepted, 1⟩),
       (1, ⟨"S2", "AAPL", Side.sell, OrderType.limit, 10050, 30, 0,
          OrderStatus.accepted, 2⟩)]
      ⟨[⟨10050, [0]⟩], [], [("B2", 0)]⟩ 1
      (by decide) (by decide) (by decide) (by decide) (by decide)).2.2
    ⟨10050, [0]⟩ [] 0 [] (by decide) (by decide) rfl rfl (by decide) (by decide)⟩

theorem mem_sideAddrs {a : Nat} : ∀ {ls : List PriceLevel},
    a ∈ sideAddrs ls → ∃ l ∈ ls, a ∈ l.orders := by
  intro ls
  induction ls with
  | nil => intro ha; exact absurd ha (List.not_mem_nil a)
  | cons l rest ih =>
    intro ha
    rw [sideAddrs_cons] at ha
    rcases List.mem_append.mp ha with hl | hr
    · exact ⟨l, List.mem_cons_self _ _, hl⟩
    · obtain ⟨l2, hl2, hml2⟩ := ih hr
      exact ⟨l2, List.mem_cons_of_mem _ hl2, hml2⟩

/-- When the side's levels are ordered by `R` on prices and every queued
order carries its level's price, the flattened side's prices are pairwise
`R`-related. -/
theorem sideAddrs_prices_pairwise (h : Heap) (R : Int → Int → Prop)
    (hrefl : ∀ p, R p p) (ls : List PriceLevel)
    (hsort : ls.Pairwise fun x y => R x.price y.price)
    (hlv : ∀ l ∈ ls, ∀ a ∈ l.orders, (heapGetD h a).price = l.price) :
    ((sideAddrs ls).map fun a => (heapGetD h a).price).Pairwise R := by
  induction ls with
  | nil => simp [sideAddrs]
  | cons l rest ih =>
    rw [sideAddrs_cons, List.map_append, List.pairwise_append]
    obtain ⟨hhead, hrest⟩ := List.pairwise_cons.mp hsort
    refine ⟨?_, ih hrest (fun l2 hl2 a ha => hlv l2 (List.mem_cons_of_mem _ hl2) a ha), ?_⟩
    · refine List.pairwise_of_forall_mem_list ?_
      intro p hp q hq
      obtain ⟨a, ha, haeq⟩ := List.mem_map.mp hp
      obtain ⟨b2, hb2, hbeq⟩ := List.mem_map.mp hq
      rw [← haeq, ← hbeq, hlv l (List.mem_cons_self _ _) a ha,
        hlv l (List.mem_cons_self _ _) b2 hb2]
      exact hrefl _
    · intro p hp q hq
      obtain ⟨a, ha, haeq⟩ := List.mem_map.mp hp
      obtain ⟨b2, hb2, hbeq⟩ := List.mem_map.mp hq
      obtain ⟨l2, hl2, hml2⟩ := mem_sideAddrs hb2
      rw [← haeq, ← hbeq, hlv l (List.mem_cons_self _ _) a ha,
        hlv l2 (List.mem_cons_of_mem _ hl2) b2 hml2]
      exact hhead l2 hl2

theorem getD_map_of_lt {α β : Type} (f : α → β) (l : List α) (k : Nat)
    (hk : k < l.length) (d : α) (d2 : β) :
    (l.map f).getD k d2 = f (l.getD k d) := by
  rw [List.getD_eq_getElem l d hk, List.getD_eq_getElem (l.map f) d2 (by simpa using hk),
    List.getElem_map]

theorem getD_take_of_lt {α : Type} (l : List α) (n k : Nat) (hk : k < n)
    (hk2 : k < l.length) (d : α) :
    (l.take n).getD k d = l.getD k d := by
  rw [List.getD_eq_getElem (l.take n) d (by rw [List.length_take]; omega),
    List.getD_eq_getElem l d hk2, List.getElem_take]

/-- Price-time priority of one side walk: the trades consume the flattened
side (best level first, FIFO within a level) positionally — their resting
ids are the ids of the flattened side's first `trades.length` orders in
order, the trade prices inherit the side's price ordering, and whenever a
later-positioned resting order is hit, the trade at any earlier position
names exactly the earlier-positioned resting order. -/
theorem matchOuter_priority (A : Nat) (stop : Order → Int → Bool)
    (hstop : ∀ o o' : Order, o.core = o'.core → ∀ p, stop o p = stop o' p)
    (levels : List PriceLevel) (h : Heap) (om : List (String × Nat))
    (hA : A ∉ sideAddrs levels)
    (hnd : (sideAddrs levels).Nodup)
    (hpos : ∀ a ∈ sideAddrs levels, 0 < (heapGetD h a).remainingQuantity)
    (haggr : 0 ≤ (heapGetD h A).remainingQuantity)
    (hids : ((A :: sideAddrs levels).map fun a => (heapGetD h a).id).Nodup)
    (R : Int → Int → Prop) (hrefl : ∀ p, R p p)
    (hsort : levels.Pairwise fun x y => R x.price y.price)
    (hlv : ∀ l ∈ levels, ∀ a ∈ l.orders, (heapGetD h a).price = l.price) :
    ((matchOuter A stop levels ⟨h, om, [], []⟩).2.trades.map Trade.restingOrderId
      = ((sideAddrs levels).take
          (matchOuter A stop levels ⟨h, om, [], []⟩).2.trades.length).map
          (fun a => (heapGetD h a).id)) ∧
    (matchOuter A stop levels ⟨h, om, [], []⟩).2.trades.length
      ≤ (sideAddrs levels).length ∧
    ((matchOuter A stop levels ⟨h, om, [], []⟩).2.trades.map Trade.price).Pairwise R ∧
    (∀ i j, i < j → j < (sideAddrs levels).length →
      (heapGetD h ((sideAddrs levels).getD j 0)).id
        ∈ (matchOuter A stop levels ⟨h, om, [], []⟩).2.trades.map Trade.restingOrderId →
      j < (matchOuter A stop levels ⟨h, om, [], []⟩).2.trades.length ∧
      ((matchOuter A stop levels ⟨h, om, [], []⟩).2.trades.map Trade.restingOrderId).getD i ""
        = (heapGetD h ((sideAddrs levels).getD i 0)).id ∧
      ((matchOuter A stop levels ⟨h, om, [], []⟩).2.trades.map Trade.restingOrderId).getD j ""
        = (heapGetD h ((sideAddrs levels).getD j 0)).id) := by
  obtain ⟨ts, K, c1, c2, c3, c4, c5, c6, c7, c8, c9, c10, c11, c12, c13, c14⟩ :=
    matchOuter_spec A stop hstop levels ⟨h, om, [], []⟩ hA hnd hpos haggr hids
  have hts : (matchOuter A stop levels ⟨h, om, [], []⟩).2.trades = ts :=
    c1.trans (List.nil_append ts)
  have hidsflat : ((sideAddrs levels).map fun a => (heapGetD h a).id).Nodup := by
    rw [List.map_cons] at hids
    exact (List.nodup_cons.mp hids).2
  rw [hts]
  refine ⟨c6, c5, ?_, ?_⟩
  · rw [c7]
    exact List.Pairwise.sublist
      (List.Sublist.map _ (List.take_sublist _ _))
      (sideAddrs_prices_pairwise h R hrefl levels hsort hlv)
  · intro i j hij hjlen hmem
    rw [c6] at hmem
    obtain ⟨k, hk, hkeq⟩ := List.getElem_of_mem hmem
    rw [List.length_map, List.length_take] at hk
    have hkn : k < ts.length := lt_of_lt_of_le hk (min_le_left _ _)
    have hkf : k < (sideAddrs levels).length := lt_of_lt_of_le hk (min_le_right _ _)
    rw [List.getElem_map, List.getElem_take,
      List.getD_eq_getElem (sideAddrs levels) 0 hjlen] at hkeq
    have hkj : k = j := by
      have heq2 : (sideAddrs levels).get ⟨k, hkf⟩ = (sideAddrs levels).get ⟨j, hjlen⟩ :=
        List.inj_on_of_nodup_map hidsflat
          (List.get_mem _ _ _) (List.get_mem _ _ _) hkeq
      exact Fin.mk.injEq _ _ _ _ ▸ (List.Nodup.get_inj_iff hnd).mp heq2
    have hjn : j < ts.length := hkj ▸ hkn
    have hgen : ∀ k2, k2 < ts.length → k2 < (sideAddrs levels).length →
        (ts.map Trade.restingOrderId).getD k2 ""
          = (heapGetD h ((sideAddrs levels).getD k2 0)).id := by
      intro k2 hk2n hk2f
      rw [c6, getD_map_of_lt _ _ k2 (by rw [List.length_take]; omega) 0 "",
        getD_take_of_lt _ _ _ hk2n hk2f]
    exact ⟨hjn, hgen i (lt_trans hij hjn) (lt_trans hij hjlen), hgen j hjn hjlen⟩

/-- C1.  Price-time priority: the trades emitted while processing an order
consume the opposite side's flattened order list (best-priced level first,
FIFO within each level) positionally — the resting ids are exactly the ids
of the first `trades.length` flattened resting orders in order; trade
prices are non-decreasing for a buy aggressor and non-increasing for a
sell aggressor (best level first); and if a later-positioned resting order
(e.g. B submitted after A at the same price) is hit by any trade, the
earlier position was filled by an earlier trade. -/
theorem C1_price_time_priority (h : Heap) (b : OrderBook) (A : Nat)
    (hA : A ∉ bookAddrs b)
    (hnd : (bookAddrs b).Nodup)
    (hpos : ∀ a ∈ bookAddrs b, 0 < (heapGetD h a).remainingQuantity)
    (haggr : 0 ≤ (heapGetD h A).remainingQuantity)
    (hids : ((A :: bookAddrs b).map fun a => (heapGetD h a).id).Nodup)
    (hsortA : b.asks.Pairwise fun x y => asksSort x y = true)
    (hsortB : b.bids.Pairwise fun x y => bidsSort x y = true)
    (hlvA : ∀ l ∈ b.asks, ∀ a ∈ l.orders, (heapGetD h a).price = l.price)
    (hlvB : ∀ l ∈ b.bids, ∀ a ∈ l.orders, (heapGetD h a).price = l.price) :
    ((processOrder h b A).2.2.trades.map Trade.restingOrderId
      = ((oppAddrs b (heapGetD h A).side).take
          (processOrder h b A).2.2.trades.length).map (fun a => (heapGetD h a).id)) ∧
    (processOrder h b A).2.2.trades.length ≤ (oppAddrs b (heapGetD h A).side).length ∧
    ((heapGetD h A).side = Side.buy →
      ((processOrder h b A).2.2.trades.map Trade.price).Pairwise (· ≤ ·)) ∧
    ((heapGetD h A).side = Side.sell →
      ((processOrder h b A).2.2.trades.map Trade.price).Pairwise (fun p q => q ≤ p)) ∧
    (∀ i j, i < j → j < (oppAddrs b (heapGetD h A).side).length →
      (heapGetD h ((oppAddrs b (heapGetD h A).side).getD j 0)).id
        ∈ (processOrder h b A).2.2.trades.map Trade.restingOrderId →
      j < (processOrder h b A).2.2.trades.length ∧
      ((processOrder h b A).2.2.trades.map Trade.restingOrderId).getD i ""
        = (heapGetD h ((oppAddrs b (heapGetD h A).side).getD i 0)).id ∧
      ((processOrder h b A).2.2.trades.map Trade.restingOrderId).getD j ""
        = (heapGetD h ((oppAddrs b (heapGetD h A).side).getD j 0)).id) := by
  rw [processOrder_trades]
  by_cases hside : (heapGetD h A).side = Side.buy
  · rw [if_pos hside]
    have hopp : oppAddrs b (heapGetD h A).side = sideAddrs b.asks := by
      rw [oppAddrs, if_pos hside]
    rw [hopp]
    have hsubA : ∀ a ∈ sideAddrs b.asks, a ∈ bookAddrs b := fun a ha =>
      List.mem_append_right _ ha
    have hsl : (A :: sideAddrs b.asks).Sublist (A :: bookAddrs b) :=
      List.Sublist.cons₂ A (List.sublist_append_right _ _)
    have hp := matchOuter_priority A buyStop buyStop_core b.asks h b.orderMap
      (fun ha => hA (hsubA _ ha))
      (List.Nodup.sublist (List.sublist_append_right _ _) hnd)
      (fun a ha => hpos a (hsubA a ha)) haggr
      (List.Nodup.sublist (List.Sublist.map _ hsl) hids)
      (fun p q => p ≤ q) (fun p => le_refl p)
      (List.Pairwise.imp (fun hab => le_of_lt (by simpa [asksSort] using hab)) hsortA)
      hlvA
    exact ⟨hp.1, hp.2.1, fun _ => hp.2.2.1,
      fun hsell => absurd (hside.symm.trans hsell) (by simp), hp.2.2.2⟩
  · rw [if_neg hside]
    have hsell : (heapGetD h A).side = Side.sell := by
      cases hs : (heapGetD h A).side
      · exact absurd hs hside
      · rfl
    have hopp : oppAddrs b (heapGetD h A).side = sideAddrs b.bids := by
      rw [oppAddrs, if_neg hside]
    rw [hopp]
    have hsubA : ∀ a ∈ sideAddrs b.bids, a ∈ bookAddrs b := fun a ha =>
      List.mem_append_left _ ha
    have hsl : (A :: sideAddrs b.bids).Sublist (A :: bookAddrs b) :=
      List.Sublist.cons₂ A (List.sublist_append_left _ _)
    have hp := matchOuter_priority A sellStop sellStop_core b.bids h b.orderMap
      (fun ha => hA (hsubA _ ha))
      (List.Nodup.sublist (List.sublist_append_left _ _) hnd)
      (fun a ha => hpos a (hsubA a ha)) haggr
      (List.Nodup.sublist (List.Sublist.map _ hsl) hids)
      (fun p q => q ≤ p) (fun p => le_refl p)
      (List.Pairwise.imp (fun hab => le_of_lt (by simpa [bidsSort] using hab)) hsortB)
      hlvB
    exact ⟨hp.1, hp.2.1, fun hbuy => absurd hbuy hside, fun _ => hp.2.2.1, hp.2.2.2⟩

/-- Witness for C1: with two resting asks S1 (earlier) and S2 at the same
price, a crossing buy fills S1 with its first trade and S2 with its
second. -/
theorem C1_price_time_priority_witness :
    1 < (processOrder
      [(0, ⟨"S1", "AAPL", Side.sell, OrderType.limit, 10050, 50, 0,
          OrderStatus.accepted, 1⟩),
       (1, ⟨"S2", "AAPL", Side.sell, OrderType.limit, 10050, 50, 0,
          OrderStatus.accepted, 2⟩),
       (2, ⟨"B1", "AAPL", Side.buy, OrderType.limit, 10100, 60, 0,
          OrderStatus.accepted, 3⟩)]
      ⟨[], [⟨10050, [0, 1]⟩], [("S1", 0), ("S2", 1)]⟩ 2).2.2.trades.length ∧
    ((processOrder
      [(0, ⟨"S1", "AAPL", Side.sell, OrderType.limit, 10050, 50, 0,
          OrderStatus.accepted, 1⟩),
       (1, ⟨"S2", "AAPL", Side.sell, OrderType.limit, 10050, 50, 0,
          OrderStatus.accepted, 2⟩),
       (2, ⟨"B1", "AAPL", Side.buy, OrderType.limit, 10100, 60, 0,
          OrderStatus.accepted, 3⟩)]
      ⟨[], [⟨10050, [0, 1]⟩], [("S1", 0), ("S2", 1)]⟩ 2).2.2.trades.map
        Trade.restingOrderId).getD 0 "" = "S1" ∧
    ((processOrder
      [(0, ⟨"S1", "AAPL", Side.sell, OrderType.limit, 10050, 50, 0,
          OrderStatus.accepted, 1⟩),
       (1, ⟨"S2", "AAPL", Side.sell, OrderType.limit, 10050, 50, 0,
          OrderStatus.accepted, 2⟩),
       (2, ⟨"B1", "AAPL", Side.buy, OrderType.limit, 10100, 60, 0,
          OrderStatus.accepted, 3⟩)]
      ⟨[], [⟨10050, [0, 1]⟩], [("S1", 0), ("S2", 1)]⟩ 2).2.2.trades.map
        Trade.restingOrderId).getD 1 "" = "S2" :=
  (C1_price_time_priority
      [(0, ⟨"S1", "AAPL", Side.sell, OrderType.limit, 10050, 50, 0,
          OrderStatus.accepted, 1⟩),
       (1, ⟨"S2", "AAPL", Side.sell, OrderType.limit, 10050, 50, 0,
          OrderStatus.accepted, 2⟩),
       (2, ⟨"B1", "AAPL", Side.buy, OrderType.limit, 10100, 60, 0,
          OrderStatus.accepted, 3⟩)]
      ⟨[], [⟨10050, [0, 1]⟩], [("S1", 0), ("S2", 1)]⟩ 2
      (by decide) (by decide) (by decide) (by decide) (by decide)
      (by decide) (by decide) (by decide) (by decide)).2.2.2.2
    0 1 (by decide) (by decide) (by decide)

/-- With depth 0 (no limit) the running count is irrelevant. -/
theorem aggregateSide_zero_count (h : Heap) :
    ∀ (ls : List PriceLevel) (c c2 : Nat),
      aggregateSide h 0 ls c = aggregateSide h 0 ls c2 := by
  intro ls
  induction ls with
  | nil => intro c c2; simp [aggregateSide]
  | cons l rest ih =>
    intro c c2
    simp only [aggregateSide, lt_self_iff_false, false_and, if_false]
    split_ifs with h2
    · rw [ih (c + 1) (c2 + 1)]
    · exact ih c c2

/-- Once the emitted-level count has reached a positive depth, the walk
stops. -/
theorem aggregateSide_stop (h : Heap) (depth : Nat) (ls : List PriceLevel)
    (c : Nat) (hd : 0 < depth) (hc : depth ≤ c) :
    aggregateSide h depth ls c = [] := by
  cases ls with
  | nil => simp [aggregateSide]
  | cons l rest =>
    simp only [aggregateSide]
    rw [if_pos ⟨hd, hc⟩]

/-- A positive depth yields the first `depth - count` entries of the
unlimited walk. -/
theorem aggregateSide_depth_take (h : Heap) (depth : Nat) (hd : 0 < depth) :
    ∀ (ls : List PriceLevel) (c : Nat),
      aggregateSide h depth ls c = (aggregateSide h 0 ls 0).take (depth - c) := by
  intro ls
  induction ls with
  | nil => intro c; simp [aggregateSide]
  | cons l rest ih =>
    intro c
    by_cases hc : depth ≤ c
    · rw [aggregateSide_stop h depth _ c hd hc]
      have : depth - c = 0 := by omega
      rw [this, List.take_zero]
    · simp only [aggregateSide, lt_self_iff_false, false_and, if_false]
      rw [if_neg (fun hx => hc hx.2)]
      split_ifs with h2
      · rw [ih (c + 1), aggregateSide_zero_count h rest 1 0]
        have hdc : depth - c = (depth - (c + 1)) + 1 := by omega
        rw [hdc, List.take_succ_cons]
      · rw [ih c, aggregateSide_zero_count h rest 0 1]

/-- The unlimited walk is a filter-map over the side's levels: each level
with positive aggregated remaining contributes `{price, total}`, zero-total
levels are skipped. -/
theorem aggregateSide_zero_eq_filterMap (h : Heap) (ls : List PriceLevel) :
    aggregateSide h 0 ls 0 = ls.filterMap fun l =>
      if 0 < sumRem h l.orders then
        some ⟨l.price, sumRem h l.orders⟩ else none := by
  induction ls with
  | nil => simp [aggregateSide]
  | cons l rest ih =>
    simp only [aggregateSide, lt_self_iff_false, false_and, if_false,
      List.filterMap_cons, sumRem]
    split_ifs with h2
    · rw [aggregateSide_zero_count h rest 1 0, ih]
      simp [sumRem]
    · rw [ih]
      simp [sumRem]

theorem mem_if_some {α : Type} {c : Prop} [Decidable c] {e b : α}
    (h : b ∈ (if c then some e else none : Option α)) : b = e ∧ c := by
  split_ifs at h with hc
  · simp at h
    exact ⟨h.symm, hc⟩
  · simp at h

theorem aggregateSide_zero_spec (h : Heap) (ls : List PriceLevel) :
    aggregateSide h 0 ls 0 = snapshotSideSpec h ls :=
  aggregateSide_zero_eq_filterMap h ls

/-- The spec-side aggregation's prices inherit the index's strict price
order. -/
theorem snapshotSideSpec_pairwise (h : Heap) (R : Int → Int → Prop)
    (ls : List PriceLevel) (hsort : ls.Pairwise fun x y => R x.price y.price) :
    ((snapshotSideSpec h ls).map AggregatedPriceLevel.price).Pairwise R := by
  rw [snapshotSideSpec, List.pairwise_map, List.pairwise_filterMap]
  refine List.Pairwise.imp ?_ hsort
  intro x y hxy
  intro b hb b2 hb2
  rw [(mem_if_some hb).1, (mem_if_some hb2).1]
  exact hxy

/-- Every emitted snapshot entry is a level of the side with positive
aggregated remaining. -/
theorem snapshotSideSpec_mem (h : Heap) (ls : List PriceLevel)
    (x : AggregatedPriceLevel) (hx : x ∈ snapshotSideSpec h ls) :
    ∃ l ∈ ls, x.price = l.price ∧ x.quantity = sumRem h l.orders ∧ 0 < x.quantity := by
  rw [snapshotSideSpec] at hx
  obtain ⟨l, hl, hfl⟩ := List.mem_filterMap.mp hx
  by_cases hc : 0 < sumRem h l.orders
  · rw [if_pos hc] at hfl
    obtain rfl := Option.some.inj hfl
    exact ⟨l, hl, rfl, rfl, hc⟩
  · rw [if_neg hc] at hfl
    exact absurd hfl (Option.noConfusion)

/-- C7.  Snapshot correctness: both sides aggregate each level's remaining
quantities into `{price, total}` entries in index order (asks strictly
ascending, bids strictly descending, given the indexes' comparator order),
skipping zero-total levels; depth 0 returns all levels, a positive depth
returns the first (best-priced) `depth` entries; and the snapshot mutates
no book, heap record or directory entry. -/
theorem C7_snapshot (e : Engine) (sym : String) (depth : Nat)
    (hsortA : (bookOf e sym).asks.Pairwise fun x y => asksSort x y = true)
    (hsortB : (bookOf e sym).bids.Pairwise fun x y => bidsSort x y = true) :
    (depth = 0 →
      (getOrderBookSnapshot e sym depth).2.1 = snapshotSideSpec e.heap (bookOf e sym).bids ∧
      (getOrderBookSnapshot e sym depth).2.2 = snapshotSideSpec e.heap (bookOf e sym).asks) ∧
    (0 < depth →
      (getOrderBookSnapshot e sym depth).2.1
        = (snapshotSideSpec e.heap (bookOf e sym).bids).take depth ∧
      (getOrderBookSnapshot e sym depth).2.2
        = (snapshotSideSpec e.heap (bookOf e sym).asks).take depth) ∧
    (((getOrderBookSnapshot e sym depth).2.2.map AggregatedPriceLevel.price).Pairwise
      (· < ·)) ∧
    (((getOrderBookSnapshot e sym depth).2.1.map AggregatedPriceLevel.price).Pairwise
      (fun p q => q < p)) ∧
    (∀ x ∈ (getOrderBookSnapshot e sym depth).2.2, ∃ l ∈ (bookOf e sym).asks,
      x.price = l.price ∧ x.quantity = sumRem e.heap l.orders ∧ 0 < x.quantity) ∧
    (∀ x ∈ (getOrderBookSnapshot e sym depth).2.1, ∃ l ∈ (bookOf e sym).bids,
      x.price = l.price ∧ x.quantity = sumRem e.heap l.orders ∧ 0 < x.quantity) ∧
    (∀ s2, bookOf (getOrderBookSnapshot e sym depth).1 s2 = bookOf e s2) ∧
    (getOrderBookSnapshot e sym depth).1.heap = e.heap ∧
    (getOrderBookSnapshot e sym depth).1.orderStore = e.orderStore := by
  have hh := getBookAndLock_heap e sym
  have hb := getBookAndLock_book e sym
  have hs := getBookAndLock_orderStore e sym
  simp only [getOrderBookSnapshot]
  rw [hh, hb]
  have hsubB : aggregateSide e.heap depth (bookOf e sym).bids 0
      = (snapshotSideSpec e.heap (bookOf e sym).bids).take
          (if depth = 0 then (snapshotSideSpec e.heap (bookOf e sym).bids).length
           else depth) := by
    rcases Nat.eq_zero_or_pos depth with hd | hd
    · rw [hd, aggregateSide_zero_spec, if_pos rfl, List.take_length]
    · rw [aggregateSide_depth_take e.heap depth hd _ 0, aggregateSide_zero_spec,
        if_neg (by omega), Nat.sub_zero]
  have hsubA : aggregateSide e.heap depth (bookOf e sym).asks 0
      = (snapshotSideSpec e.heap (bookOf e sym).asks).take
          (if depth = 0 then (snapshotSideSpec e.heap (bookOf e sym).asks).length
           else depth) := by
    rcases Nat.eq_zero_or_pos depth with hd | hd
    · rw [hd, aggregateSide_zero_spec, if_pos rfl, List.take_length]
    · rw [aggregateSide_depth_take e.heap depth hd _ 0, aggregateSide_zero_spec,
        if_neg (by omega), Nat.sub_zero]
  have hpA : ((snapshotSideSpec e.heap (bookOf e sym).asks).map
      AggregatedPriceLevel.price).Pairwise (· < ·) :=
    snapshotSideSpec_pairwise e.heap (fun p q => p < q) _
      (List.Pairwise.imp (fun hab => by simpa [asksSort] using hab) hsortA)
  have hpB : ((snapshotSideSpec e.heap (bookOf e sym).bids).map
      AggregatedPriceLevel.price).Pairwise (fun p q => q < p) :=
    snapshotSideSpec_pairwise e.heap (fun p q => q < p) _
      (List.Pairwise.imp (fun hab => by simpa [bidsSort] using hab) hsortB)
  refine ⟨?_, ?_, ?_, ?_, ?_, ?_, fun s2 => getBookAndLock_bookOf e sym s2, rfl, hs⟩
  · intro hd0
    rw [hsubB, hsubA, hd0]
    rw [if_pos rfl, if_pos rfl, List.take_length, List.take_length]
    exact ⟨rfl, rfl⟩
  · intro hdp
    rw [hsubB, hsubA, if_neg (by omega), if_neg (by omega)]
    exact ⟨rfl, rfl⟩
  · rw [hsubA]
    exact List.Pairwise.sublist (List.Sublist.map _ (List.take_sublist _ _)) hpA
  · rw [hsubB]
    exact List.Pairwise.sublist (List.Sublist.map _ (List.take_sublist _ _)) hpB
  · intro x hx
    rw [hsubA] at hx
    exact snapshotSideSpec_mem e.heap _ x (List.mem_of_mem_take hx)
  · intro x hx
    rw [hsubB] at hx
    exact snapshotSideSpec_mem e.heap _ x (List.mem_of_mem_take hx)

/-- Witness for C7: depth 1 returns the best-priced level of each side. -/
theorem C7_snapshot_witness :
    (getOrderBookSnapshot
        ⟨[(0, ⟨"S1", "AAPL", Side.sell, OrderType.limit, 10050, 50, 0,
            OrderStatus.accepted, 1⟩),
          (1, ⟨"S2", "AAPL", Side.sell, OrderType.limit, 10100, 70, 0,
            OrderStatus.accepted, 2⟩)],
          2, [("AAPL", ⟨[], [⟨10050, [0]⟩, ⟨10100, [1]⟩], [("S1", 0), ("S2", 1)]⟩)],
          ["AAPL"], [("S1", 0), ("S2", 1)]⟩ "AAPL" 1).2.1
      = (snapshotSideSpec
          [(0, ⟨"S1", "AAPL", Side.sell, OrderType.limit, 10050, 50, 0,
              OrderStatus.accepted, 1⟩),
           (1, ⟨"S2", "AAPL", Side.sell, OrderType.limit, 10100, 70, 0,
              OrderStatus.accepted, 2⟩)]
          (bookOf
            ⟨[(0, ⟨"S1", "AAPL", Side.sell, OrderType.limit, 10050, 50, 0,
                OrderStatus.accepted, 1⟩),
              (1, ⟨"S2", "AAPL", Side.sell, OrderType.limit, 10100, 70, 0,
                OrderStatus.accepted, 2⟩)],
              2, [("AAPL", ⟨[], [⟨10050, [0]⟩, ⟨10100, [1]⟩], [("S1", 0), ("S2", 1)]⟩)],
              ["AAPL"], [("S1", 0), ("S2", 1)]⟩ "AAPL").bids).take 1 ∧
    (getOrderBookSnapshot
        ⟨[(0, ⟨"S1", "AAPL", Side.sell, OrderType.limit, 10050, 50, 0,
            OrderStatus.accepted, 1⟩),
          (1, ⟨"S2", "AAPL", Side.sell, OrderType.limit, 10100, 70, 0,
            OrderStatus.accepted, 2⟩)],
          2, [("AAPL", ⟨[], [⟨10050, [0]⟩, ⟨10100, [1]⟩], [("S1", 0), ("S2", 1)]⟩)],
          ["AAPL"], [("S1", 0), ("S2", 1)]⟩ "AAPL" 1).2.2
      = (snapshotSideSpec
          [(0, ⟨"S1", "AAPL", Side.sell, OrderType.limit, 10050, 50, 0,
              OrderStatus.accepted, 1⟩),
           (1, ⟨"S2", "AAPL", Side.sell, OrderType.limit, 10100, 70, 0,
              OrderStatus.accepted, 2⟩)]
          (bookOf
            ⟨[(0, ⟨"S1", "AAPL", Side.sell, OrderType.limit, 10050, 50, 0,
                OrderStatus.accepted, 1⟩),
              (1, ⟨"S2", "AAPL", Side.sell, OrderType.limit, 10100, 70, 0,
                OrderStatus.accepted, 2⟩)],
              2, [("AAPL", ⟨[], [⟨10050, [0]⟩, ⟨10100, [1]⟩], [("S1", 0), ("S2", 1)]⟩)],
              ["AAPL"], [("S1", 0), ("S2", 1)]⟩ "AAPL").asks).take 1 :=
  (C7_snapshot
      ⟨[(0, ⟨"S1", "AAPL", Side.sell, OrderType.limit, 10050, 50, 0,
          OrderStatus.accepted, 1⟩),
        (1, ⟨"S2", "AAPL", Side.sell, OrderType.limit, 10100, 70, 0,
          OrderStatus.accepted, 2⟩)],
        2, [("AAPL", ⟨[], [⟨10050, [0]⟩, ⟨10100, [1]⟩], [("S1", 0), ("S2", 1)]⟩)],
        ["AAPL"], [("S1", 0), ("S2", 1)]⟩ "AAPL" 1
      (by decide) (by decide)).2.1 (by decide)

/-- `ProcessOrder` writes only filled quantities and statuses: every
record's immutable fields survive. -/
theorem processOrder_core (h : Heap) (b : OrderBook) (A a : Nat) :
    (heapGetD (processOrder h b A).1 a).core = (heapGetD h a).core := by
  simp only [processOrder]
  by_cases hside : (heapGetD h A).side = Side.buy
  · rw [if_pos hside]
    dsimp only
    split_ifs with h1 h2 h3
    · dsimp only
      refine (heapGetD_core_aupd _ _ _ _ ?_).trans
        (matchOuter_core A buyStop b.asks ⟨h, b.orderMap, [], []⟩ a)
      rfl
    · dsimp only
      exact matchOuter_core A buyStop b.asks ⟨h, b.orderMap, [], []⟩ a
    · dsimp only
      refine (heapGetD_core_aupd _ _ _ _ ?_).trans
        (matchOuter_core A buyStop b.asks ⟨h, b.orderMap, [], []⟩ a)
      rfl
    · dsimp only
      exact matchOuter_core A buyStop b.asks ⟨h, b.orderMap, [], []⟩ a
  · rw [if_neg hside]
    dsimp only
    split_ifs with h1 h2 h3
    · dsimp only
      refine (heapGetD_core_aupd _ _ _ _ ?_).trans
        (matchOuter_core A sellStop b.bids ⟨h, b.orderMap, [], []⟩ a)
      rfl
    · dsimp only
      exact matchOuter_core A sellStop b.bids ⟨h, b.orderMap, [], []⟩ a
    · dsimp only
      refine (heapGetD_core_aupd _ _ _ _ ?_).trans
        (matchOuter_core A sellStop b.bids ⟨h, b.orderMap, [], []⟩ a)
      rfl
    · dsimp only
      exact matchOuter_core A sellStop b.bids ⟨h, b.orderMap, [], []⟩ a

/-- A level's queue is a sublist of its side's flattened address list. -/
theorem orders_sublist_sideAddrs {l : PriceLevel} : ∀ {ls : List PriceLevel},
    l ∈ ls → l.orders.Sublist (sideAddrs ls) := by
  intro ls
  induction ls with
  | nil => intro h; exact absurd h (List.not_mem_nil l)
  | cons x rest ih =>
    intro h
    rw [sideAddrs_cons]
    rcases List.mem_cons.mp h with rfl | hr
    · exact List.sublist_append_left _ _
    · exact (ih hr).trans (List.sublist_append_right _ _)

/-- Removing an address from its (unique) level detaches it from the side:
it is gone from the flattened address list. -/
theorem not_mem_removeOrderFromSide (ls : List PriceLevel) (a : Nat) (p : Int)
    (hnd : (sideAddrs ls).Nodup)
    (hco : ∀ l ∈ ls, a ∈ l.orders → l.price = p) :
    a ∉ sideAddrs (removeOrderFromSide ls p a) := by
  intro hmem
  obtain ⟨l2, hl2, hml2⟩ := mem_sideAddrs hmem
  rw [removeOrderFromSide] at hl2
  obtain ⟨l, hl, hfl⟩ := List.mem_filterMap.mp hl2
  by_cases hp : l.price = p
  · rw [if_pos hp] at hfl
    by_cases hq : (l.orders.erase a).isEmpty
    · rw [if_pos hq] at hfl
      exact Option.noConfusion hfl
    · rw [if_neg hq] at hfl
      obtain rfl := Option.some.inj hfl
      have hndl : l.orders.Nodup := (orders_sublist_sideAddrs hl).nodup hnd
      exact hndl.not_mem_erase hml2
  · rw [if_neg hp] at hfl
    obtain rfl := Option.some.inj hfl
    exact hp (hco l hl hml2)

theorem side_update_status (o : Order) (st : OrderStatus) :
    ({ o with status := st } : Order).side = o.side := rfl

theorem price_update_status (o : Order) (st : OrderStatus) :
    ({ o with status := st } : Order).price = o.price := rfl

theorem symbol_update_status (o : Order) (st : OrderStatus) :
    ({ o with status := st } : Order).symbol = o.symbol := rfl

theorem bookOf_aupd_self (e0 : Engine) (sym : String) (b : OrderBook) :
    bookOf { e0 with books := aupd e0.books sym b } sym = b := by
  simp only [bookOf]
  show (alookup (aupd e0.books sym b) sym).getD emptyBook = b
  rw [alookup_aupd]
  simp

/-- Cancelling an already-cancelled directory entry reports
already-terminal and leaves the engine untouched. -/
theorem cancel_already_terminal (e2 : Engine) (i : String) (a : Nat)
    (hl2 : alookup e2.orderStore i = some a)
    (hst : (heapGetD e2.heap a).status = OrderStatus.cancelled) :
    (cancelOrder e2 i).2 = Except.error CancelError.alreadyTerminal ∧
    (cancelOrder e2 i).1 = e2 := by
  simp only [cancelOrder]
  rw [hl2]
  dsimp only
  rw [if_pos (Or.inr hst)]
  exact ⟨rfl, rfl⟩

/-- The effects of a successful cancel: the order is returned and stored
as `CANCELLED` with its filled quantity intact, the directory entry stays,
the order is detached from its book, and a repeat cancel is a no-op
reporting already-terminal. -/
theorem cancel_success_spec (e : Engine) (i : String) (a : Nat)
    (hl : alookup e.orderStore i = some a)
    (hf : (heapGetD e.heap a).status ≠ OrderStatus.filled)
    (hc : (heapGetD e.heap a).status ≠ OrderStatus.cancelled)
    (hndB : (bookAddrs (bookOf e (heapGetD e.heap a).symbol)).Nodup)
    (hlvA : ∀ l ∈ (bookOf e (heapGetD e.heap a).symbol).asks, ∀ x ∈ l.orders,
      (heapGetD e.heap x).price = l.price)
    (hlvB : ∀ l ∈ (bookOf e (heapGetD e.heap a).symbol).bids, ∀ x ∈ l.orders,
      (heapGetD e.heap x).price = l.price)
    (hsdA : ∀ x ∈ sideAddrs (bookOf e (heapGetD e.heap a).symbol).asks,
      (heapGetD e.heap x).side = Side.sell)
    (hsdB : ∀ x ∈ sideAddrs (bookOf e (heapGetD e.heap a).symbol).bids,
      (heapGetD e.heap x).side = Side.buy)
    (hmap : alookup (bookOf e (heapGetD e.heap a).symbol).orderMap i = some a) :
    (cancelOrder e i).2
      = Except.ok { heapGetD e.heap a with status := OrderStatus.cancelled } ∧
    (heapGetD (cancelOrder e i).1.heap a).status = OrderStatus.cancelled ∧
    (heapGetD (cancelOrder e i).1.heap a).filledQuantity
      = (heapGetD e.heap a).filledQuantity ∧
    alookup (cancelOrder e i).1.orderStore i = some a ∧
    a ∉ bookAddrs (bookOf (cancelOrder e i).1 (heapGetD e.heap a).symbol) ∧
    (cancelOrder (cancelOrder e i).1 i).2 = Except.error CancelError.alreadyTerminal ∧
    (cancelOrder (cancelOrder e i).1 i).1 = (cancelOrder e i).1 := by
  have hterm : ¬ ((heapGetD e.heap a).status = OrderStatus.filled ∨
      (heapGetD e.heap a).status = OrderStatus.cancelled) := fun h => h.elim hf hc
  obtain ⟨hndbids, hndasks, hdisj⟩ :
      (sideAddrs (bookOf e (heapGetD e.heap a).symbol).bids).Nodup ∧
      (sideAddrs (bookOf e (heapGetD e.heap a).symbol).asks).Nodup ∧ _ :=
    List.nodup_append.mp hndB
  simp only [cancelOrder]
  rw [hl]
  dsimp only
  rw [if_neg hterm]
  dsimp only
  refine ⟨rfl, ?_, ?_, ?_, ?_, ?_, ?_⟩
  · rw [getBookAndLock_heap]
    dsimp only
    rw [heapGetD_aupd_self]
  · rw [getBookAndLock_heap]
    dsimp only
    rw [heapGetD_aupd_self]
  · rw [getBookAndLock_orderStore]
    exact hl
  · rw [bookOf_aupd_self, getBookAndLock_heap, getBookAndLock_book]
    have hb0 : bookOf { e with
          heap := aupd e.heap a { heapGetD e.heap a with status := OrderStatus.cancelled } }
        ((heapGetD e.heap a).symbol) = bookOf e ((heapGetD e.heap a).symbol) := rfl
    rw [hb0]
    simp only [bookCancelOrder]
    rw [hmap]
    dsimp only
    simp only [heapGetD_aupd_self, side_update_status, price_update_status]
    by_cases hsd : (heapGetD e.heap a).side = Side.buy
    · rw [if_pos hsd]
      intro hmem
      rcases List.mem_append.mp hmem with hlm | hrm
      · exact not_mem_removeOrderFromSide _ a _ hndbids
          (fun l hlm2 haml => (hlvB l hlm2 a haml).symm) hlm
      · exact Side.noConfusion (hsd.symm.trans (hsdA a hrm))
    · rw [if_neg hsd]
      intro hmem
      rcases List.mem_append.mp hmem with hlm | hrm
      · exact hsd (hsdB a hlm)
      · exact not_mem_removeOrderFromSide _ a _ hndasks
          (fun l hlm2 haml => (hlvA l hlm2 a haml).symm) hrm
  · rw [getBookAndLock_orderStore]
    dsimp only
    rw [hl]
    dsimp only
    rw [getBookAndLock_heap]
    dsimp only
    rw [heapGetD_aupd_self, if_pos (Or.inr rfl)]
  · rw [getBookAndLock_orderStore]
    dsimp only
    rw [hl]
    dsimp only
    rw [getBookAndLock_heap]
    dsimp only
    rw [heapGetD_aupd_self, if_pos (Or.inr rfl)]

/-- C6.  Cancel contract: order-not-found iff the identifier is absent from
the global directory; already-terminal iff the stored order is FILLED or
CANCELLED; on error nothing is mutated; on success the order becomes
CANCELLED with its filled quantity intact, is detached from its book, and
every subsequent cancel of the same identifier reports already-terminal
without further mutation. -/
theorem C6_cancel_contract (e : Engine) (i : String)
    (hwf : ∀ a, alookup e.orderStore i = some a →
      (heapGetD e.heap a).status ≠ OrderStatus.filled →
      (heapGetD e.heap a).status ≠ OrderStatus.cancelled →
      (bookAddrs (bookOf e (heapGetD e.heap a).symbol)).Nodup ∧
      (∀ l ∈ (bookOf e (heapGetD e.heap a).symbol).asks, ∀ x ∈ l.orders,
        (heapGetD e.heap x).price = l.price) ∧
      (∀ l ∈ (bookOf e (heapGetD e.heap a).symbol).bids, ∀ x ∈ l.orders,
        (heapGetD e.heap x).price = l.price) ∧
      (∀ x ∈ sideAddrs (bookOf e (heapGetD e.heap a).symbol).asks,
        (heapGetD e.heap x).side = Side.sell) ∧
      (∀ x ∈ sideAddrs (bookOf e (heapGetD e.heap a).symbol).bids,
        (heapGetD e.heap x).side = Side.buy) ∧
      alookup (bookOf e (heapGetD e.heap a).symbol).orderMap i = some a) :
    ((cancelOrder e i).2 = Except.error CancelError.orderNotFound ↔
      alookup e.orderStore i = none) ∧
    ((cancelOrder e i).2 = Except.error CancelError.alreadyTerminal ↔
      ∃ a, alookup e.orderStore i = some a ∧
        ((heapGetD e.heap a).status = OrderStatus.filled ∨
         (heapGetD e.heap a).status = OrderStatus.cancelled)) ∧
    (∀ err, (cancelOrder e i).2 = Except.error err → (cancelOrder e i).1 = e) ∧
    (∀ a, alookup e.orderStore i = some a →
      (heapGetD e.heap a).status ≠ OrderStatus.filled →
      (heapGetD e.heap a).status ≠ OrderStatus.cancelled →
      (cancelOrder e i).2
        = Except.ok { heapGetD e.heap a with status := OrderStatus.cancelled } ∧
      (heapGetD (cancelOrder e i).1.heap a).status = OrderStatus.cancelled ∧
      (heapGetD (cancelOrder e i).1.heap a).filledQuantity
        = (heapGetD e.heap a).filledQuantity ∧
      alookup (cancelOrder e i).1.orderStore i = some a ∧
      a ∉ bookAddrs (bookOf (cancelOrder e i).1 (heapGetD e.heap a).symbol) ∧
      (cancelOrder (cancelOrder e i).1 i).2 = Except.error CancelError.alreadyTerminal ∧
      (cancelOrder (cancelOrder e i).1 i).1 = (cancelOrder e i).1) := by
  cases hl2 : alookup e.orderStore i with
  | none =>
    have h1 : cancelOrder e i = (e, Except.error CancelError.orderNotFound) := by
      simp only [cancelOrder]
      rw [hl2]
    rw [h1]
    refine ⟨iff_of_true rfl rfl, ?_, fun err _ => rfl, ?_⟩
    · refine iff_of_false (by simp) ?_
      rintro ⟨a, ha, _⟩
      exact Option.noConfusion ha
    · intro a2 ha2
      exact absurd ha2 (by simp)
  | some a =>
    by_cases hterm : (heapGetD e.heap a).status = OrderStatus.filled ∨
        (heapGetD e.heap a).status = OrderStatus.cancelled
    · have h1 : cancelOrder e i = (e, Except.error CancelError.alreadyTerminal) := by
        simp only [cancelOrder]
        rw [hl2]
        dsimp only
        rw [if_pos hterm]
      rw [h1]
      refine ⟨iff_of_false (by simp) (by simp), iff_of_true rfl ⟨a, rfl, hterm⟩,
        fun err _ => rfl, ?_⟩
      intro a2 ha2 hf2 hc2
      obtain rfl := Option.some.inj ha2
      exact absurd (hterm.resolve_left hf2) hc2
    · have hf : (heapGetD e.heap a).status ≠ OrderStatus.filled :=
        fun h => hterm (Or.inl h)
      have hc : (heapGetD e.heap a).status ≠ OrderStatus.cancelled :=
        fun h => hterm (Or.inr h)
      obtain ⟨hw1, hw2, hw3, hw4, hw5, hw6⟩ := hwf a hl2 hf hc
      have hsp := cancel_success_spec e i a hl2 hf hc hw1 hw2 hw3 hw4 hw5 hw6
      refine ⟨?_, ?_, ?_, ?_⟩
      · refine iff_of_false (by rw [hsp.1]; simp) (by simp)
      · refine iff_of_false (by rw [hsp.1]; simp) ?_
        rintro ⟨a2, ha2, hst⟩
        obtain rfl := Option.some.inj ha2
        exact hterm hst
      · intro err herr
        rw [hsp.1] at herr
        exact absurd herr (by simp)
      · intro a2 ha2 hf2 hc2
        obtain rfl := Option.some.inj ha2
        exact hsp

/-- Witness for C6: cancelling a resting order succeeds and the repeat
cancel reports already-terminal. -/
theorem C6_cancel_contract_witness :
    (cancelOrder
        ⟨[(0, ⟨"S1", "AAPL", Side.sell, OrderType.limit, 10050, 100, 0,
            OrderStatus.accepted, 1⟩)],
          1, [("AAPL", ⟨[], [⟨10050, [0]⟩], [("S1", 0)]⟩)], ["AAPL"], [("S1", 0)]⟩
        "S1").2
      = Except.ok (⟨"S1", "AAPL", Side.sell, OrderType.limit, 10050, 100, 0,
          OrderStatus.cancelled, 1⟩ : Order) ∧
    (cancelOrder (cancelOrder
        ⟨[(0, ⟨"S1", "AAPL", Side.sell, OrderType.limit, 10050, 100, 0,
            OrderStatus.accepted, 1⟩)],
          1, [("AAPL", ⟨[], [⟨10050, [0]⟩], [("S1", 0)]⟩)], ["AAPL"], [("S1", 0)]⟩
        "S1").1 "S1").2 = Except.error CancelError.alreadyTerminal :=
  have h := (C6_cancel_contract
      ⟨[(0, ⟨"S1", "AAPL", Side.sell, OrderType.limit, 10050, 100, 0,
          OrderStatus.accepted, 1⟩)],
        1, [("AAPL", ⟨[], [⟨10050, [0]⟩], [("S1", 0)]⟩)], ["AAPL"], [("S1", 0)]⟩
      "S1"
      (by
        intro a ha hf hc
        have ha2 : (some 0 : Option Nat) = some a := ha
        obtain rfl := (Option.some.inj ha2).symm
        exact ⟨by decide, by decide, by decide, by decide, by decide, by decide⟩)).2.2.2
    0 rfl (by decide) (by decide)
  ⟨h.1, h.2.2.2.2.2.1⟩

theorem aupd_eq_append {κ α : Type} [DecidableEq κ] (l : List (κ × α)) (k : κ) (v : α)
    (hnone : alookup l k = none) : aupd l k v = l ++ [(k, v)] := by
  induction l with
  | nil => simp [aupd]
  | cons p rest ih =>
    obtain ⟨k0, v0⟩ := p
    simp only [alookup] at hnone
    simp only [aupd]
    split_ifs with hk
    · rw [if_pos hk] at hnone
      exact absurd hnone (by simp)
    · rw [if_neg hk] at hnone
      rw [ih hnone]
      simp

theorem tradesFor_nonneg (i : String) (ts : List Trade)
    (hpos : ∀ t ∈ ts, 0 < t.quantity) : 0 ≤ tradesFor i ts := by
  induction ts with
  | nil => simp [tradesFor]
  | cons t rest ih =>
    rw [tradesFor_cons]
    have h1 := hpos t (List.mem_cons_self t rest)
    have h2 := ih fun t2 ht2 => hpos t2 (List.mem_cons_of_mem _ ht2)
    split_ifs with hc
    · omega
    · omega

/-- Identifiers read off a duplicate-free list of allocated addresses are
themselves duplicate-free, by global identifier uniqueness. -/
theorem ids_nodup_of_addrs (h : Heap) (m : Nat) (l : List Nat)
    (hnd : l.Nodup) (hlt : ∀ a ∈ l, a < m)
    (hids : ((List.range m).map fun a => (heapGetD h a).id).Nodup) :
    (l.map fun a => (heapGetD h a).id).Nodup := by
  induction l with
  | nil => simp
  | cons a rest ih =>
    obtain ⟨hna, hndr⟩ := List.nodup_cons.mp hnd
    rw [List.map_cons, List.nodup_cons]
    refine ⟨?_, ih hndr fun x hx => hlt x (List.mem_cons_of_mem _ hx)⟩
    intro hmem
    obtain ⟨b2, hb2, hbeq⟩ := List.mem_map.mp hmem
    have hab : a = b2 := by
      refine List.inj_on_of_nodup_map hids ?_ ?_ hbeq.symm
      · exact List.mem_range.mpr (hlt a (List.mem_cons_self _ _))
      · exact List.mem_range.mpr (hlt b2 (List.mem_cons_of_mem _ hb2))
    exact hna (hab ▸ hb2)

theorem addrsOfBooks_nil : addrsOfBooks [] = [] := rfl

theorem addrsOfBooks_cons (k : String) (b : OrderBook) (rest : List (String × OrderBook)) :
    addrsOfBooks ((k, b) :: rest) = bookAddrs b ++ addrsOfBooks rest := rfl

theorem addrsOfBooks_mem_of_lookup {books : List (String × OrderBook)} {sym : String}
    {b : OrderBook} (hl : alookup books sym = some b) {x : Nat} (hx : x ∈ bookAddrs b) :
    x ∈ addrsOfBooks books := by
  induction books with
  | nil => simp [alookup] at hl
  | cons p rest ih =>
    obtain ⟨k0, b0⟩ := p
    rw [addrsOfBooks_cons]
    simp only [alookup] at hl
    split_ifs at hl with hk
    · obtain rfl := Option.some.inj hl
      exact List.mem_append_left _ hx
    · exact List.mem_append_right _ (ih hl)

theorem addrs_of_lookup_getD {books : List (String × OrderBook)} {sym : String}
    {x : Nat} (hx : x ∈ bookAddrs ((alookup books sym).getD emptyBook)) :
    x ∈ addrsOfBooks books := by
  cases hl : alookup books sym with
  | none =>
    rw [hl] at hx
    simp [bookAddrs, sideAddrs, emptyBook] at hx
  | some b =>
    rw [hl] at hx
    exact addrsOfBooks_mem_of_lookup hl hx

theorem books_disjoint {books : List (String × OrderBook)}
    (hnd : (addrsOfBooks books).Nodup) {s1 s2 : String} {b1 b2 : OrderBook}
    (h1 : alookup books s1 = some b1) (h2 : alookup books s2 = some b2)
    (hne : s1 ≠ s2) : ∀ x ∈ bookAddrs b1, x ∉ bookAddrs b2 := by
  induction books with
  | nil => simp [alookup] at h1
  | cons p rest ih =>
    obtain ⟨k0, b0⟩ := p
    rw [addrsOfBooks_cons] at hnd
    obtain ⟨hnd0, hndr, hdisj⟩ := List.nodup_append.mp hnd
    simp only [alookup] at h1 h2
    by_cases hk1 : k0 = s1
    · rw [if_pos hk1] at h1
      obtain rfl := Option.some.inj h1
      rw [if_neg (fun hx => hne (hk1.symm.trans hx))] at h2
      intro x hx hx2
      exact hdisj hx (addrsOfBooks_mem_of_lookup h2 hx2)
    · rw [if_neg hk1] at h1
      by_cases hk2 : k0 = s2
      · rw [if_pos hk2] at h2
        obtain rfl := Option.some.inj h2
        intro x hx hx2
        exact hdisj hx2 (addrsOfBooks_mem_of_lookup h1 hx)
      · rw [if_neg hk2] at h2
        exact ih hndr h1 h2

theorem keys_aupd_mem {κ α : Type} [DecidableEq κ] {l : List (κ × α)} {k x : κ} {v : α}
    (hx : x ∈ (aupd l k v).map Prod.fst) : x = k ∨ x ∈ l.map Prod.fst := by
  induction l with
  | nil => simpa [aupd] using hx
  | cons p rest ih =>
    obtain ⟨k0, v0⟩ := p
    simp only [aupd] at hx
    split_ifs at hx with hk
    · simp only [List.map_cons] at hx
      rcases List.mem_cons.mp hx with h | h
      · exact Or.inl h
      · exact Or.inr (List.mem_cons_of_mem _ h)
    · simp only [List.map_cons] at hx
      rcases List.mem_cons.mp hx with h | h
      · exact Or.inr (h ▸ List.mem_cons_self _ _)
      · rcases ih h with h2 | h2
        · exact Or.inl h2
        · exact Or.inr (List.mem_cons_of_mem _ h2)

theorem keys_aupd_nodup {κ α : Type} [DecidableEq κ] {l : List (κ × α)} {k : κ} {v : α}
    (hnd : (l.map Prod.fst).Nodup) : ((aupd l k v).map Prod.fst).Nodup := by
  induction l with
  | nil => simp [aupd]
  | cons p rest ih =>
    obtain ⟨k0, v0⟩ := p
    rw [List.map_cons, List.nodup_cons] at hnd
    obtain ⟨hk0, hndr⟩ := hnd
    simp only [aupd]
    split_ifs with hk
    · rw [List.map_cons, List.nodup_cons]
      exact ⟨hk ▸ hk0, hndr⟩
    · rw [List.map_cons, List.nodup_cons]
      refine ⟨?_, ih hndr⟩
      intro hmem
      rcases keys_aupd_mem hmem with h | h
      · exact hk h
      · exact hk0 h

theorem addrsOfBooks_aupd_mem {books : List (String × OrderBook)} {k : String}
    {b2 : OrderBook} {x : Nat} (hx : x ∈ addrsOfBooks (aupd books k b2)) :
    x ∈ bookAddrs b2 ∨ x ∈ addrsOfBooks books := by
  induction books with
  | nil => simpa [aupd, addrsOfBooks_cons, addrsOfBooks_nil] using hx
  | cons p rest ih =>
    obtain ⟨k0, b0⟩ := p
    simp only [aupd] at hx
    split_ifs at hx with hk
    · rw [addrsOfBooks_cons] at hx
      rcases List.mem_append.mp hx with h | h
      · exact Or.inl h
      · exact Or.inr (by rw [addrsOfBooks_cons]; exact List.mem_append_right _ h)
    · rw [addrsOfBooks_cons] at hx
      rcases List.mem_append.mp hx with h | h
      · exact Or.inr (by rw [addrsOfBooks_cons]; exact List.mem_append_left _ h)
      · rcases ih h with h2 | h2
        · exact Or.inl h2
        · exact Or.inr (by rw [addrsOfBooks_cons]; exact List.mem_append_right _ h2)

/-- Replacing one book by a book whose addresses come from the old book or
are one globally fresh address keeps the global address list
duplicate-free. -/
theorem addrsOfBooks_aupd_nodup {books : List (String × OrderBook)} {k : String}
    {b2 : OrderBook} {n : Nat}
    (hnd : (addrsOfBooks books).Nodup)
    (hnd2 : (bookAddrs b2).Nodup)
    (hsub : ∀ x ∈ bookAddrs b2,
      x ∈ bookAddrs ((alookup books k).getD emptyBook) ∨ x = n)
    (hn : n ∉ addrsOfBooks books) :
    (addrsOfBooks (aupd books k b2)).Nodup := by
  induction books with
  | nil =>
    simp only [aupd, addrsOfBooks_cons, addrsOfBooks_nil, List.append_nil]
    exact hnd2
  | cons p rest ih =>
    obtain ⟨k0, b0⟩ := p
    rw [addrsOfBooks_cons] at hnd hn
    obtain ⟨hnd0, hndr, hdisj⟩ := List.nodup_append.mp hnd
    simp only [aupd]
    split_ifs with hk
    · rw [addrsOfBooks_cons, List.nodup_append]
      refine ⟨hnd2, hndr, ?_⟩
      intro x hx hxr
      have hlk : alookup ((k0, b0) :: rest) k = some b0 := by
        simp [alookup, hk]
      rcases hsub x hx with h | rfl
      · rw [hlk] at h
        exact hdisj h hxr
      · exact hn (List.mem_append_right _ hxr)
    · rw [addrsOfBooks_cons, List.nodup_append]
      have hlk : alookup ((k0, b0) :: rest) k = alookup rest k := by
        simp [alookup, hk]
      refine ⟨hnd0, ?_, ?_⟩
      · refine ih hndr ?_ (fun hm => hn (List.mem_append_right _ hm))
        intro x hx
        rcases hsub x hx with h | rfl
        · rw [hlk] at h
          exact Or.inl h
        · exact Or.inr rfl
      · intro x hx hxu
        rcases addrsOfBooks_aupd_mem hxu with h | h
        · rcases hsub x h with h2 | rfl
          · rw [hlk] at h2
            exact hdisj hx (addrs_of_lookup_getD h2)
          · exact hn (List.mem_append_left _ hx)
        · exact hdisj hx h

theorem sideAddrs_removeOrderFromSide_sublist (ls : List PriceLevel) (p : Int) (a : Nat) :
    (sideAddrs (removeOrderFromSide ls p a)).Sublist (sideAddrs ls) := by
  induction ls with
  | nil => simp [removeOrderFromSide, sideAddrs]
  | cons l rest ih =>
    rw [removeOrderFromSide, List.filterMap_cons]
    by_cases hp : l.price = p
    · rw [if_pos hp]
      by_cases hq : (l.orders.erase a).isEmpty
      · rw [if_pos hq]
        dsimp only
        rw [sideAddrs_cons]
        exact List.Sublist.trans ih (List.sublist_append_right _ _)
      · rw [if_neg hq]
        dsimp only
        rw [sideAddrs_cons, sideAddrs_cons]
        exact List.Sublist.append (List.erase_sublist a l.orders) ih
    · rw [if_neg hp]
      dsimp only
      rw [sideAddrs_cons, sideAddrs_cons]
      exact List.Sublist.append (List.Sublist.refl _) ih

theorem prices_removeOrderFromSide_sublist (ls : List PriceLevel) (p : Int) (a : Nat) :
    ((removeOrderFromSide ls p a).map PriceLevel.price).Sublist
      (ls.map PriceLevel.price) := by
  induction ls with
  | nil => simp [removeOrderFromSide]
  | cons l rest ih =>
    rw [removeOrderFromSide, List.filterMap_cons]
    by_cases hp : l.price = p
    · rw [if_pos hp]
      by_cases hq : (l.orders.erase a).isEmpty
      · rw [if_pos hq]
        dsimp only
        exact List.Sublist.trans ih (List.sublist_cons_self _ _)
      · rw [if_neg hq]
        dsimp only
        rw [List.map_cons, List.map_cons]
        exact List.Sublist.cons₂ _ ih
    · rw [if_neg hp]
      dsimp only
      rw [List.map_cons, List.map_cons]
      exact List.Sublist.cons₂ _ ih

theorem appendToLevel_prices (ls : List PriceLevel) (p : Int) (x : Nat) :
    (appendToLevel ls p x).map PriceLevel.price = ls.map PriceLevel.price := by
  induction ls with
  | nil => simp [appendToLevel]
  | cons l rest ih =>
    simp only [appendToLevel, List.map_cons] at ih ⊢
    split_ifs with hp
    · rw [ih]
    · rw [ih]

theorem appendToLevel_id (ls : List PriceLevel) (p : Int) (x : Nat)
    (h : ∀ l ∈ ls, l.price ≠ p) : appendToLevel ls p x = ls := by
  induction ls with
  | nil => simp [appendToLevel]
  | cons l rest ih =>
    simp only [appendToLevel, List.map_cons]
    rw [if_neg (h l (List.mem_cons_self _ _))]
    have := ih fun l2 hl2 => h l2 (List.mem_cons_of_mem _ hl2)
    simp only [appendToLevel] at this
    rw [this]

theorem findLevel_none_prices (ls : List PriceLevel) (p : Int)
    (h : findLevel ls p = none) : ∀ l ∈ ls, l.price ≠ p := by
  intro l hl
  rw [findLevel, List.find?_eq_none] at h
  intro hp
  exact absurd (by simpa using hp) (h l hl)

/-- Appending an address to the level of its price (level prices distinct):
the side gains exactly that address. -/
theorem sideAddrs_appendToLevel_mem (ls : List PriceLevel) (p : Int) (x : Nat) :
    ∀ y ∈ sideAddrs (appendToLevel ls p x), y = x ∨ y ∈ sideAddrs ls := by
  induction ls with
  | nil => simp [appendToLevel, sideAddrs]
  | cons l rest ih =>
    intro y hy
    simp only [appendToLevel, List.map_cons] at hy
    rw [sideAddrs_cons] at hy
    rcases List.mem_append.mp hy with h | h
    · split_ifs at h with hp
      · rcases List.mem_append.mp h with h2 | h2
        · exact Or.inr (by rw [sideAddrs_cons]; exact List.mem_append_left _ h2)
        · exact Or.inl (by simpa using h2)
      · exact Or.inr (by rw [sideAddrs_cons]; exact List.mem_append_left _ h)
    · rcases ih y (by simpa [appendToLevel] using h) with h2 | h2
      · exact Or.inl h2
      · exact Or.inr (by rw [sideAddrs_cons]; exact List.mem_append_right _ h2)

theorem sideAddrs_appendToLevel_nodup (ls : List PriceLevel) (p : Int) (x : Nat)
    (hnd : (sideAddrs ls).Nodup) (hx : x ∉ sideAddrs ls)
    (hpr : (ls.map PriceLevel.price).Nodup) :
    (sideAddrs (appendToLevel ls p x)).Nodup := by
  induction ls with
  | nil => simp [appendToLevel, sideAddrs]
  | cons l rest ih =>
    rw [sideAddrs_cons] at hnd hx
    obtain ⟨hnd0, hndr, hdisj⟩ := List.nodup_append.mp hnd
    rw [List.map_cons, List.nodup_cons] at hpr
    obtain ⟨hp0, hprr⟩ := hpr
    simp only [appendToLevel, List.map_cons]
    rw [sideAddrs_cons]
    split_ifs with hp
    · have hrest : appendToLevel rest p x = rest := by
        refine appendToLevel_id rest p x ?_
        intro l2 hl2 hpeq
        exact hp0 (by rw [hp, ← hpeq]; exact List.mem_map_of_mem _ hl2)
      have hrest2 : (rest.map fun l2 =>
          if l2.price = p then { l2 with orders := l2.orders ++ [x] } else l2) = rest := hrest
      rw [hrest2, List.nodup_append]
      refine ⟨?_, hndr, ?_⟩
      · rw [List.nodup_append]
        refine ⟨hnd0, by simp, ?_⟩
        intro y hy hy2
        obtain rfl := by simpa using hy2
        exact hx (List.mem_append_left _ hy)
      · intro y hy hyr
        rcases List.mem_append.mp hy with h | h
        · exact hdisj h hyr
        · obtain rfl := by simpa using h
          exact hx (List.mem_append_right _ hyr)
    · rw [List.nodup_append]
      refine ⟨hnd0, ?_, ?_⟩
      · exact ih hndr (fun hm => hx (List.mem_append_right _ hm)) hprr
      · intro y hy hyu
        rcases sideAddrs_appendToLevel_mem rest p x y
            (by simpa [appendToLevel] using hyu) with rfl | h
        · exact hx (List.mem_append_left _ hy)
        · exact hdisj hy h

theorem sideAddrs_insertLevel_perm (lt : PriceLevel → PriceLevel → Bool)
    (ls : List PriceLevel) (l : PriceLevel) :
    (sideAddrs (insertLevel lt ls l)).Perm (l.orders ++ sideAddrs ls) := by
  induction ls with
  | nil =>
    rw [insertLevel, sideAddrs_cons]
  | cons y ys ih =>
    rw [insertLevel]
    split_ifs with hc
    · rw [sideAddrs_cons]
    · rw [sideAddrs_cons, sideAddrs_cons]
      refine List.Perm.trans (List.Perm.append_left _ ih) ?_
      rw [← List.append_assoc, ← List.append_assoc]
      exact List.Perm.append_right _ List.perm_append_comm

theorem insertLevel_prices_perm (lt : PriceLevel → PriceLevel → Bool)
    (ls : List PriceLevel) (l : PriceLevel) :
    ((insertLevel lt ls l).map PriceLevel.price).Perm
      (l.price :: ls.map PriceLevel.price) := by
  induction ls with
  | nil =>
    rw [insertLevel, List.map_cons]
  | cons y ys ih =>
    rw [insertLevel]
    split_ifs with hc
    · rw [List.map_cons]
    · rw [List.map_cons, List.map_cons]
      refine List.Perm.trans (List.Perm.cons _ ih) ?_
      exact List.Perm.swap _ _ _

/-- Resting a fresh address keeps the book's address list duplicate-free
and only adds that address; level prices stay duplicate-free. -/
theorem addOrder_inv (h : Heap) (b : OrderBook) (x : Nat)
    (hx : x ∉ bookAddrs b) (hnd : (bookAddrs b).Nodup)
    (hprB : (b.bids.map PriceLevel.price).Nodup)
    (hprA : (b.asks.map PriceLevel.price).Nodup) :
    (∀ y ∈ bookAddrs (addOrder h b x), y = x ∨ y ∈ bookAddrs b) ∧
    (bookAddrs (addOrder h b x)).Nodup ∧
    ((addOrder h b x).bids.map PriceLevel.price).Nodup ∧
    ((addOrder h b x).asks.map PriceLevel.price).Nodup := by
  have hxbids : x ∉ sideAddrs b.bids := fun hm => hx (List.mem_append_left _ hm)
  have hxasks : x ∉ sideAddrs b.asks := fun hm => hx (List.mem_append_right _ hm)
  obtain ⟨hndB, hndA, hdisj⟩ := List.nodup_append.mp hnd
  simp only [addOrder]
  by_cases hsd : (heapGetD h x).side = Side.buy
  · rw [if_pos hsd]
    simp only [addBid]
    cases hf : findLevel b.bids (heapGetD h x).price with
    | some l0 =>
      refine ⟨?_, ?_, ?_, ?_⟩
      · intro y hy
        rcases List.mem_append.mp hy with hl | hr
        · rcases sideAddrs_appendToLevel_mem _ _ _ y hl with rfl | h2
          · exact Or.inl rfl
          · exact Or.inr (List.mem_append_left _ h2)
        · exact Or.inr (List.mem_append_right _ hr)
      · refine List.nodup_append.mpr
          ⟨sideAddrs_appendToLevel_nodup _ _ _ hndB hxbids hprB, hndA, ?_⟩
        intro y hy hyr
        rcases sideAddrs_appendToLevel_mem _ _ _ y hy with rfl | h2
        · exact hxasks hyr
        · exact hdisj h2 hyr
      · rw [appendToLevel_prices]
        exact hprB
      · exact hprA
    | none =>
      have hperm := sideAddrs_insertLevel_perm bidsSort b.bids
        ⟨(heapGetD h x).price, [x]⟩
      have hpperm := insertLevel_prices_perm bidsSort b.bids
        ⟨(heapGetD h x).price, [x]⟩
      refine ⟨?_, ?_, ?_, ?_⟩
      · intro y hy
        rcases List.mem_append.mp hy with hl | hr
        · rcases List.mem_append.mp (hperm.mem_iff.mp hl) with h2 | h2
          · exact Or.inl (by simpa using h2)
          · exact Or.inr (List.mem_append_left _ h2)
        · exact Or.inr (List.mem_append_right _ hr)
      · refine List.nodup_append.mpr ⟨hperm.nodup_iff.mpr ?_, hndA, ?_⟩
        · exact List.nodup_append.mpr ⟨by simp, hndB, by simpa using hxbids⟩
        · intro y hy hyr
          rcases List.mem_append.mp (hperm.mem_iff.mp hy) with h2 | h2
          · obtain rfl : y = x := by simpa using h2
            exact hxasks hyr
          · exact hdisj h2 hyr
      · refine hpperm.nodup_iff.mpr (List.nodup_cons.mpr ⟨?_, hprB⟩)
        intro hmem
        obtain ⟨l2, hl2, hpeq⟩ := List.mem_map.mp hmem
        exact findLevel_none_prices _ _ hf l2 hl2 hpeq
      · exact hprA
  · rw [if_neg hsd]
    simp only [addAsk]
    cases hf : findLevel b.asks (heapGetD h x).price with
    | some l0 =>
      refine ⟨?_, ?_, ?_, ?_⟩
      · intro y hy
        rcases List.mem_append.mp hy with hl | hr
        · exact Or.inr (List.mem_append_left _ hl)
        · rcases sideAddrs_appendToLevel_mem _ _ _ y hr with rfl | h2
          · exact Or.inl rfl
          · exact Or.inr (List.mem_append_right _ h2)
      · refine List.nodup_append.mpr
          ⟨hndB, sideAddrs_appendToLevel_nodup _ _ _ hndA hxasks hprA, ?_⟩
        intro y hy hyr
        rcases sideAddrs_appendToLevel_mem _ _ _ y hyr with rfl | h2
        · exact hxbids hy
        · exact hdisj hy h2
      · exact hprB
      · rw [appendToLevel_prices]
        exact hprA
    | none =>
      have hperm := sideAddrs_insertLevel_perm asksSort b.asks
        ⟨(heapGetD h x).price, [x]⟩
      have hpperm := insertLevel_prices_perm asksSort b.asks
        ⟨(heapGetD h x).price, [x]⟩
      refine ⟨?_, ?_, ?_, ?_⟩
      · intro y hy
        rcases List.mem_append.mp hy with hl | hr
        · exact Or.inr (List.mem_append_left _ hl)
        · rcases List.mem_append.mp (hperm.mem_iff.mp hr) with h2 | h2
          · exact Or.inl (by simpa using h2)
          · exact Or.inr (List.mem_append_right _ h2)
      · refine List.nodup_append.mpr ⟨hndB, hperm.nodup_iff.mpr ?_, ?_⟩
        · exact List.nodup_append.mpr ⟨by simp, hndA, by simpa using hxasks⟩
        · intro y hy hyr
          rcases List.mem_append.mp (hperm.mem_iff.mp hyr) with h2 | h2
          · obtain rfl : y = x := by simpa using h2
            exact hxbids hy
          · exact hdisj hy h2
      · exact hprB
      · refine hpperm.nodup_iff.mpr (List.nodup_cons.mpr ⟨?_, hprA⟩)
        intro hmem
        obtain ⟨l2, hl2, hpeq⟩ := List.mem_map.mp hmem
        exact findLevel_none_prices _ _ hf l2 hl2 hpeq

/-- The aggressor's remaining quantity never goes below zero (each fill is
capped by `min`). -/
theorem matchInner_aggr_rem_nonneg (A : Nat) (q : List Nat) (s : MatchState)
    (hA : A ∉ q) (h0 : 0 ≤ (heapGetD s.heap A).remainingQuantity) :
    0 ≤ (heapGetD (matchInner A q s).2.heap A).remainingQuantity := by
  induction q generalizing s with
  | nil => simpa [matchInner] using h0
  | cons r rest ih =>
    have hAr : A ≠ r := fun hx => hA (hx ▸ List.mem_cons_self r rest)
    have hArest : A ∉ rest := fun hx => hA (List.mem_cons_of_mem _ hx)
    have hstep : ∀ st : OrderStatus,
        0 ≤ (heapGetD (stepHeap s.heap A r st) A).remainingQuantity := by
      intro st
      rw [rem_stepHeap_A _ _ _ _ hAr, fillQty_def]
      omega
    rw [matchInner_cons_eq A r rest s hAr]
    split_ifs with h1 h2
    · rw [fullState_heap]
      exact hstep _
    · refine ih _ hArest ?_
      rw [fullState_heap]
      exact hstep _
    · rw [partialState_heap]
      exact hstep _

theorem matchOuter_aggr_rem_nonneg (A : Nat) (stop : Order → Int → Bool)
    (levels : List PriceLevel) (s : MatchState)
    (hA : A ∉ sideAddrs levels) (h0 : 0 ≤ (heapGetD s.heap A).remainingQuantity) :
    0 ≤ (heapGetD (matchOuter A stop levels s).2.heap A).remainingQuantity := by
  induction levels generalizing s with
  | nil => simpa [matchOuter] using h0
  | cons best rest ih =>
    have hAbest : A ∉ best.orders := fun hx =>
      hA (by rw [sideAddrs_cons]; exact List.mem_append_left _ hx)
    have hArest : A ∉ sideAddrs rest := fun hx =>
      hA (by rw [sideAddrs_cons]; exact List.mem_append_right _ hx)
    simp only [matchOuter]
    split_ifs with h0a h1 h2 h3
    · exact h0
    · exact matchInner_aggr_rem_nonneg A best.orders s hAbest h0
    · exact ih _ hArest (matchInner_aggr_rem_nonneg A best.orders s hAbest h0)
    · exact matchInner_aggr_rem_nonneg A best.orders s hAbest h0
    · exact h0

/-- The facts about one side walk that the reachability invariant needs:
the surviving side is a sub-side with positive remainders, filled
quantities track the emitted trades, remainders stay non-negative, and
every trade is positive, aggressor-tagged and against a resting order of
the walked side. -/
theorem matchOuter_inv_spec (A : Nat) (stop : Order → Int → Bool)
    (hstop : ∀ o o' : Order, o.core = o'.core → ∀ p, stop o p = stop o' p)
    (levels : List PriceLevel) (h : Heap) (om : List (String × Nat))
    (hA : A ∉ sideAddrs levels)
    (hnd : (sideAddrs levels).Nodup)
    (hpos : ∀ a ∈ sideAddrs levels, 0 < (heapGetD h a).remainingQuantity)
    (haggr : 0 ≤ (heapGetD h A).remainingQuantity)
    (hids : ((A :: sideAddrs levels).map fun a => (heapGetD h a).id).Nodup) :
    (sideAddrs (matchOuter A stop levels ⟨h, om, [], []⟩).1).Sublist
      (sideAddrs levels) ∧
    ((matchOuter A stop levels ⟨h, om, [], []⟩).1.map PriceLevel.price).Sublist
      (levels.map PriceLevel.price) ∧
    (∀ y ∈ sideAddrs (matchOuter A stop levels ⟨h, om, [], []⟩).1,
      0 < (heapGetD (matchOuter A stop levels ⟨h, om, [], []⟩).2.heap y).remainingQuantity) ∧
    (∀ a ∈ A :: sideAddrs levels,
      (heapGetD (matchOuter A stop levels ⟨h, om, [], []⟩).2.heap a).filledQuantity
        = (heapGetD h a).filledQuantity
          + tradesFor ((heapGetD h a).id)
              (matchOuter A stop levels ⟨h, om, [], []⟩).2.trades) ∧
    (∀ a ∈ A :: sideAddrs levels,
      0 ≤ (heapGetD (matchOuter A stop levels ⟨h, om, [], []⟩).2.heap a).remainingQuantity) ∧
    (∀ t ∈ (matchOuter A stop levels ⟨h, om, [], []⟩).2.trades,
      0 < t.quantity ∧ t.aggressorOrderId = (heapGetD h A).id ∧
      ∃ r ∈ sideAddrs levels, t.restingOrderId = (heapGetD h r).id) := by
  obtain ⟨ts, K, c1, c2, c3, c4, c5, c6, c7, c8, c9, c10, c11, c12, c13, c14⟩ :=
    matchOuter_spec A stop hstop levels ⟨h, om, [], []⟩ hA hnd hpos haggr hids
  have hts : (matchOuter A stop levels ⟨h, om, [], []⟩).2.trades = ts :=
    c1.trans (List.nil_append ts)
  refine ⟨?_, ?_, ?_, ?_, ?_, ?_⟩
  · rw [c2]
    exact List.drop_sublist _ _
  · obtain ⟨m, hm, hcase⟩ := c14
    rcases hcase with hdrop | ⟨l, rest2, j, hdm, hres, hne⟩
    · rw [hdrop, List.map_drop]
      exact List.drop_sublist _ _
    · rw [hres, List.map_cons]
      have hpr : PriceLevel.price { l with orders := l.orders.drop j } = l.price := rfl
      rw [hpr, ← List.map_cons, ← hdm, List.map_drop]
      exact List.drop_sublist _ _
  · intro y hy
    rw [c2] at hy
    exact (c11 y hy).1
  · intro a ha
    rw [hts]
    exact c13 a ha
  · intro a ha
    rcases List.mem_cons.mp ha with rfl | hmem
    · exact matchOuter_aggr_rem_nonneg _ stop levels _ hA haggr
    · have : a ∈ (sideAddrs levels).take K ++ (sideAddrs levels).drop K := by
        rw [List.take_append_drop]
        exact hmem
      rcases List.mem_append.mp this with h2 | h2
      · have := (c10 a h2).1
        omega
      · have := (c11 a h2).1
        omega
  · intro t ht
    rw [hts] at ht
    refine ⟨(c8 t ht).2, (c8 t ht).1, ?_⟩
    have hrid : t.restingOrderId ∈ ts.map Trade.restingOrderId :=
      List.mem_map_of_mem _ ht
    rw [c6] at hrid
    obtain ⟨r, hr, hre⟩ := List.mem_map.mp hrid
    exact ⟨r, List.mem_of_mem_take hr, hre.symm⟩

/-! ## Engine-level reachability lemmas -/

theorem alookup_mem_keys {κ α : Type} [DecidableEq κ] {l : List (κ × α)} {k : κ} {v : α}
    (h : alookup l k = some v) : k ∈ l.map Prod.fst := by
  induction l with
  | nil => simp [alookup] at h
  | cons p rest ih =>
    obtain ⟨k0, v0⟩ := p
    simp only [alookup] at h
    rw [List.map_cons]
    split_ifs at h with hk
    · exact List.mem_cons.mpr (Or.inl hk.symm)
    · exact List.mem_cons_of_mem _ (ih h)

/-- With duplicate-free keys, every global queue address belongs to some
looked-up book. -/
theorem addrsOfBooks_exists_lookup {books : List (String × OrderBook)}
    (hkeys : (books.map Prod.fst).Nodup) {x : Nat} (hx : x ∈ addrsOfBooks books) :
    ∃ sym b2, alookup books sym = some b2 ∧ x ∈ bookAddrs b2 := by
  induction books with
  | nil => simp [addrsOfBooks_nil] at hx
  | cons p rest ih =>
    obtain ⟨k0, b0⟩ := p
    rw [List.map_cons, List.nodup_cons] at hkeys
    obtain ⟨hk0, hkr⟩ := hkeys
    rw [addrsOfBooks_cons] at hx
    rcases List.mem_append.mp hx with hm | hm
    · exact ⟨k0, b0, by simp [alookup], hm⟩
    · obtain ⟨sym, b2, hl, hb⟩ := ih hkr hm
      refine ⟨sym, b2, ?_, hb⟩
      have hne : k0 ≠ sym := fun he => hk0 (he ▸ alookup_mem_keys hl)
      simpa [alookup, hne] using hl

theorem addrsOfBooks_lt {books : List (String × OrderBook)} {n : Nat}
    (hkeys : (books.map Prod.fst).Nodup)
    (hbound : ∀ sym b2, alookup books sym = some b2 → ∀ a ∈ bookAddrs b2, a < n) :
    ∀ x ∈ addrsOfBooks books, x < n := by
  intro x hx
  obtain ⟨sym, b2, hl, hb⟩ := addrsOfBooks_exists_lookup hkeys hx
  exact hbound sym b2 hl x hb

theorem bookAddrs_nodup_of_lookup {books : List (String × OrderBook)} {sym : String}
    {b2 : OrderBook} (hnd : (addrsOfBooks books).Nodup)
    (hl : alookup books sym = some b2) : (bookAddrs b2).Nodup := by
  induction books with
  | nil => simp [alookup] at hl
  | cons p rest ih =>
    obtain ⟨k0, b0⟩ := p
    rw [addrsOfBooks_cons] at hnd
    obtain ⟨h0, hr, -⟩ := List.nodup_append.mp hnd
    simp only [alookup] at hl
    split_ifs at hl with hk
    · obtain rfl := Option.some.inj hl
      exact h0
    · exact ih hr hl

/-- Rewriting a binding with the value it already holds is the identity. -/
theorem aupd_lookup_self {κ α : Type} [DecidableEq κ] {l : List (κ × α)} {k : κ} {v : α}
    (h : alookup l k = some v) : aupd l k v = l := by
  induction l with
  | nil => simp [alookup] at h
  | cons p rest ih =>
    obtain ⟨k0, v0⟩ := p
    simp only [alookup] at h
    simp only [aupd]
    split_ifs at h ⊢ with hk
    · obtain rfl := Option.some.inj h
      rw [hk]
    · rw [ih h]

theorem heapGetD_congr {h1 h2 : Heap} {x : Nat}
    (h : alookup h1 x = alookup h2 x) : heapGetD h1 x = heapGetD h2 x := by
  unfold heapGetD
  rw [h]

theorem heapGetD_aupd_status_core (h : Heap) (a : Nat) (st : OrderStatus) (x : Nat) :
    (heapGetD (aupd h a { heapGetD h a with status := st }) x).core
      = (heapGetD h x).core :=
  heapGetD_core_aupd h a x _ rfl

theorem heapGetD_aupd_status_filled (h : Heap) (a : Nat) (st : OrderStatus) (x : Nat) :
    (heapGetD (aupd h a { heapGetD h a with status := st }) x).filledQuantity
      = (heapGetD h x).filledQuantity := by
  by_cases hx : a = x
  · subst hx
    rw [heapGetD_aupd_self]
  · rw [heapGetD_aupd_ne _ _ _ _ hx]

theorem rem_eq_of_core_filled {o o' : Order} (hc : o.core = o'.core)
    (hf : o.filledQuantity = o'.filledQuantity) :
    o.remainingQuantity = o'.remainingQuantity := by
  rw [Order.remainingQuantity, Order.remainingQuantity, core_eq_quantity hc, hf]

theorem heapGetD_aupd_status_rem (h : Heap) (a : Nat) (st : OrderStatus) (x : Nat) :
    (heapGetD (aupd h a { heapGetD h a with status := st }) x).remainingQuantity
      = (heapGetD h x).remainingQuantity :=
  rem_eq_of_core_filled (heapGetD_aupd_status_core h a st x)
    (heapGetD_aupd_status_filled h a st x)

/-- Everything the reachability invariant needs to know about one matching
walk, phrased for the untouched (`same`) and matched (`opp`) sides of the
book: the matched side shrinks to a sub-side whose survivors keep positive
remainders, the untouched side's records do not move, outside records are
untouched, filled quantities of every involved record track the emitted
trades, remainders stay non-negative, trades are positive and name the
aggressor against resting orders of the matched side, and core fields are
preserved everywhere. -/
theorem match_side_facts (A : Nat) (stop : Order → Int → Bool)
    (hstop : ∀ o o' : Order, o.core = o'.core → ∀ p, stop o p = stop o' p)
    (same opp : List PriceLevel) (h : Heap) (om : List (String × Nat))
    (hAo : A ∉ sideAddrs opp)
    (hAs : A ∉ sideAddrs same)
    (hndO : (sideAddrs opp).Nodup)
    (hdisj : ∀ x ∈ sideAddrs same, x ∉ sideAddrs opp)
    (hposS : ∀ a ∈ sideAddrs same, 0 < (heapGetD h a).remainingQuantity)
    (hposO : ∀ a ∈ sideAddrs opp, 0 < (heapGetD h a).remainingQuantity)
    (haggr : 0 ≤ (heapGetD h A).remainingQuantity)
    (hids : ((A :: (sideAddrs same ++ sideAddrs opp)).map
      fun a => (heapGetD h a).id).Nodup) :
    (sideAddrs (matchOuter A stop opp ⟨h, om, [], []⟩).1).Sublist (sideAddrs opp) ∧
    ((matchOuter A stop opp ⟨h, om, [], []⟩).1.map PriceLevel.price).Sublist
      (opp.map PriceLevel.price) ∧
    (∀ y ∈ sideAddrs (matchOuter A stop opp ⟨h, om, [], []⟩).1,
      0 < (heapGetD (matchOuter A stop opp ⟨h, om, [], []⟩).2.heap y).remainingQuantity) ∧
    (∀ y ∈ sideAddrs same,
      heapGetD (matchOuter A stop opp ⟨h, om, [], []⟩).2.heap y = heapGetD h y) ∧
    (∀ x, x ≠ A → x ∉ sideAddrs opp →
      alookup (matchOuter A stop opp ⟨h, om, [], []⟩).2.heap x = alookup h x) ∧
    (∀ a, a = A ∨ a ∈ sideAddrs same ∨ a ∈ sideAddrs opp →
      (heapGetD (matchOuter A stop opp ⟨h, om, [], []⟩).2.heap a).filledQuantity
        = (heapGetD h a).filledQuantity
          + tradesFor ((heapGetD h a).id)
              (matchOuter A stop opp ⟨h, om, [], []⟩).2.trades) ∧
    (∀ a, a = A ∨ a ∈ sideAddrs same ∨ a ∈ sideAddrs opp →
      0 ≤ (heapGetD (matchOuter A stop opp ⟨h, om, [], []⟩).2.heap a).remainingQuantity) ∧
    (∀ t ∈ (matchOuter A stop opp ⟨h, om, [], []⟩).2.trades,
      0 < t.quantity ∧ t.aggressorOrderId = (heapGetD h A).id ∧
      ∃ r ∈ sideAddrs opp, t.restingOrderId = (heapGetD h r).id) ∧
    (∀ x, (heapGetD (matchOuter A stop opp ⟨h, om, [], []⟩).2.heap x).core
      = (heapGetD h x).core) := by
  have hidsO : ((A :: sideAddrs opp).map fun a => (heapGetD h a).id).Nodup := by
    refine List.Sublist.nodup (List.Sublist.map _ ?_) hids
    exact List.Sublist.cons₂ A (List.sublist_append_right _ _)
  obtain ⟨G1, G2, G3, G4, G5, G6⟩ :=
    matchOuter_inv_spec A stop hstop opp h om hAo hndO hposO haggr hidsO
  have hunt : ∀ x, x ≠ A → x ∉ sideAddrs opp →
      alookup (matchOuter A stop opp ⟨h, om, [], []⟩).2.heap x = alookup h x :=
    fun x hx1 hx2 => matchOuter_untouched A stop opp ⟨h, om, [], []⟩ x hx1 hx2
  have hsame : ∀ y ∈ sideAddrs same,
      heapGetD (matchOuter A stop opp ⟨h, om, [], []⟩).2.heap y = heapGetD h y := by
    intro y hy
    have hyA : y ≠ A := fun he => hAs (he ▸ hy)
    exact heapGetD_congr (hunt y hyA (hdisj y hy))
  refine ⟨G1, G2, G3, hsame, hunt, ?_, ?_, G6,
    fun x => matchOuter_core A stop opp _ x⟩
  · intro a ha
    rcases ha with rfl | hS | hO
    · exact G4 _ (List.mem_cons_self _ _)
    · rw [hsame a hS]
      have hz : tradesFor ((heapGetD h a).id)
          (matchOuter A stop opp ⟨h, om, [], []⟩).2.trades = 0 := by
        refine tradesFor_eq_zero ?_
        intro t ht
        obtain ⟨-, hag, r, hr, hres⟩ := G6 t ht
        have haA : A ≠ a := fun he => hAs (he ▸ hS)
        have hmemA : A ∈ A :: (sideAddrs same ++ sideAddrs opp) :=
          List.mem_cons_self _ _
        have hmema : a ∈ A :: (sideAddrs same ++ sideAddrs opp) :=
          List.mem_cons_of_mem _ (List.mem_append_left _ hS)
        have hmemr : r ∈ A :: (sideAddrs same ++ sideAddrs opp) :=
          List.mem_cons_of_mem _ (List.mem_append_right _ hr)
        have hra : r ≠ a := fun he => hdisj a hS (he ▸ hr)
        constructor
        · rw [hag]
          exact ids_ne_of_nodup hids hmemA hmema haA
        · rw [hres]
          exact ids_ne_of_nodup hids hmemr hmema hra
      rw [hz]
      exact (add_zero _).symm
    · exact G4 a (List.mem_cons_of_mem _ hO)
  · intro a ha
    rcases ha with rfl | hS | hO
    · exact G5 _ (List.mem_cons_self _ _)
    · rw [hsame a hS]
      exact le_of_lt (hposS a hS)
    · exact G5 a (List.mem_cons_of_mem _ hO)

/-- `ProcessOrder` from the reachability invariant's viewpoint: the
resulting book only holds old addresses plus possibly the aggressor, with
duplicate-free addresses and level prices and positive remainders; records
outside the aggressor and the book are untouched; filled quantities track
the emitted trades; remainders stay non-negative; trades are positive and
name the aggressor against resting orders; core fields are preserved. -/
theorem processOrder_inv_spec (h : Heap) (b : OrderBook) (A : Nat)
    (hA : A ∉ bookAddrs b) (hnd : (bookAddrs b).Nodup)
    (hpos : ∀ a ∈ bookAddrs b, 0 < (heapGetD h a).remainingQuantity)
    (haggr : 0 ≤ (heapGetD h A).remainingQuantity)
    (hprB : (b.bids.map PriceLevel.price).Nodup)
    (hprA2 : (b.asks.map PriceLevel.price).Nodup)
    (hids : ((A :: bookAddrs b).map fun a => (heapGetD h a).id).Nodup) :
    (∀ y ∈ bookAddrs (processOrder h b A).2.1, y = A ∨ y ∈ bookAddrs b) ∧
    (bookAddrs (processOrder h b A).2.1).Nodup ∧
    ((processOrder h b A).2.1.bids.map PriceLevel.price).Nodup ∧
    ((processOrder h b A).2.1.asks.map PriceLevel.price).Nodup ∧
    (∀ y ∈ bookAddrs (processOrder h b A).2.1,
      0 < (heapGetD (processOrder h b A).1 y).remainingQuantity) ∧
    (∀ x, x ≠ A → x ∉ bookAddrs b →
      alookup (processOrder h b A).1 x = alookup h x) ∧
    (∀ x, x = A ∨ x ∈ bookAddrs b →
      (heapGetD (processOrder h b A).1 x).filledQuantity
        = (heapGetD h x).filledQuantity
          + tradesFor ((heapGetD h x).id) (processOrder h b A).2.2.trades) ∧
    (∀ x, x = A ∨ x ∈ bookAddrs b →
      0 ≤ (heapGetD (processOrder h b A).1 x).remainingQuantity) ∧
    (∀ t ∈ (processOrder h b A).2.2.trades,
      0 < t.quantity ∧ t.aggressorOrderId = (heapGetD h A).id ∧
      ∃ r ∈ bookAddrs b, t.restingOrderId = (heapGetD h r).id) ∧
    (∀ x, (heapGetD (processOrder h b A).1 x).core = (heapGetD h x).core) := by
  have hndBA : (sideAddrs b.bids ++ sideAddrs b.asks).Nodup := hnd
  obtain ⟨hndB, hndA, hdisjBA⟩ := List.nodup_append.mp hndBA
  have hAB : A ∉ sideAddrs b.bids := fun hm => hA (List.mem_append_left _ hm)
  have hAA : A ∉ sideAddrs b.asks := fun hm => hA (List.mem_append_right _ hm)
  have hposB : ∀ a ∈ sideAddrs b.bids, 0 < (heapGetD h a).remainingQuantity :=
    fun a ha => hpos a (List.mem_append_left _ ha)
  have hposA : ∀ a ∈ sideAddrs b.asks, 0 < (heapGetD h a).remainingQuantity :=
    fun a ha => hpos a (List.mem_append_right _ ha)
  have hids1 : ((A :: (sideAddrs b.bids ++ sideAddrs b.asks)).map
      fun a => (heapGetD h a).id).Nodup := hids
  by_cases hside : (heapGetD h A).side = Side.buy
  · obtain ⟨M1, M2, M3, M4, M5, M6, M7, M8, M9⟩ :=
      match_side_facts A buyStop buyStop_core b.bids b.asks h b.orderMap
        hAA hAB hndA (fun x hx hx2 => hdisjBA hx hx2) hposB hposA haggr hids1
    have hconv : ∀ x, x = A ∨ x ∈ bookAddrs b →
        x = A ∨ x ∈ sideAddrs b.bids ∨ x ∈ sideAddrs b.asks := by
      intro x hx
      rcases hx with hxA | hm
      · exact Or.inl hxA
      · rcases List.mem_append.mp hm with h1 | h1
        · exact Or.inr (Or.inl h1)
        · exact Or.inr (Or.inr h1)
    have hb1 : ∀ y, y ∈ sideAddrs b.bids ++
        sideAddrs (matchOuter A buyStop b.asks ⟨h, b.orderMap, [], []⟩).1 →
        y ∈ bookAddrs b := by
      intro y hy
      rcases List.mem_append.mp hy with hm | hm
      · exact List.mem_append_left _ hm
      · exact List.mem_append_right _ (M1.subset hm)
    have hAb1 : A ∉ sideAddrs b.bids ++
        sideAddrs (matchOuter A buyStop b.asks ⟨h, b.orderMap, [], []⟩).1 :=
      fun hm => hA (hb1 A hm)
    have hndb1 : (sideAddrs b.bids ++
        sideAddrs (matchOuter A buyStop b.asks ⟨h, b.orderMap, [], []⟩).1).Nodup := by
      refine List.nodup_append.mpr ⟨hndB, M1.nodup hndA, ?_⟩
      intro x hx hx2
      exact hdisjBA hx (M1.subset hx2)
    have hprb1A : ((matchOuter A buyStop b.asks
        ⟨h, b.orderMap, [], []⟩).1.map PriceLevel.price).Nodup := M2.nodup hprA2
    have hremb1 : ∀ y ∈ sideAddrs b.bids ++
        sideAddrs (matchOuter A buyStop b.asks ⟨h, b.orderMap, [], []⟩).1,
        0 < (heapGetD (matchOuter A buyStop b.asks
          ⟨h, b.orderMap, [], []⟩).2.heap y).remainingQuantity := by
      intro y hy
      rcases List.mem_append.mp hy with hm | hm
      · rw [M4 y hm]
        exact hposB y hm
      · exact M3 y hm
    have hM5' : ∀ x, x ≠ A → x ∉ bookAddrs b →
        alookup (matchOuter A buyStop b.asks ⟨h, b.orderMap, [], []⟩).2.heap x
          = alookup h x :=
      fun x hx hxb => M5 x hx (fun hm => hxb (List.mem_append_right _ hm))
    have hM8' : ∀ t ∈ (matchOuter A buyStop b.asks ⟨h, b.orderMap, [], []⟩).2.trades,
        0 < t.quantity ∧ t.aggressorOrderId = (heapGetD h A).id ∧
        ∃ r ∈ bookAddrs b, t.restingOrderId = (heapGetD h r).id := by
      intro t ht
      obtain ⟨h1, h2, r, hr, h3⟩ := M8 t ht
      exact ⟨h1, h2, r, List.mem_append_right _ hr, h3⟩
    simp only [processOrder]
    rw [if_pos hside]
    dsimp only
    by_cases hrest : (heapGetD (matchOuter A buyStop b.asks
          ⟨h, b.orderMap, [], []⟩).2.heap A).type = OrderType.limit ∧
        0 < (heapGetD (matchOuter A buyStop b.asks
          ⟨h, b.orderMap, [], []⟩).2.heap A).remainingQuantity
    · rw [if_pos hrest]
      dsimp only
      obtain ⟨AI1, AI2, AI3, AI4⟩ :=
        addOrder_inv (matchOuter A buyStop b.asks ⟨h, b.orderMap, [], []⟩).2.heap
          { b with asks := (matchOuter A buyStop b.asks ⟨h, b.orderMap, [], []⟩).1,
                   orderMap := (matchOuter A buyStop b.asks
                     ⟨h, b.orderMap, [], []⟩).2.orderMap } A
          hAb1 hndb1 hprB hprb1A
      by_cases hfl : 0 < (heapGetD (matchOuter A buyStop b.asks
          ⟨h, b.orderMap, [], []⟩).2.heap A).filledQuantity
      · rw [if_pos hfl]
        refine ⟨?_, AI2, AI3, AI4, ?_, ?_, ?_, ?_, hM8', ?_⟩
        · intro y hy
          rcases AI1 y hy with hyA | hm
          · exact Or.inl hyA
          · exact Or.inr (hb1 y hm)
        · intro y hy
          rw [heapGetD_aupd_status_rem]
          rcases AI1 y hy with hyA | hm
          · rw [hyA]
            exact hrest.2
          · exact hremb1 y hm
        · intro x hx hxb
          rw [alookup_aupd_ne _ _ _ _ (Ne.symm hx)]
          exact hM5' x hx hxb
        · intro x hx
          rw [heapGetD_aupd_status_filled]
          exact M6 x (hconv x hx)
        · intro x hx
          rw [heapGetD_aupd_status_rem]
          exact M7 x (hconv x hx)
        · intro x
          exact (heapGetD_aupd_status_core _ _ _ _).trans (M9 x)
      · rw [if_neg hfl]
        refine ⟨?_, AI2, AI3, AI4, ?_, hM5', ?_, ?_, hM8', M9⟩
        · intro y hy
          rcases AI1 y hy with hyA | hm
          · exact Or.inl hyA
          · exact Or.inr (hb1 y hm)
        · intro y hy
          rcases AI1 y hy with hyA | hm
          · rw [hyA]
            exact hrest.2
          · exact hremb1 y hm
        · intro x hx
          exact M6 x (hconv x hx)
        · intro x hx
          exact M7 x (hconv x hx)
    · rw [if_neg hrest]
      by_cases hrem0 : (heapGetD (matchOuter A buyStop b.asks
          ⟨h, b.orderMap, [], []⟩).2.heap A).remainingQuantity = 0
      · rw [if_pos hrem0]
        dsimp only
        refine ⟨?_, hndb1, hprB, hprb1A, ?_, ?_, ?_, ?_, hM8', ?_⟩
        · intro y hy
          exact Or.inr (hb1 y hy)
        · intro y hy
          rw [heapGetD_aupd_status_rem]
          exact hremb1 y hy
        · intro x hx hxb
          rw [alookup_aupd_ne _ _ _ _ (Ne.symm hx)]
          exact hM5' x hx hxb
        · intro x hx
          rw [heapGetD_aupd_status_filled]
          exact M6 x (hconv x hx)
        · intro x hx
          rw [heapGetD_aupd_status_rem]
          exact M7 x (hconv x hx)
        · intro x
          exact (heapGetD_aupd_status_core _ _ _ _).trans (M9 x)
      · rw [if_neg hrem0]
        dsimp only
        refine ⟨?_, hndb1, hprB, hprb1A, hremb1, hM5', ?_, ?_, hM8', M9⟩
        · intro y hy
          exact Or.inr (hb1 y hy)
        · intro x hx
          exact M6 x (hconv x hx)
        · intro x hx
          exact M7 x (hconv x hx)
  · have hids2 : ((A :: (sideAddrs b.asks ++ sideAddrs b.bids)).map
        fun a => (heapGetD h a).id).Nodup :=
      (List.Perm.nodup_iff (List.Perm.map _
        (List.Perm.cons _ List.perm_append_comm))).mpr hids1
    obtain ⟨M1, M2, M3, M4, M5, M6, M7, M8, M9⟩ :=
      match_side_facts A sellStop sellStop_core b.asks b.bids h b.orderMap
        hAB hAA hndB (fun x hx hx2 => hdisjBA hx2 hx) hposA hposB haggr hids2
    have hconv : ∀ x, x = A ∨ x ∈ bookAddrs b →
        x = A ∨ x ∈ sideAddrs b.asks ∨ x ∈ sideAddrs b.bids := by
      intro x hx
      rcases hx with hxA | hm
      · exact Or.inl hxA
      · rcases List.mem_append.mp hm with h1 | h1
        · exact Or.inr (Or.inr h1)
        · exact Or.inr (Or.inl h1)
    have hb1 : ∀ y, y ∈
        sideAddrs (matchOuter A sellStop b.bids ⟨h, b.orderMap, [], []⟩).1 ++
        sideAddrs b.asks → y ∈ bookAddrs b := by
      intro y hy
      rcases List.mem_append.mp hy with hm | hm
      · exact List.mem_append_left _ (M1.subset hm)
      · exact List.mem_append_right _ hm
    have hAb1 : A ∉
        sideAddrs (matchOuter A sellStop b.bids ⟨h, b.orderMap, [], []⟩).1 ++
        sideAddrs b.asks :=
      fun hm => hA (hb1 A hm)
    have hndb1 : (sideAddrs (matchOuter A sellStop b.bids
        ⟨h, b.orderMap, [], []⟩).1 ++ sideAddrs b.asks).Nodup := by
      refine List.nodup_append.mpr ⟨M1.nodup hndB, hndA, ?_⟩
      intro x hx hx2
      exact hdisjBA (M1.subset hx) hx2
    have hprb1B : ((matchOuter A sellStop b.bids
        ⟨h, b.orderMap, [], []⟩).1.map PriceLevel.price).Nodup := M2.nodup hprB
    have hremb1 : ∀ y ∈ sideAddrs (matchOuter A sellStop b.bids
        ⟨h, b.orderMap, [], []⟩).1 ++ sideAddrs b.asks,
        0 < (heapGetD (matchOuter A sellStop b.bids
          ⟨h, b.orderMap, [], []⟩).2.heap y).remainingQuantity := by
      intro y hy
      rcases List.mem_append.mp hy with hm | hm
      · exact M3 y hm
      · rw [M4 y hm]
        exact hposA y hm
    have hM5' : ∀ x, x ≠ A → x ∉ bookAddrs b →
        alookup (matchOuter A sellStop b.bids ⟨h, b.orderMap, [], []⟩).2.heap x
          = alookup h x :=
      fun x hx hxb => M5 x hx (fun hm => hxb (List.mem_append_left _ hm))
    have hM8' : ∀ t ∈ (matchOuter A sellStop b.bids ⟨h, b.orderMap, [], []⟩).2.trades,
        0 < t.quantity ∧ t.aggressorOrderId = (heapGetD h A).id ∧
        ∃ r ∈ bookAddrs b, t.restingOrderId = (heapGetD h r).id := by
      intro t ht
      obtain ⟨h1, h2, r, hr, h3⟩ := M8 t ht
      exact ⟨h1, h2, r, List.mem_append_left _ hr, h3⟩
    simp only [processOrder]
    rw [if_neg hside]
    dsimp only
    by_cases hrest : (heapGetD (matchOuter A sellStop b.bids
          ⟨h, b.orderMap, [], []⟩).2.heap A).type = OrderType.limit ∧
        0 < (heapGetD (matchOuter A sellStop b.bids
          ⟨h, b.orderMap, [], []⟩).2.heap A).remainingQuantity
    · rw [if_pos hrest]
      dsimp only
      obtain ⟨AI1, AI2, AI3, AI4⟩ :=
        addOrder_inv (matchOuter A sellStop b.bids ⟨h, b.orderMap, [], []⟩).2.heap
          { b with bids := (matchOuter A sellStop b.bids ⟨h, b.orderMap, [], []⟩).1,
                   orderMap := (matchOuter A sellStop b.bids
                     ⟨h, b.orderMap, [], []⟩).2.orderMap } A
          hAb1 hndb1 hprb1B hprA2
      by_cases hfl : 0 < (heapGetD (matchOuter A sellStop b.bids
          ⟨h, b.orderMap, [], []⟩).2.heap A).filledQuantity
      · rw [if_pos hfl]
        refine ⟨?_, AI2, AI3, AI4, ?_, ?_, ?_, ?_, hM8', ?_⟩
        · intro y hy
          rcases AI1 y hy with hyA | hm
          · exact Or.inl hyA
          · exact Or.inr (hb1 y hm)
        · intro y hy
          rw [heapGetD_aupd_status_rem]
          rcases AI1 y hy with hyA | hm
          · rw [hyA]
            exact hrest.2
          · exact hremb1 y hm
        · intro x hx hxb
          rw [alookup_aupd_ne _ _ _ _ (Ne.symm hx)]
          exact hM5' x hx hxb
        · intro x hx
          rw [heapGetD_aupd_status_filled]
          exact M6 x (hconv x hx)
        · intro x hx
          rw [heapGetD_aupd_status_rem]
          exact M7 x (hconv x hx)
        · intro x
          exact (heapGetD_aupd_status_core _ _ _ _).trans (M9 x)
      · rw [if_neg hfl]
        refine ⟨?_, AI2, AI3, AI4, ?_, hM5', ?_, ?_, hM8', M9⟩
        · intro y hy
          rcases AI1 y hy with hyA | hm
          · exact Or.inl hyA
          · exact Or.inr (hb1 y hm)
        · intro y hy
          rcases AI1 y hy with hyA | hm
          · rw [hyA]
            exact hrest.2
          · exact hremb1 y hm
        · intro x hx
          exact M6 x (hconv x hx)
        · intro x hx
          exact M7 x (hconv x hx)
    · rw [if_neg hrest]
      by_cases hrem0 : (heapGetD (matchOuter A sellStop b.bids
          ⟨h, b.orderMap, [], []⟩).2.heap A).remainingQuantity = 0
      · rw [if_pos hrem0]
        dsimp only
        refine ⟨?_, hndb1, hprb1B, hprA2, ?_, ?_, ?_, ?_, hM8', ?_⟩
        · intro y hy
          exact Or.inr (hb1 y hy)
        · intro y hy
          rw [heapGetD_aupd_status_rem]
          exact hremb1 y hy
        · intro x hx hxb
          rw [alookup_aupd_ne _ _ _ _ (Ne.symm hx)]
          exact hM5' x hx hxb
        · intro x hx
          rw [heapGetD_aupd_status_filled]
          exact M6 x (hconv x hx)
        · intro x hx
          rw [heapGetD_aupd_status_rem]
          exact M7 x (hconv x hx)
        · intro x
          exact (heapGetD_aupd_status_core _ _ _ _).trans (M9 x)
      · rw [if_neg hrem0]
        dsimp only
        refine ⟨?_, hndb1, hprb1B, hprA2, hremb1, hM5', ?_, ?_, hM8', M9⟩
        · intro y hy
          exact Or.inr (hb1 y hy)
        · intro x hx
          exact M6 x (hconv x hx)
        · intro x hx
          exact M7 x (hconv x hx)

/-- `getBookAndLock` preserves the reachability invariant (lazily creating
an empty book is harmless), yields a book that the returned engine's map
really holds at the symbol, and leaves other symbols' bindings alone. -/
theorem getBookAndLock_spec (e : Engine) (sym : String) (ts : List Trade)
    (hinv : ReachInv e ts) :
    ReachInv (getBookAndLock e sym).1 ts ∧
    alookup (getBookAndLock e sym).1.books sym = some (getBookAndLock e sym).2 ∧
    (∀ s', s' ≠ sym →
      alookup (getBookAndLock e sym).1.books s' = alookup e.books s') := by
  simp only [getBookAndLock]
  cases hl : alookup e.books sym with
  | some b0 =>
    dsimp only
    exact ⟨hinv, hl, fun s' _ => rfl⟩
  | none =>
    dsimp only
    obtain ⟨R1, R2, R3, R4, R5, R6, R7, R8, hcons⟩ := hinv
    have hup : ∀ s' b2, alookup (aupd e.books sym emptyBook) s' = some b2 →
        (s' = sym ∧ b2 = emptyBook) ∨ alookup e.books s' = some b2 := by
      intro s' b2 hb2
      rw [alookup_aupd] at hb2
      split_ifs at hb2 with hs
      · exact Or.inl ⟨hs.symm, (Option.some.inj hb2).symm⟩
      · exact Or.inr hb2
    refine ⟨⟨?_, keys_aupd_nodup R2, ?_, ?_, ?_, R6, R7, R8, hcons⟩, ?_, ?_⟩
    · refine @addrsOfBooks_aupd_nodup _ _ _ e.nextAddr R1
        (by simp [bookAddrs, sideAddrs, emptyBook]) ?_ ?_
      · intro x hx
        simp [bookAddrs, sideAddrs, emptyBook] at hx
      · intro hm
        exact lt_irrefl e.nextAddr (addrsOfBooks_lt R2 R3 _ hm)
    · intro s' b2 hb2 a2 ha2
      rcases hup s' b2 hb2 with ⟨-, rfl⟩ | hb
      · simp [bookAddrs, sideAddrs, emptyBook] at ha2
      · exact R3 s' b2 hb a2 ha2
    · intro s' b2 hb2 a2 ha2
      rcases hup s' b2 hb2 with ⟨-, rfl⟩ | hb
      · simp [bookAddrs, sideAddrs, emptyBook] at ha2
      · exact R4 s' b2 hb a2 ha2
    · intro s' b2 hb2
      rcases hup s' b2 hb2 with ⟨-, rfl⟩ | hb
      · simp [emptyBook]
      · exact R5 s' b2 hb
    · rw [alookup_aupd, if_pos rfl]
    · intro s' hs
      rw [alookup_aupd, if_neg (fun he => hs he.symm)]

/-- Replacing one book by a book whose sides (addresses and level prices)
are sub-lists of the old book's preserves the reachability invariant. -/
theorem set_book_inv (E : Engine) (ts : List Trade) (sym : String) (b0 b1 : OrderBook)
    (hinv : ReachInv E ts)
    (hlook : alookup E.books sym = some b0)
    (hsub : (bookAddrs b1).Sublist (bookAddrs b0))
    (hprB : (b1.bids.map PriceLevel.price).Sublist (b0.bids.map PriceLevel.price))
    (hprA : (b1.asks.map PriceLevel.price).Sublist (b0.asks.map PriceLevel.price)) :
    ReachInv { E with books := aupd E.books sym b1 } ts := by
  obtain ⟨R1, R2, R3, R4, R5, R6, R7, R8, hcons⟩ := hinv
  have hup : ∀ s' b2, alookup (aupd E.books sym b1) s' = some b2 →
      (s' = sym ∧ b2 = b1) ∨ alookup E.books s' = some b2 := by
    intro s' b2 hb2
    rw [alookup_aupd] at hb2
    split_ifs at hb2 with hs
    · exact Or.inl ⟨hs.symm, (Option.some.inj hb2).symm⟩
    · exact Or.inr hb2
  refine ⟨?_, keys_aupd_nodup R2, ?_, ?_, ?_, R6, R7, R8, hcons⟩
  · refine @addrsOfBooks_aupd_nodup _ _ _ E.nextAddr R1
      (hsub.nodup (bookAddrs_nodup_of_lookup R1 hlook)) ?_ ?_
    · intro x hx
      rw [hlook]
      exact Or.inl (hsub.subset hx)
    · intro hm
      exact lt_irrefl E.nextAddr (addrsOfBooks_lt R2 R3 _ hm)
  · intro s' b2 hb2 a2 ha2
    rcases hup s' b2 hb2 with ⟨rfl, rfl⟩ | hb
    · exact R3 _ b0 hlook a2 (hsub.subset ha2)
    · exact R3 s' b2 hb a2 ha2
  · intro s' b2 hb2 a2 ha2
    rcases hup s' b2 hb2 with ⟨rfl, rfl⟩ | hb
    · exact R4 _ b0 hlook a2 (hsub.subset ha2)
    · exact R4 s' b2 hb a2 ha2
  · intro s' b2 hb2
    rcases hup s' b2 hb2 with ⟨rfl, rfl⟩ | hb
    · exact ⟨hprB.nodup (R5 _ b0 hlook).1, hprA.nodup (R5 _ b0 hlook).2⟩
    · exact R5 s' b2 hb

/-- Allocating a fresh order record (heap append, counter bump, directory
write), as `SubmitOrder` does before matching, preserves the reachability
invariant. -/
theorem alloc_inv (E : Engine) (ts : List Trade) (o : Order)
    (hinv : ReachInv E ts) (hq : 0 < o.quantity) (hf : o.filledQuantity = 0)
    (hfresh : ∀ a, a < E.nextAddr → (heapGetD E.heap a).id ≠ o.id) :
    ReachInv
      { E with heap := E.heap ++ [(E.nextAddr, o)], nextAddr := E.nextAddr + 1,
               orderStore := aupd E.orderStore o.id E.nextAddr } ts := by
  obtain ⟨R1, R2, R3, R4, R5, R6, R7, R8, C1, C2, C3, C4⟩ := hinv
  have hGet : ∀ a, a < E.nextAddr →
      heapGetD (E.heap ++ [(E.nextAddr, o)]) a = heapGetD E.heap a :=
    fun a ha => heapGetD_snoc_ne _ _ _ _ (Nat.ne_of_lt ha)
  have hGetn : heapGetD (E.heap ++ [(E.nextAddr, o)]) E.nextAddr = o :=
    heapGetD_snoc_self _ _ _ (R7 E.nextAddr le_rfl)
  have hA6 : ((List.range (E.nextAddr + 1)).map
      fun a => (heapGetD (E.heap ++ [(E.nextAddr, o)]) a).id).Nodup := by
    have hmapold : ((List.range E.nextAddr).map
        fun a => (heapGetD (E.heap ++ [(E.nextAddr, o)]) a).id)
        = ((List.range E.nextAddr).map fun a => (heapGetD E.heap a).id) :=
      List.map_congr_left fun a ha => by rw [hGet a (List.mem_range.mp ha)]
    rw [List.range_succ, List.map_append, hmapold]
    refine List.nodup_append.mpr ⟨R6, by simp, ?_⟩
    intro x hx hx2
    simp only [List.map_cons, List.map_nil, List.mem_singleton] at hx2
    rw [hGetn] at hx2
    obtain ⟨a2, ha2, he⟩ := List.mem_map.mp hx
    exact hfresh a2 (List.mem_range.mp ha2) (he.trans hx2)
  refine ⟨R1, R2, ?_, ?_, R5, hA6, ?_, ?_, ?_, ?_, C3, ?_⟩
  · exact fun sym b2 hb a2 ha2 => Nat.lt_succ_of_lt (R3 sym b2 hb a2 ha2)
  · intro sym b2 hb a2 ha2
    rw [hGet a2 (R3 sym b2 hb a2 ha2)]
    exact R4 sym b2 hb a2 ha2
  · intro a2 ha2
    rw [alookup_snoc_ne _ _ _ _ ((Nat.ne_of_lt (Nat.lt_of_succ_le ha2)).symm)]
    exact R7 a2 (Nat.le_of_succ_le ha2)
  · intro i a2 h2
    rw [alookup_aupd] at h2
    split_ifs at h2 with hs
    · rw [← Option.some.inj h2]
      exact Nat.lt_succ_self _
    · exact Nat.lt_succ_of_lt (R8 i a2 h2)
  · intro a2 ha2
    by_cases he : a2 = E.nextAddr
    · subst he
      rw [hGetn, hf]
      exact ⟨le_refl 0, le_of_lt hq⟩
    · have ha2n : a2 < E.nextAddr + 1 := ha2
      have ha2' : a2 < E.nextAddr := by omega
      rw [hGet a2 ha2']
      exact C1 a2 ha2'
  · intro a2 ha2
    by_cases he : a2 = E.nextAddr
    · subst he
      rw [hGetn, hf]
      refine tradesFor_eq_zero ?_
      intro t ht
      obtain ⟨⟨a3, ha3, hag⟩, a4, ha4, hre⟩ := C4 t ht
      constructor
      · rw [hag]
        exact hfresh a3 ha3
      · rw [hre]
        exact hfresh a4 ha4
    · have ha2n : a2 < E.nextAddr + 1 := ha2
      have ha2' : a2 < E.nextAddr := by omega
      rw [hGet a2 ha2']
      exact C2 a2 ha2'
  · intro t ht
    obtain ⟨⟨a3, ha3, hag⟩, a4, ha4, hre⟩ := C4 t ht
    refine ⟨⟨a3, Nat.lt_succ_of_lt ha3, ?_⟩, a4, Nat.lt_succ_of_lt ha4, ?_⟩
    · rw [hGet a3 ha3]
      exact hag
    · rw [hGet a4 ha4]
      exact hre

/-- The market-order rejection path of `SubmitOrder` (allocate, check,
delete the directory entry) preserves the reachability invariant; the
dangling heap record is harmless. -/
theorem submit_reject_inv (E : Engine) (ts : List Trade) (o : Order)
    (hinv : ReachInv E ts) (hq : 0 < o.quantity) (hf : o.filledQuantity = 0)
    (hfresh : ∀ a, a < E.nextAddr → (heapGetD E.heap a).id ≠ o.id) :
    ReachInv
      { E with heap := E.heap ++ [(E.nextAddr, o)], nextAddr := E.nextAddr + 1,
               orderStore := aerase (aupd E.orderStore o.id E.nextAddr) o.id } ts := by
  obtain ⟨R1, R2, R3, R4, R5, R6, R7, R8, hcons⟩ :=
    alloc_inv E ts o hinv hq hf hfresh
  refine ⟨R1, R2, R3, R4, R5, R6, R7, ?_, hcons⟩
  intro i a2 h2
  have h2' : alookup (aerase (aupd E.orderStore o.id E.nextAddr) o.id) i = some a2 := h2
  rw [alookup_aerase] at h2'
  split_ifs at h2' with hs
  exact R8 i a2 h2'

/-- The matching path of `SubmitOrder` (allocate, `ProcessOrder`, store the
updated book) preserves the reachability invariant with the emitted trades
appended, and preserves every previously allocated identifier while giving
the fresh record the submitted identifier. -/
theorem submit_process_inv (E : Engine) (ts : List Trade) (o : Order) (book : OrderBook)
    (hinv : ReachInv E ts)
    (hlook : alookup E.books o.symbol = some book)
    (hq : 0 < o.quantity) (hf : o.filledQuantity = 0)
    (hfresh : ∀ a, a < E.nextAddr → (heapGetD E.heap a).id ≠ o.id) :
    ReachInv
      { E with
        heap := (processOrder (E.heap ++ [(E.nextAddr, o)]) book E.nextAddr).1,
        nextAddr := E.nextAddr + 1,
        books := aupd E.books o.symbol
          (processOrder (E.heap ++ [(E.nextAddr, o)]) book E.nextAddr).2.1,
        orderStore := aupd E.orderStore o.id E.nextAddr }
      (ts ++ (processOrder (E.heap ++ [(E.nextAddr, o)]) book E.nextAddr).2.2.trades) ∧
    (∀ a, a < E.nextAddr →
      (heapGetD (processOrder (E.heap ++ [(E.nextAddr, o)]) book E.nextAddr).1 a).id
        = (heapGetD E.heap a).id) ∧
    (heapGetD (processOrder (E.heap ++ [(E.nextAddr, o)]) book E.nextAddr).1
      E.nextAddr).id = o.id := by
  have hinv2 := alloc_inv E ts o hinv hq hf hfresh
  obtain ⟨R1, R2, R3, R4, R5, R6, R7, R8, C1, C2, C3, C4⟩ := hinv
  obtain ⟨S1, S2, S3, S4, S5, S6, S7, S8, D1, D2, D3, D4⟩ := hinv2
  have hS6 : ((List.range (E.nextAddr + 1)).map
      fun a => (heapGetD (E.heap ++ [(E.nextAddr, o)]) a).id).Nodup := S6
  have hD1 : ∀ a, a < E.nextAddr + 1 →
      0 ≤ (heapGetD (E.heap ++ [(E.nextAddr, o)]) a).filledQuantity ∧
      (heapGetD (E.heap ++ [(E.nextAddr, o)]) a).filledQuantity
        ≤ (heapGetD (E.heap ++ [(E.nextAddr, o)]) a).quantity := D1
  have hD2 : ∀ a, a < E.nextAddr + 1 →
      tradesFor ((heapGetD (E.heap ++ [(E.nextAddr, o)]) a).id) ts
        = (heapGetD (E.heap ++ [(E.nextAddr, o)]) a).filledQuantity := D2
  have hGet : ∀ a, a < E.nextAddr →
      heapGetD (E.heap ++ [(E.nextAddr, o)]) a = heapGetD E.heap a :=
    fun a ha => heapGetD_snoc_ne _ _ _ _ (Nat.ne_of_lt ha)
  have hGetn : heapGetD (E.heap ++ [(E.nextAddr, o)]) E.nextAddr = o :=
    heapGetD_snoc_self _ _ _ (R7 E.nextAddr le_rfl)
  have hAbook : E.nextAddr ∉ bookAddrs book :=
    fun hm => lt_irrefl E.nextAddr (R3 _ book hlook _ hm)
  have hndbook : (bookAddrs book).Nodup := bookAddrs_nodup_of_lookup R1 hlook
  have hposbook : ∀ a ∈ bookAddrs book,
      0 < (heapGetD (E.heap ++ [(E.nextAddr, o)]) a).remainingQuantity := by
    intro a ha
    rw [hGet a (R3 _ book hlook a ha)]
    exact R4 _ book hlook a ha
  have haggr : 0 ≤ (heapGetD (E.heap ++ [(E.nextAddr, o)])
      E.nextAddr).remainingQuantity := by
    rw [hGetn, Order.remainingQuantity, hf]
    omega
  have hidsP : ((E.nextAddr :: bookAddrs book).map
      fun a => (heapGetD (E.heap ++ [(E.nextAddr, o)]) a).id).Nodup := by
    refine ids_nodup_of_addrs _ (E.nextAddr + 1) _ ?_ ?_ hS6
    · exact List.nodup_cons.mpr ⟨hAbook, hndbook⟩
    · intro x hx
      rcases List.mem_cons.mp hx with h1 | h1
      · rw [h1]
        exact Nat.lt_succ_self _
      · exact Nat.lt_succ_of_lt (R3 _ book hlook x h1)
  obtain ⟨P1, P2, P3, P4, P5, P6, P7, P8, P9, P10⟩ :=
    processOrder_inv_spec (E.heap ++ [(E.nextAddr, o)]) book E.nextAddr
      hAbook hndbook hposbook haggr (R5 _ book hlook).1 (R5 _ book hlook).2 hidsP
  have hid2 : ∀ a, a < E.nextAddr →
      (heapGetD (processOrder (E.heap ++ [(E.nextAddr, o)]) book E.nextAddr).1 a).id
        = (heapGetD E.heap a).id := by
    intro a ha
    rw [core_eq_id (P10 a), hGet a ha]
  have hid3 : (heapGetD (processOrder (E.heap ++ [(E.nextAddr, o)]) book
      E.nextAddr).1 E.nextAddr).id = o.id := by
    rw [core_eq_id (P10 E.nextAddr), hGetn]
  have hup : ∀ s' b2, alookup (aupd E.books o.symbol
      (processOrder (E.heap ++ [(E.nextAddr, o)]) book E.nextAddr).2.1) s'
        = some b2 →
      (s' = o.symbol ∧ b2 = (processOrder (E.heap ++ [(E.nextAddr, o)]) book
        E.nextAddr).2.1) ∨ (s' ≠ o.symbol ∧ alookup E.books s' = some b2) := by
    intro s' b2 hb2
    rw [alookup_aupd] at hb2
    split_ifs at hb2 with hs
    · exact Or.inl ⟨hs.symm, (Option.some.inj hb2).symm⟩
    · exact Or.inr ⟨fun he => hs he.symm, hb2⟩
  have hR1 : (addrsOfBooks (aupd E.books o.symbol
      (processOrder (E.heap ++ [(E.nextAddr, o)]) book E.nextAddr).2.1)).Nodup := by
    refine @addrsOfBooks_aupd_nodup _ _ _ E.nextAddr R1 P2 ?_ ?_
    · intro x hx
      rcases P1 x hx with h1 | h1
      · exact Or.inr h1
      · rw [hlook]
        exact Or.inl h1
    · intro hm
      exact lt_irrefl E.nextAddr (addrsOfBooks_lt R2 R3 _ hm)
  have hR3 : ∀ s' b2, alookup (aupd E.books o.symbol
      (processOrder (E.heap ++ [(E.nextAddr, o)]) book E.nextAddr).2.1) s'
        = some b2 → ∀ a2 ∈ bookAddrs b2, a2 < E.nextAddr + 1 := by
    intro s' b2 hb2 a2 ha2
    rcases hup s' b2 hb2 with ⟨-, rfl⟩ | ⟨-, hb⟩
    · rcases P1 a2 ha2 with h1 | h1
      · rw [h1]
        exact Nat.lt_succ_self _
      · exact Nat.lt_succ_of_lt (R3 _ book hlook a2 h1)
    · exact Nat.lt_succ_of_lt (R3 s' b2 hb a2 ha2)
  have hR4 : ∀ s' b2, alookup (aupd E.books o.symbol
      (processOrder (E.heap ++ [(E.nextAddr, o)]) book E.nextAddr).2.1) s'
        = some b2 → ∀ a2 ∈ bookAddrs b2,
      0 < (heapGetD (processOrder (E.heap ++ [(E.nextAddr, o)]) book
        E.nextAddr).1 a2).remainingQuantity := by
    intro s' b2 hb2 a2 ha2
    rcases hup s' b2 hb2 with ⟨-, rfl⟩ | ⟨hne, hb⟩
    · exact P5 a2 ha2
    · have ha2n : a2 < E.nextAddr := R3 s' b2 hb a2 ha2
      have hnotbook : a2 ∉ bookAddrs book :=
        books_disjoint R1 hb hlook hne a2 ha2
      rw [heapGetD_congr (P6 a2 (Nat.ne_of_lt ha2n) hnotbook), hGet a2 ha2n]
      exact R4 s' b2 hb a2 ha2
  have hR5 : ∀ s' b2, alookup (aupd E.books o.symbol
      (processOrder (E.heap ++ [(E.nextAddr, o)]) book E.nextAddr).2.1) s'
        = some b2 →
      (b2.bids.map PriceLevel.price).Nodup ∧ (b2.asks.map PriceLevel.price).Nodup := by
    intro s' b2 hb2
    rcases hup s' b2 hb2 with ⟨-, rfl⟩ | ⟨-, hb⟩
    · exact ⟨P3, P4⟩
    · exact R5 s' b2 hb
  have hR6 : ((List.range (E.nextAddr + 1)).map
      fun a => (heapGetD (processOrder (E.heap ++ [(E.nextAddr, o)]) book
        E.nextAddr).1 a).id).Nodup := by
    have hmapP : ((List.range (E.nextAddr + 1)).map
        fun a => (heapGetD (processOrder (E.heap ++ [(E.nextAddr, o)]) book
          E.nextAddr).1 a).id)
        = ((List.range (E.nextAddr + 1)).map
        fun a => (heapGetD (E.heap ++ [(E.nextAddr, o)]) a).id) :=
      List.map_congr_left fun a _ => core_eq_id (P10 a)
    rw [hmapP]
    exact hS6
  have hR7 : ∀ a2, E.nextAddr + 1 ≤ a2 →
      alookup (processOrder (E.heap ++ [(E.nextAddr, o)]) book E.nextAddr).1 a2
        = none := by
    intro a2 ha2
    have h1 : a2 ≠ E.nextAddr := (Nat.ne_of_lt (Nat.lt_of_succ_le ha2)).symm
    have h2m : a2 ∉ bookAddrs book := fun hm =>
      absurd (R3 _ book hlook a2 hm) (by omega)
    rw [P6 a2 h1 h2m, alookup_snoc_ne _ _ _ _ h1]
    exact R7 a2 (Nat.le_of_succ_le ha2)
  have hR8 : ∀ i a2, alookup (aupd E.orderStore o.id E.nextAddr) i = some a2 →
      a2 < E.nextAddr + 1 := S8
  have hC1 : ∀ a2, a2 < E.nextAddr + 1 →
      0 ≤ (heapGetD (processOrder (E.heap ++ [(E.nextAddr, o)]) book
        E.nextAddr).1 a2).filledQuantity ∧
      (heapGetD (processOrder (E.heap ++ [(E.nextAddr, o)]) book
        E.nextAddr).1 a2).filledQuantity
        ≤ (heapGetD (processOrder (E.heap ++ [(E.nextAddr, o)]) book
          E.nextAddr).1 a2).quantity := by
    intro a2 ha2
    by_cases hmem : a2 = E.nextAddr ∨ a2 ∈ bookAddrs book
    · have hfe := P7 a2 hmem
      have hre := P8 a2 hmem
      have h0f := (hD1 a2 ha2).1
      have htf : 0 ≤ tradesFor ((heapGetD (E.heap ++ [(E.nextAddr, o)]) a2).id)
          (processOrder (E.heap ++ [(E.nextAddr, o)]) book E.nextAddr).2.2.trades :=
        tradesFor_nonneg _ _ (fun t ht => (P9 t ht).1)
      rw [Order.remainingQuantity] at hre
      constructor
      · rw [hfe]
        exact add_nonneg h0f htf
      · omega
    · push_neg at hmem
      obtain ⟨hne, hnb⟩ := hmem
      rw [heapGetD_congr (P6 a2 hne hnb)]
      exact hD1 a2 ha2
  have hC2 : ∀ a2, a2 < E.nextAddr + 1 →
      tradesFor ((heapGetD (processOrder (E.heap ++ [(E.nextAddr, o)]) book
        E.nextAddr).1 a2).id)
        (ts ++ (processOrder (E.heap ++ [(E.nextAddr, o)]) book
          E.nextAddr).2.2.trades)
        = (heapGetD (processOrder (E.heap ++ [(E.nextAddr, o)]) book
          E.nextAddr).1 a2).filledQuantity := by
    intro a2 ha2
    rw [core_eq_id (P10 a2), tradesFor_append, hD2 a2 ha2]
    by_cases hmem : a2 = E.nextAddr ∨ a2 ∈ bookAddrs book
    · exact (P7 a2 hmem).symm
    · push_neg at hmem
      obtain ⟨hne, hnb⟩ := hmem
      have hz : tradesFor ((heapGetD (E.heap ++ [(E.nextAddr, o)]) a2).id)
          (processOrder (E.heap ++ [(E.nextAddr, o)]) book E.nextAddr).2.2.trades
          = 0 := by
        refine tradesFor_eq_zero ?_
        intro t ht
        obtain ⟨-, hag, r, hr, hres⟩ := P9 t ht
        have hrlt : r < E.nextAddr := R3 _ book hlook r hr
        have hra : r ≠ a2 := fun he2 => hnb (he2 ▸ hr)
        constructor
        · rw [hag]
          exact ids_ne_of_nodup hS6 (List.mem_range.mpr (Nat.lt_succ_self _))
            (List.mem_range.mpr ha2) (fun he2 => hne he2.symm)
        · rw [hres]
          exact ids_ne_of_nodup hS6 (List.mem_range.mpr (Nat.lt_succ_of_lt hrlt))
            (List.mem_range.mpr ha2) hra
      rw [hz, add_zero, heapGetD_congr (P6 a2 hne hnb)]
  have hC3 : ∀ t ∈ (ts ++ (processOrder (E.heap ++ [(E.nextAddr, o)]) book
      E.nextAddr).2.2.trades), 0 < t.quantity := by
    intro t ht
    rcases List.mem_append.mp ht with hts | htr
    · exact C3 t hts
    · exact (P9 t htr).1
  have hC4 : ∀ t ∈ (ts ++ (processOrder (E.heap ++ [(E.nextAddr, o)]) book
      E.nextAddr).2.2.trades),
      (∃ a2, a2 < E.nextAddr + 1 ∧ t.aggressorOrderId
        = (heapGetD (processOrder (E.heap ++ [(E.nextAddr, o)]) book
          E.nextAddr).1 a2).id) ∧
      (∃ a2, a2 < E.nextAddr + 1 ∧ t.restingOrderId
        = (heapGetD (processOrder (E.heap ++ [(E.nextAddr, o)]) book
          E.nextAddr).1 a2).id) := by
    intro t ht
    rcases List.mem_append.mp ht with hts | htr
    · obtain ⟨⟨a3, ha3, hag⟩, a4, ha4, hre⟩ := C4 t hts
      refine ⟨⟨a3, Nat.lt_succ_of_lt ha3, ?_⟩, a4, Nat.lt_succ_of_lt ha4, ?_⟩
      · rw [hag, ← hGet a3 ha3, ← core_eq_id (P10 a3)]
      · rw [hre, ← hGet a4 ha4, ← core_eq_id (P10 a4)]
    · obtain ⟨-, hag, r, hr, hres⟩ := P9 t htr
      have hrlt := R3 _ book hlook r hr
      refine ⟨⟨E.nextAddr, Nat.lt_succ_self _, ?_⟩, r, Nat.lt_succ_of_lt hrlt, ?_⟩
      · rw [hag, ← core_eq_id (P10 E.nextAddr)]
      · rw [hres, ← core_eq_id (P10 r)]
  exact ⟨⟨hR1, keys_aupd_nodup R2, hR3, hR4, hR5, hR6, hR7, hR8, hC1, hC2, hC3, hC4⟩,
    hid2, hid3⟩

/-- `SubmitOrder` preserves the reachability invariant (appending the
emitted trades), bumps the allocation counter, and preserves all previously
allocated identifiers while the fresh record carries the submitted one. -/
theorem submit_inv (e : Engine) (ts : List Trade) (o : Order)
    (hinv : ReachInv e ts)
    (hq : 0 < o.quantity) (hf : o.filledQuantity = 0)
    (hfresh : ∀ a, a < e.nextAddr → (heapGetD e.heap a).id ≠ o.id) :
    ReachInv (submitOrder e o).1
      (ts ++ match (submitOrder e o).2 with
        | Except.ok r => r.trades
        | Except.error _ => []) ∧
    (submitOrder e o).1.nextAddr = e.nextAddr + 1 ∧
    (∀ a, a < e.nextAddr →
      (heapGetD (submitOrder e o).1.heap a).id = (heapGetD e.heap a).id) ∧
    (heapGetD (submitOrder e o).1.heap e.nextAddr).id = o.id := by
  obtain ⟨hinv1, hlook1, -⟩ := getBookAndLock_spec e o.symbol ts hinv
  obtain ⟨-, -, -, -, -, -, R7e, -, -⟩ := hinv
  have hheap1 : (getBookAndLock e o.symbol).1.heap = e.heap :=
    getBookAndLock_heap e o.symbol
  have hnext1 : (getBookAndLock e o.symbol).1.nextAddr = e.nextAddr :=
    getBookAndLock_nextAddr e o.symbol
  have hfresh1 : ∀ a, a < (getBookAndLock e o.symbol).1.nextAddr →
      (heapGetD (getBookAndLock e o.symbol).1.heap a).id ≠ o.id := by
    rw [hheap1, hnext1]
    exact hfresh
  simp only [submitOrder]
  by_cases hrej : o.type = OrderType.market ∧
      (checkMarketOrderLiquidity
        ((getBookAndLock e o.symbol).1.heap ++
          [((getBookAndLock e o.symbol).1.nextAddr, o)])
        (getBookAndLock e o.symbol).2 o).2 = false
  · rw [if_pos hrej]
    dsimp only
    refine ⟨?_, ?_, ?_, ?_⟩
    · rw [List.append_nil]
      exact submit_reject_inv (getBookAndLock e o.symbol).1 ts o hinv1 hq hf hfresh1
    · rw [hnext1]
    · intro a ha
      rw [hheap1, hnext1, heapGetD_snoc_ne _ _ _ _ (Nat.ne_of_lt ha)]
    · rw [hheap1, hnext1, heapGetD_snoc_self _ _ _ (R7e e.nextAddr le_rfl)]
  · rw [if_neg hrej]
    dsimp only
    obtain ⟨hmain, hids2, hids3⟩ :=
      submit_process_inv (getBookAndLock e o.symbol).1 ts o
        (getBookAndLock e o.symbol).2 hinv1 hlook1 hq hf hfresh1
    refine ⟨hmain, ?_, ?_, ?_⟩
    · rw [hnext1]
    · intro a ha
      have ha1 : a < (getBookAndLock e o.symbol).1.nextAddr := by
        rw [hnext1]
        exact ha
      rw [hids2 a ha1, hheap1]
    · rw [← hnext1]
      exact hids3

/-- `CancelOrder` preserves the reachability invariant, the allocation
counter and every record's identifier. -/
theorem cancel_inv (e : Engine) (ts : List Trade) (i : String)
    (hinv : ReachInv e ts) :
    ReachInv (cancelOrder e i).1 ts ∧
    (cancelOrder e i).1.nextAddr = e.nextAddr ∧
    (∀ x, (heapGetD (cancelOrder e i).1.heap x).id = (heapGetD e.heap x).id) := by
  obtain ⟨R1e, R2e, R3e, R4e, R5e, R6e, R7e, R8e, C1e, C2e, C3e, C4e⟩ := hinv
  have hinv0 : ReachInv e ts :=
    ⟨R1e, R2e, R3e, R4e, R5e, R6e, R7e, R8e, C1e, C2e, C3e, C4e⟩
  simp only [cancelOrder]
  cases hl : alookup e.orderStore i with
  | none =>
    dsimp only
    exact ⟨hinv0, rfl, fun x => rfl⟩
  | some a =>
    dsimp only
    by_cases hterm : (heapGetD e.heap a).status = OrderStatus.filled ∨
        (heapGetD e.heap a).status = OrderStatus.cancelled
    · rw [if_pos hterm]
      exact ⟨hinv0, rfl, fun x => rfl⟩
    · rw [if_neg hterm]
      dsimp only
      have ha : a < e.nextAddr := R8e i a hl
      have hidp : ∀ x, (heapGetD (aupd e.heap a
          { heapGetD e.heap a with status := OrderStatus.cancelled }) x).id
          = (heapGetD e.heap x).id :=
        fun x => core_eq_id (heapGetD_aupd_status_core _ _ _ _)
      have hqp : ∀ x, (heapGetD (aupd e.heap a
          { heapGetD e.heap a with status := OrderStatus.cancelled }) x).quantity
          = (heapGetD e.heap x).quantity :=
        fun x => core_eq_quantity (heapGetD_aupd_status_core _ _ _ _)
      have hinv1 : ReachInv { e with heap :=
          (aupd e.heap a { heapGetD e.heap a with status := OrderStatus.cancelled }) } ts := by
        refine ⟨R1e, R2e, R3e, ?_, R5e, ?_, ?_, R8e, ?_, ?_, C3e, ?_⟩
        · intro sym b2 hb x hx
          rw [heapGetD_aupd_status_rem]
          exact R4e sym b2 hb x hx
        · have hmap : ((List.range e.nextAddr).map fun x => (heapGetD (aupd e.heap a
              { heapGetD e.heap a with status := OrderStatus.cancelled }) x).id)
              = ((List.range e.nextAddr).map fun x => (heapGetD e.heap x).id) :=
            List.map_congr_left fun x _ => hidp x
          rw [hmap]
          exact R6e
        · intro x hx
          rw [alookup_aupd_ne _ _ _ _ (Nat.ne_of_lt (lt_of_lt_of_le ha hx))]
          exact R7e x hx
        · intro x hx
          constructor
          · rw [heapGetD_aupd_status_filled]
            exact (C1e x hx).1
          · rw [heapGetD_aupd_status_filled, hqp x]
            exact (C1e x hx).2
        · intro x hx
          rw [hidp x, heapGetD_aupd_status_filled]
          exact C2e x hx
        · intro t ht
          obtain ⟨⟨a3, ha3, hag⟩, a4, ha4, hre⟩ := C4e t ht
          refine ⟨⟨a3, ha3, ?_⟩, a4, ha4, ?_⟩
          · rw [hag, hidp a3]
          · rw [hre, hidp a4]
      obtain ⟨hinvG, hlookG, -⟩ := getBookAndLock_spec
        { e with heap :=
          (aupd e.heap a { heapGetD e.heap a with status := OrderStatus.cancelled }) }
        (heapGetD e.heap a).symbol ts hinv1
      refine ⟨?_, ?_, ?_⟩
      · simp only [bookCancelOrder]
        cases hbc : alookup (getBookAndLock { e with heap :=
            (aupd e.heap a { heapGetD e.heap a with status := OrderStatus.cancelled }) }
            (heapGetD e.heap a).symbol).2.orderMap i with
        | none =>
          dsimp only
          rw [aupd_lookup_self hlookG]
          exact hinvG
        | some a2 =>
          dsimp only
          by_cases hsd : (heapGetD (getBookAndLock { e with heap :=
              (aupd e.heap a { heapGetD e.heap a with status := OrderStatus.cancelled }) }
              (heapGetD e.heap a).symbol).1.heap a2).side = Side.buy
          · rw [if_pos hsd]
            refine set_book_inv _ ts _ _ _ hinvG hlookG ?_ ?_ ?_
            · exact List.Sublist.append (sideAddrs_removeOrderFromSide_sublist _ _ _)
                (List.Sublist.refl _)
            · exact prices_removeOrderFromSide_sublist _ _ _
            · exact List.Sublist.refl _
          · rw [if_neg hsd]
            refine set_book_inv _ ts _ _ _ hinvG hlookG ?_ ?_ ?_
            · exact List.Sublist.append (List.Sublist.refl _)
                (sideAddrs_removeOrderFromSide_sublist _ _ _)
            · exact List.Sublist.refl _
            · exact prices_removeOrderFromSide_sublist _ _ _
      · dsimp only
        rw [getBookAndLock_nextAddr]
      · intro x
        rw [getBookAndLock_heap]
        exact hidp x

theorem runOp_submit (e : Engine) (oid sym : String) (sd : Side) (t : OrderType)
    (p q ts0 : Int) :
    runOp e (Op.submit oid sym sd t p q ts0)
      = ((submitOrder e (newOrder oid sym sd t p q ts0)).1,
        match (submitOrder e (newOrder oid sym sd t p q ts0)).2 with
        | Except.ok r => r.trades
        | Except.error _ => []) := by
  simp only [runOp]
  cases hres : submitOrder e (newOrder oid sym sd t p q ts0) with
  | mk e1 r =>
    cases r with
    | ok resp => rfl
    | error err => rfl

/-- The fresh engine satisfies the reachability invariant with no trades. -/
theorem newEngine_inv : ReachInv newEngine [] := by
  refine ⟨?_, ?_, ?_, ?_, ?_, ?_, ?_, ?_, ?_, ?_, ?_, ?_⟩
  · simp [newEngine, addrsOfBooks]
  · simp [newEngine]
  · intro sym b hb
    simp [newEngine, alookup] at hb
  · intro sym b hb
    simp [newEngine, alookup] at hb
  · intro sym b hb
    simp [newEngine, alookup] at hb
  · simp [newEngine]
  · intro a ha
    rfl
  · intro i a h
    simp [newEngine, alookup] at h
  · intro a ha
    simp [newEngine] at ha
  · intro a ha
    simp [newEngine] at ha
  · intro t ht
    simp at ht
  · intro t ht
    simp at ht

/-- Running any conforming operation sequence preserves the reachability
invariant, threading the emitted trades. -/
theorem runOps_inv (ops : List Op) : ∀ (e : Engine) (ts : List Trade),
    ReachInv e ts →
    (submitIds ops).Nodup →
    (∀ op ∈ ops, ValidOp op) →
    (∀ a, a < e.nextAddr → (heapGetD e.heap a).id ∉ submitIds ops) →
    ReachInv (runOps e ops).1 (ts ++ (runOps e ops).2) := by
  induction ops with
  | nil =>
    intro e ts hinv _ _ _
    simpa [runOps] using hinv
  | cons op rest ih =>
    intro e ts hinv hnd hval hfresh
    cases op with
    | submit oid sym sd t p q ts0 =>
      have hndc : (oid :: submitIds rest).Nodup := hnd
      have hq0 : (0 : Int) < q := hval _ (List.mem_cons_self _ _)
      have hfr : ∀ a, a < e.nextAddr →
          (heapGetD e.heap a).id ≠ (newOrder oid sym sd t p q ts0).id := by
        intro a ha he
        refine hfresh a ha ?_
        rw [he]
        exact List.mem_cons_self _ _
      obtain ⟨hinv', hn', hidp, hidn⟩ :=
        submit_inv e ts (newOrder oid sym sd t p q ts0) hinv hq0 rfl hfr
      simp only [runOps]
      rw [runOp_submit, ← List.append_assoc]
      refine ih _ _ hinv' (List.nodup_cons.mp hndc).2
        (fun op2 h2 => hval op2 (List.mem_cons_of_mem _ h2)) ?_
      intro a2 ha2 hmem
      have ha2' : a2 < e.nextAddr + 1 := by
        rw [← hn']
        exact ha2
      by_cases hcase : a2 = e.nextAddr
      · subst hcase
        rw [hidn] at hmem
        exact (List.nodup_cons.mp hndc).1 hmem
      · have ha3 : a2 < e.nextAddr := by omega
        rw [hidp a2 ha3] at hmem
        exact hfresh a2 ha3 (List.mem_cons_of_mem _ hmem)
    | cancel cid =>
      obtain ⟨hinv', hn', hidp⟩ := cancel_inv e ts cid hinv
      simp only [runOps, runOp, List.nil_append]
      refine ih _ ts hinv' hnd
        (fun op2 h2 => hval op2 (List.mem_cons_of_mem _ h2)) ?_
      intro a2 ha2 hmem
      have ha3 : a2 < e.nextAddr := by
        rw [← hn']
        exact ha2
      rw [hidp a2] at hmem
      exact hfresh a2 ha3 hmem

/-- C8.  Trade conservation invariant: starting from a fresh engine, after
any conforming sequence of submissions and cancellations (positive
quantities, globally unique submitted identifiers), the trades naming each
order (as aggressor or resting counterparty) sum to that order's filled
quantity, every trade quantity is positive, trades only name allocated
orders, and `0 ≤ filled ≤ original` holds for every allocated order — in
particular for every order reachable through the directory. -/
theorem C8_trade_conservation (ops : List Op) (hval : ValidOps ops) :
    ConsInv (runOps newEngine ops).1 (runOps newEngine ops).2 ∧
    (∀ i a, alookup (runOps newEngine ops).1.orderStore i = some a →
      0 ≤ (heapGetD (runOps newEngine ops).1.heap a).filledQuantity ∧
      (heapGetD (runOps newEngine ops).1.heap a).filledQuantity
        ≤ (heapGetD (runOps newEngine ops).1.heap a).quantity ∧
      tradesFor ((heapGetD (runOps newEngine ops).1.heap a).id)
        (runOps newEngine ops).2
        = (heapGetD (runOps newEngine ops).1.heap a).filledQuantity) := by
  have h := runOps_inv ops newEngine [] newEngine_inv hval.1 hval.2
    (fun a ha _ => absurd ha (by simp [newEngine]))
  obtain ⟨-, -, -, -, -, -, -, R8, C1, C2, C3, C4⟩ := h
  have hcons : ConsInv (runOps newEngine ops).1 (runOps newEngine ops).2 :=
    ⟨C1, C2, C3, C4⟩
  refine ⟨hcons, ?_⟩
  intro i a ha
  have haddr := R8 i a ha
  exact ⟨(C1 a haddr).1, (C1 a haddr).2, C2 a haddr⟩

theorem C8_trade_conservation_witness :
    ValidOps c8WitnessOps ∧
    (ConsInv (runOps newEngine c8WitnessOps).1 (runOps newEngine c8WitnessOps).2 ∧
    (∀ i a, alookup (runOps newEngine c8WitnessOps).1.orderStore i = some a →
      0 ≤ (heapGetD (runOps newEngine c8WitnessOps).1.heap a).filledQuantity ∧
      (heapGetD (runOps newEngine c8WitnessOps).1.heap a).filledQuantity
        ≤ (heapGetD (runOps newEngine c8WitnessOps).1.heap a).quantity ∧
      tradesFor ((heapGetD (runOps newEngine c8WitnessOps).1.heap a).id)
        (runOps newEngine c8WitnessOps).2
        = (heapGetD (runOps newEngine c8WitnessOps).1.heap a).filledQuantity)) := by
  have hv : ValidOps c8WitnessOps := by
    constructor
    · decide
    · intro op hop
      rcases List.mem_cons.mp hop with rfl | hop2
      · exact (by norm_num : (0 : Int) < 5)
      rcases List.mem_cons.mp hop2 with rfl | hop3
      · exact (by norm_num : (0 : Int) < 3)
      · exact absurd hop3 (List.not_mem_nil op)
  exact ⟨hv, C8_trade_conservation c8WitnessOps hv⟩

/-! ## Queue preservation on the aggressor's own side -/

theorem queueAt_cons (l : PriceLevel) (ls : List PriceLevel) (p : Int) :
    queueAt (l :: ls) p = if l.price = p then l.orders else queueAt ls p := by
  rw [queueAt, queueAt, findLevel, findLevel]
  by_cases hp : l.price = p
  · simp [List.find?, hp]
  · simp [List.find?, hp]

theorem queueAt_nonempty_findLevel {ls : List PriceLevel} {p : Int} {a0 : Nat}
    (h : a0 ∈ queueAt ls p) : ∃ l, findLevel ls p = some l ∧ a0 ∈ l.orders := by
  rw [queueAt] at h
  cases hf : findLevel ls p with
  | none =>
    rw [hf] at h
    simp at h
  | some l =>
    rw [hf] at h
    exact ⟨l, rfl, by simpa using h⟩

/-- Enqueuing at the tail of some level never removes an address from the
queue it occupies. -/
theorem mem_queueAt_appendToLevel (ls : List PriceLevel) (p2 : Int) (x : Nat)
    (p : Int) (a0 : Nat) (h : a0 ∈ queueAt ls p) :
    a0 ∈ queueAt (appendToLevel ls p2 x) p := by
  induction ls with
  | nil => simpa [queueAt, findLevel, appendToLevel] using h
  | cons l rest ih =>
    rw [queueAt_cons] at h
    rw [appendToLevel, List.map_cons]
    by_cases hp2 : l.price = p2
    · rw [if_pos hp2, queueAt_cons]
      dsimp only
      split_ifs at h ⊢ with hp
      · exact List.mem_append_left _ h
      · have h2 := ih h
        rw [appendToLevel] at h2
        exact h2
    · rw [if_neg hp2, queueAt_cons]
      split_ifs at h ⊢ with hp
      · exact h
      · have h2 := ih h
        rw [appendToLevel] at h2
        exact h2

/-- Inserting a level of a fresh price leaves every other price's queue
unchanged. -/
theorem queueAt_insertLevel (lt : PriceLevel → PriceLevel → Bool)
    (ls : List PriceLevel) (lnew : PriceLevel) (p : Int) (hne : lnew.price ≠ p) :
    queueAt (insertLevel lt ls lnew) p = queueAt ls p := by
  induction ls with
  | nil =>
    rw [insertLevel, queueAt_cons, if_neg hne]
  | cons y ys ih =>
    rw [insertLevel]
    split_ifs with hc
    · rw [queueAt_cons lnew, if_neg hne]
    · rw [queueAt_cons, queueAt_cons, ih]

theorem getBookAndLock_books_getD (e : Engine) (sym sym' : String) :
    (alookup (getBookAndLock e sym).1.books sym').getD emptyBook = bookOf e sym' :=
  getBookAndLock_bookOf e sym sym'

/-- `ProcessOrder` never removes an address from a queue of the aggressor's
own side: matching walks only the opposite side, and resting the aggressor
only appends to a queue or inserts a fresh level. -/
theorem processOrder_same_side_queue (h : Heap) (b : OrderBook) (A : Nat)
    (p : Int) (a0 : Nat) :
    ((heapGetD h A).side = Side.buy →
      a0 ∈ queueAt b.bids p → a0 ∈ queueAt (processOrder h b A).2.1.bids p) ∧
    ((heapGetD h A).side = Side.sell →
      a0 ∈ queueAt b.asks p → a0 ∈ queueAt (processOrder h b A).2.1.asks p) := by
  constructor
  · intro hside hmem
    have hside2 : (heapGetD (matchOuter A buyStop b.asks
        ⟨h, b.orderMap, [], []⟩).2.heap A).side = Side.buy := by
      rw [core_eq_side (matchOuter_core A buyStop b.asks ⟨h, b.orderMap, [], []⟩ A)]
      exact hside
    simp only [processOrder]
    rw [if_pos hside]
    dsimp only
    split_ifs with h1 h2 h3
    · dsimp only
      simp only [addOrder]
      rw [if_pos hside2]
      simp only [addBid]
      cases hf : findLevel b.bids ((heapGetD (matchOuter A buyStop b.asks
          ⟨h, b.orderMap, [], []⟩).2.heap A).price) with
      | some l0 =>
        dsimp only
        exact mem_queueAt_appendToLevel _ _ _ _ _ hmem
      | none =>
        dsimp only
        have hnep : (heapGetD (matchOuter A buyStop b.asks
            ⟨h, b.orderMap, [], []⟩).2.heap A).price ≠ p := by
          intro he
          obtain ⟨l, hl, -⟩ := queueAt_nonempty_findLevel hmem
          rw [he] at hf
          exact Option.noConfusion (hf.symm.trans hl)
        rw [queueAt_insertLevel _ _ _ _ hnep]
        exact hmem
    · dsimp only
      simp only [addOrder]
      rw [if_pos hside2]
      simp only [addBid]
      cases hf : findLevel b.bids ((heapGetD (matchOuter A buyStop b.asks
          ⟨h, b.orderMap, [], []⟩).2.heap A).price) with
      | some l0 =>
        dsimp only
        exact mem_queueAt_appendToLevel _ _ _ _ _ hmem
      | none =>
        dsimp only
        have hnep : (heapGetD (matchOuter A buyStop b.asks
            ⟨h, b.orderMap, [], []⟩).2.heap A).price ≠ p := by
          intro he
          obtain ⟨l, hl, -⟩ := queueAt_nonempty_findLevel hmem
          rw [he] at hf
          exact Option.noConfusion (hf.symm.trans hl)
        rw [queueAt_insertLevel _ _ _ _ hnep]
        exact hmem
    · exact hmem
    · exact hmem
  · intro hside hmem
    have hnb : (heapGetD h A).side ≠ Side.buy := by
      rw [hside]
      exact fun hc => Side.noConfusion hc
    have hside2 : (heapGetD (matchOuter A sellStop b.bids
        ⟨h, b.orderMap, [], []⟩).2.heap A).side = Side.sell := by
      rw [core_eq_side (matchOuter_core A sellStop b.bids ⟨h, b.orderMap, [], []⟩ A)]
      exact hside
    have hnb2 : ¬ (heapGetD (matchOuter A sellStop b.bids
        ⟨h, b.orderMap, [], []⟩).2.heap A).side = Side.buy := by
      rw [hside2]
      exact fun hc => Side.noConfusion hc
    simp only [processOrder]
    rw [if_neg hnb]
    dsimp only
    split_ifs with h1 h2 h3
    · dsimp only
      simp only [addOrder]
      rw [if_neg hnb2]
      simp only [addAsk]
      cases hf : findLevel b.asks ((heapGetD (matchOuter A sellStop b.bids
          ⟨h, b.orderMap, [], []⟩).2.heap A).price) with
      | some l0 =>
        dsimp only
        exact mem_queueAt_appendToLevel _ _ _ _ _ hmem
      | none =>
        dsimp only
        have hnep : (heapGetD (matchOuter A sellStop b.bids
            ⟨h, b.orderMap, [], []⟩).2.heap A).price ≠ p := by
          intro he
          obtain ⟨l, hl, -⟩ := queueAt_nonempty_findLevel hmem
          rw [he] at hf
          exact Option.noConfusion (hf.symm.trans hl)
        rw [queueAt_insertLevel _ _ _ _ hnep]
        exact hmem
    · dsimp only
      simp only [addOrder]
      rw [if_neg hnb2]
      simp only [addAsk]
      cases hf : findLevel b.asks ((heapGetD (matchOuter A sellStop b.bids
          ⟨h, b.orderMap, [], []⟩).2.heap A).price) with
      | some l0 =>
        dsimp only
        exact mem_queueAt_appendToLevel _ _ _ _ _ hmem
      | none =>
        dsimp only
        have hnep : (heapGetD (matchOuter A sellStop b.bids
            ⟨h, b.orderMap, [], []⟩).2.heap A).price ≠ p := by
          intro he
          obtain ⟨l, hl, -⟩ := queueAt_nonempty_findLevel hmem
          rw [he] at hf
          exact Option.noConfusion (hf.symm.trans hl)
        rw [queueAt_insertLevel _ _ _ _ hnep]
        exact hmem
    · exact hmem
    · exact hmem

/-- C10.  Duplicate-identifier submit: a SUCCESSFUL submission of any type
silently overwrites the directory entry, so the directory, `GetOrderStatus`
and `CancelOrder` afterwards resolve the identifier to the newer order's
record at the fresh address; in every case books of other symbols are
untouched and every pre-existing record keeps its immutable fields, and the
earlier order — when the newer one cannot match against it (other symbol,
or same side) — stays in the queue of its price level while unreachable
through the directory.  A REJECTED duplicate-identifier market submission,
however, deletes the directory key outright, so the identifier afterwards
resolves to neither order. -/
theorem C10_duplicate_id_overwrite (e : Engine) (o : Order) (a0 : Nat)
    (hold : alookup e.orderStore o.id = some a0)
    (hnew : alookup e.heap e.nextAddr = none) :
    (∀ r, (submitOrder e o).2 = Except.ok r →
      alookup (submitOrder e o).1.orderStore o.id = some e.nextAddr ∧
      getOrderStatus (submitOrder e o).1 o.id
        = some (heapGetD (submitOrder e o).1.heap e.nextAddr) ∧
      (cancelOrder (submitOrder e o).1 o.id).2
        = (if (heapGetD (submitOrder e o).1.heap e.nextAddr).status
              = OrderStatus.filled ∨
            (heapGetD (submitOrder e o).1.heap e.nextAddr).status
              = OrderStatus.cancelled
           then Except.error CancelError.alreadyTerminal
           else Except.ok { heapGetD (submitOrder e o).1.heap e.nextAddr with
                            status := OrderStatus.cancelled })) ∧
    (∀ err, (submitOrder e o).2 = Except.error err →
      alookup (submitOrder e o).1.orderStore o.id = none ∧
      getOrderStatus (submitOrder e o).1 o.id = none ∧
      (cancelOrder (submitOrder e o).1 o.id).2
        = Except.error CancelError.orderNotFound) ∧
    (∀ sym2, sym2 ≠ o.symbol → bookOf (submitOrder e o).1 sym2 = bookOf e sym2) ∧
    (∀ a, a ≠ e.nextAddr →
      (heapGetD (submitOrder e o).1.heap a).core = (heapGetD e.heap a).core) ∧
    (∀ p, ((heapGetD e.heap a0).symbol ≠ o.symbol ∨
        o.side = (heapGetD e.heap a0).side) →
      a0 ∈ queueAt (if (heapGetD e.heap a0).side = Side.buy
          then (bookOf e ((heapGetD e.heap a0).symbol)).bids
          else (bookOf e ((heapGetD e.heap a0).symbol)).asks) p →
      a0 ∈ queueAt (if (heapGetD e.heap a0).side = Side.buy
          then (bookOf (submitOrder e o).1 ((heapGetD e.heap a0).symbol)).bids
          else (bookOf (submitOrder e o).1 ((heapGetD e.heap a0).symbol)).asks) p) := by
  have hh := getBookAndLock_heap e o.symbol
  have hn := getBookAndLock_nextAddr e o.symbol
  have hb := getBookAndLock_book e o.symbol
  have hs := getBookAndLock_orderStore e o.symbol
  simp only [submitOrder, hh, hn, hb, hs]
  by_cases hrej : o.type = OrderType.market ∧
      (checkMarketOrderLiquidity (e.heap ++ [(e.nextAddr, o)])
        (bookOf e o.symbol) o).2 = false
  · rw [if_pos hrej]
    dsimp only
    have hstore0 : alookup (aerase (aupd e.orderStore o.id e.nextAddr) o.id) o.id
        = none := by
      rw [alookup_aerase, if_pos rfl]
    refine ⟨?_, ?_, ?_, ?_, ?_⟩
    · intro r hr
      exact Except.noConfusion hr
    · intro err herr
      refine ⟨hstore0, ?_, ?_⟩
      · simp only [getOrderStatus]
        rw [hstore0]
        rfl
      · simp only [cancelOrder]
        rw [hstore0]
    · intro sym2 hne
      exact getBookAndLock_books_getD e o.symbol sym2
    · intro a hne
      rw [heapGetD_snoc_ne _ _ _ _ hne]
    · intro p hcond hmem
      by_cases hbuy : (heapGetD e.heap a0).side = Side.buy
      · rw [if_pos hbuy] at hmem ⊢
        show a0 ∈ queueAt ((alookup (getBookAndLock e o.symbol).1.books
            ((heapGetD e.heap a0).symbol)).getD emptyBook).bids p
        rw [getBookAndLock_books_getD]
        exact hmem
      · rw [if_neg hbuy] at hmem ⊢
        show a0 ∈ queueAt ((alookup (getBookAndLock e o.symbol).1.books
            ((heapGetD e.heap a0).symbol)).getD emptyBook).asks p
        rw [getBookAndLock_books_getD]
        exact hmem
  · rw [if_neg hrej]
    dsimp only
    have hstore : alookup (aupd e.orderStore o.id e.nextAddr) o.id
        = some e.nextAddr := by
      rw [alookup_aupd]
      simp
    refine ⟨?_, ?_, ?_, ?_, ?_⟩
    · intro r hr
      refine ⟨hstore, ?_, ?_⟩
      · simp only [getOrderStatus]
        rw [hstore]
        rfl
      · simp only [cancelOrder]
        rw [hstore]
        dsimp only
        split_ifs with hterm
        · rfl
        · rfl
    · intro err herr
      exact Except.noConfusion herr
    · intro sym2 hne
      show (alookup (aupd (getBookAndLock e o.symbol).1.books o.symbol
          (processOrder (e.heap ++ [(e.nextAddr, o)]) (bookOf e o.symbol)
            e.nextAddr).2.1) sym2).getD emptyBook = bookOf e sym2
      rw [alookup_aupd_ne _ _ _ _ (fun hx => hne hx.symm)]
      exact getBookAndLock_bookOf e o.symbol sym2
    · intro a hne
      rw [processOrder_core, heapGetD_snoc_ne _ _ _ _ hne]
    · intro p hcond hmem
      by_cases hsym : (heapGetD e.heap a0).symbol = o.symbol
      · have hsame : o.side = (heapGetD e.heap a0).side := by
          rcases hcond with hc | hc
          · exact absurd hsym hc
          · exact hc
        have hsideA : (heapGetD (e.heap ++ [(e.nextAddr, o)]) e.nextAddr).side
            = o.side := by
          rw [heapGetD_snoc_self _ _ _ hnew]
        by_cases hbuy : (heapGetD e.heap a0).side = Side.buy
        · rw [if_pos hbuy] at hmem ⊢
          show a0 ∈ queueAt ((alookup (aupd (getBookAndLock e o.symbol).1.books
              o.symbol (processOrder (e.heap ++ [(e.nextAddr, o)])
                (bookOf e o.symbol) e.nextAddr).2.1)
              ((heapGetD e.heap a0).symbol)).getD emptyBook).bids p
          rw [hsym, alookup_aupd, if_pos rfl, Option.getD_some]
          refine (processOrder_same_side_queue (e.heap ++ [(e.nextAddr, o)])
            (bookOf e o.symbol) e.nextAddr p a0).1 ?_ ?_
          · rw [hsideA, hsame, hbuy]
          · rw [← hsym]
            exact hmem
        · rw [if_neg hbuy] at hmem ⊢
          have hsell : (heapGetD e.heap a0).side = Side.sell := by
            cases hside0 : (heapGetD e.heap a0).side with
            | buy => exact absurd hside0 hbuy
            | sell => rfl
          show a0 ∈ queueAt ((alookup (aupd (getBookAndLock e o.symbol).1.books
              o.symbol (processOrder (e.heap ++ [(e.nextAddr, o)])
                (bookOf e o.symbol) e.nextAddr).2.1)
              ((heapGetD e.heap a0).symbol)).getD emptyBook).asks p
          rw [hsym, alookup_aupd, if_pos rfl, Option.getD_some]
          refine (processOrder_same_side_queue (e.heap ++ [(e.nextAddr, o)])
            (bookOf e o.symbol) e.nextAddr p a0).2 ?_ ?_
          · rw [hsideA, hsame, hsell]
          · rw [← hsym]
            exact hmem
      · by_cases hbuy : (heapGetD e.heap a0).side = Side.buy
        · rw [if_pos hbuy] at hmem ⊢
          show a0 ∈ queueAt ((alookup (aupd (getBookAndLock e o.symbol).1.books
              o.symbol (processOrder (e.heap ++ [(e.nextAddr, o)])
                (bookOf e o.symbol) e.nextAddr).2.1)
              ((heapGetD e.heap a0).symbol)).getD emptyBook).bids p
          rw [alookup_aupd_ne _ _ _ _ (fun hx => hsym hx.symm),
            getBookAndLock_books_getD]
          exact hmem
        · rw [if_neg hbuy] at hmem ⊢
          show a0 ∈ queueAt ((alookup (aupd (getBookAndLock e o.symbol).1.books
              o.symbol (processOrder (e.heap ++ [(e.nextAddr, o)])
                (bookOf e o.symbol) e.nextAddr).2.1)
              ((heapGetD e.heap a0).symbol)).getD emptyBook).asks p
          rw [alookup_aupd_ne _ _ _ _ (fun hx => hsym hx.symm),
            getBookAndLock_books_getD]
          exact hmem

/-- Witness for C10: resubmitting id X1 (an accepted limit order) repoints
the directory at the new record's address. -/
theorem C10_duplicate_id_overwrite_witness :
    alookup (submitOrder
        ⟨[(0, ⟨"X1", "AAPL", Side.sell, OrderType.limit, 10050, 100, 0,
            OrderStatus.accepted, 1⟩)],
          1, [("AAPL", ⟨[], [⟨10050, [0]⟩], [("X1", 0)]⟩)], ["AAPL"], [("X1", 0)]⟩
        (newOrder "X1" "AAPL" Side.buy OrderType.limit 10000 50 2)).1.orderStore
      "X1" = some 1 :=
  ((C10_duplicate_id_overwrite
      ⟨[(0, ⟨"X1", "AAPL", Side.sell, OrderType.limit, 10050, 100, 0,
          OrderStatus.accepted, 1⟩)],
        1, [("AAPL", ⟨[], [⟨10050, [0]⟩], [("X1", 0)]⟩)], ["AAPL"], [("X1", 0)]⟩
      (newOrder "X1" "AAPL" Side.buy OrderType.limit 10000 50 2) 0
      (by decide) (by decide)).1 _ rfl).1

/-- Counterexample to the claim's unconditional overwrite reading: a
duplicate-identifier MARKET submission that fails the liquidity pre-check
deletes the directory key outright, so afterwards the identifier resolves
to neither the newer nor the older order. -/
theorem C10_duplicate_id_overwrite_counterexample :
    alookup
      (⟨[(0, ⟨"X1", "AAPL", Side.buy, OrderType.limit, 10050, 100, 0,
          OrderStatus.accepted, 1⟩)],
        1, [("AAPL", ⟨[⟨10050, [0]⟩], [], [("X1", 0)]⟩)], ["AAPL"],
        [("X1", 0)]⟩ : Engine).orderStore "X1" = some 0 ∧
    (submitOrder
      ⟨[(0, ⟨"X1", "AAPL", Side.buy, OrderType.limit, 10050, 100, 0,
          OrderStatus.accepted, 1⟩)],
        1, [("AAPL", ⟨[⟨10050, [0]⟩], [], [("X1", 0)]⟩)], ["AAPL"], [("X1", 0)]⟩
      (newOrder "X1" "AAPL" Side.buy OrderType.market 0 5 2)).2
      = Except.error ⟨0, 5⟩ ∧
    alookup (submitOrder
      ⟨[(0, ⟨"X1", "AAPL", Side.buy, OrderType.limit, 10050, 100, 0,
          OrderStatus.accepted, 1⟩)],
        1, [("AAPL", ⟨[⟨10050, [0]⟩], [], [("X1", 0)]⟩)], ["AAPL"], [("X1", 0)]⟩
      (newOrder "X1" "AAPL" Side.buy OrderType.market 0 5 2)).1.orderStore "X1"
      = none ∧
    getOrderStatus (submitOrder
      ⟨[(0, ⟨"X1", "AAPL", Side.buy, OrderType.limit, 10050, 100, 0,
          OrderStatus.accepted, 1⟩)],
        1, [("AAPL", ⟨[⟨10050, [0]⟩], [], [("X1", 0)]⟩)], ["AAPL"], [("X1", 0)]⟩
      (newOrder "X1" "AAPL" Side.buy OrderType.market 0 5 2)).1 "X1" = none ∧
    (cancelOrder (submitOrder
      ⟨[(0, ⟨"X1", "AAPL", Side.buy, OrderType.limit, 10050, 100, 0,
          OrderStatus.accepted, 1⟩)],
        1, [("AAPL", ⟨[⟨10050, [0]⟩], [], [("X1", 0)]⟩)], ["AAPL"], [("X1", 0)]⟩
      (newOrder "X1" "AAPL" Side.buy OrderType.market 0 5 2)).1 "X1").2
      = Except.error CancelError.orderNotFound :=
  ⟨by decide, rfl, by decide, by decide, rfl⟩
